import Mathlib

/-!
Shallow embedding of the `rbtree` Go package (generic red-black tree with
parent pointers).  Pointers are modelled as `Option Nat` addresses into a
total heap `Nat → RBNode α`; dereferencing `nil` yields the `panic` marker,
and every recursive Go function takes fuel (`fuelOut` is distinct from
`panic`, so panic-freedom can be stated independently of termination).
Each definition is a statement-by-statement translation of the homonymous
Go function.
-/

namespace RBGo

/-- Result of running a piece of Go code: a nil-pointer dereference is
`panic`, exhausted fuel is `fuelOut`, a normal return is `ok`. -/
inductive Res (β : Type) where
  | panic : Res β
  | fuelOut : Res β
  | ok : β → Res β
deriving Repr, DecidableEq

def Res.bind {β γ : Type} : Res β → (β → Res γ) → Res γ
  | .panic, _ => .panic
  | .fuelOut, _ => .fuelOut
  | .ok b, f => f b

instance : Monad Res where
  pure := Res.ok
  bind := Res.bind

variable {α : Type}

/-- `RBNode` (Go struct): value, child/parent pointers, color bit.
A Go struct literal zeroes omitted fields, hence the defaults. -/
structure RBNode (α : Type) where
  Val : α
  left : Option Nat := none
  right : Option Nat := none
  parent : Option Nat := none
  isBlack : Bool := false

/-- The Go heap: a total map from addresses to node records.  Non-nil Go
pointers are never dangling, so lookup is total; only `nil` (= `none`)
dereferences can panic. -/
def Heap (α : Type) : Type := Nat → RBNode α

/-- Write the node at address `a`. -/
def hset (h : Heap α) (a : Nat) (n : RBNode α) : Heap α :=
  fun b => if b = a then n else h b

/-- Update one field of the node at address `a`. -/
def upd (h : Heap α) (a : Nat) (f : RBNode α → RBNode α) : Heap α :=
  fun b => if b = a then f (h b) else h b

/-- Dereference a pointer: `nil` panics. -/
def getP (h : Heap α) : Option Nat → Res (RBNode α)
  | none => .panic
  | some a => .ok (h a)

/-- Field write through a pointer: `nil` panics. -/
def updP (h : Heap α) (p : Option Nat) (f : RBNode α → RBNode α) : Res (Heap α) :=
  match p with
  | none => .panic
  | some a => .ok (upd h a f)

/-- `func isBlack(rbn *RBNode) bool`: true if the node is black or nil. -/
def isBlack (h : Heap α) (p : Option Nat) : Bool :=
  match p with
  | none => true
  | some a => (h a).isBlack

/-- `RBTree` (Go struct): root pointer, comparator (nil-able), cached
`Min`/`Max` pointers and node `Count`. -/
structure RBTree (α : Type) where
  root : Option Nat
  cmp : Option (α → α → Int)
  Min : Option Nat
  Max : Option Nat
  Count : Int

/-- `New`: empty tree with the given comparator. -/
def New (c : α → α → Int) : RBTree α :=
  { root := none, cmp := some c, Min := none, Max := none, Count := 0 }

/-- `leftmost`: follow left children to the smallest node of the subtree. -/
def leftmost (h : Heap α) : Nat → Nat → Res Nat
  | 0, _ => .fuelOut
  | fuel + 1, a =>
    match (h a).left with
    | some l => leftmost h fuel l
    | none => .ok a

/-- `rightmost`: follow right children to the biggest node of the subtree. -/
def rightmost (h : Heap α) : Nat → Nat → Res Nat
  | 0, _ => .fuelOut
  | fuel + 1, a =>
    match (h a).right with
    | some r => rightmost h fuel r
    | none => .ok a

/-- The ascending loop of `Next`: climb while the current node is its
parent's right child, then return the parent (with its non-nil flag). -/
def nextUp (h : Heap α) : Nat → Nat → Res (Option Nat × Bool)
  | 0, _ => .fuelOut
  | fuel + 1, a =>
    match (h a).parent with
    | some p =>
      if (h p).right = some a then nextUp h fuel p
      else .ok (some p, true)
    | none => .ok (none, false)

/-- `Next`: in-order successor pointer and presence flag. -/
def Next (h : Heap α) (fuel : Nat) (a : Nat) : Res (Option Nat × Bool) :=
  match (h a).right with
  | some r => do
    let m ← leftmost h fuel r
    return (some m, true)
  | none => nextUp h fuel a

/-- The ascending loop of `Prev` (mirror of `nextUp`). -/
def prevUp (h : Heap α) : Nat → Nat → Res (Option Nat × Bool)
  | 0, _ => .fuelOut
  | fuel + 1, a =>
    match (h a).parent with
    | some p =>
      if (h p).left = some a then prevUp h fuel p
      else .ok (some p, true)
    | none => .ok (none, false)

/-- `Prev`: in-order predecessor pointer and presence flag. -/
def Prev (h : Heap α) (fuel : Nat) (a : Nat) : Res (Option Nat × Bool) :=
  match (h a).left with
  | some l => do
    let m ← rightmost h fuel l
    return (some m, true)
  | none => prevUp h fuel a

/-- `find`: descend by comparator; returns the node and a found flag. -/
def find (c : α → α → Int) (h : Heap α) : Nat → Nat → α → Res (Option Nat × Bool)
  | 0, _, _ => .fuelOut
  | fuel + 1, a, val =>
    let result := c val (h a).Val
    if result < 0 then
      match (h a).left with
      | none => .ok (none, false)
      | some l => find c h fuel l val
    else if result > 0 then
      match (h a).right with
      | none => .ok (none, false)
      | some r => find c h fuel r val
    else .ok (some a, true)

/-- `insert` (node level): descend and attach a fresh red node, or return
the pre-existing equal node with `false`.  `free` is the next fresh
address; returns (heap, next free address, node, inserted). -/
def insert (c : α → α → Int) (h : Heap α) : Nat → Nat → Nat → α →
    Res (Heap α × Nat × Nat × Bool)
  | 0, _, _, _ => .fuelOut
  | fuel + 1, a, free, val =>
    let result := c val (h a).Val
    if result < 0 then
      match (h a).left with
      | none =>
        let h := hset h free { Val := val, parent := some a }
        let h := upd h a (fun n => { n with left := some free })
        .ok (h, free + 1, free, true)
      | some l => insert c h fuel l free val
    else if result > 0 then
      match (h a).right with
      | none =>
        let h := hset h free { Val := val, parent := some a }
        let h := upd h a (fun n => { n with right := some free })
        .ok (h, free + 1, free, true)
      | some r => insert c h fuel r free val
    else .ok (h, free, a, false)

/-- `clone` (node level): recursively copy a subtree into fresh addresses,
setting the copies' parent back-references; returns (heap, next free
address, address of the copy). -/
def clone (h : Heap α) : Nat → Nat → Nat → Res (Heap α × Nat × Nat)
  | 0, _, _ => .fuelOut
  | fuel + 1, a, free =>
    let new := free
    let h' := hset h new { Val := (h a).Val, isBlack := (h a).isBlack }
    let free' := new + 1
    match (h a).left with
    | some l => do
      let (h2, free2, cl) ← clone h' fuel l free'
      let h2 := upd h2 new (fun n => { n with left := some cl })
      let h2 := upd h2 cl (fun n => { n with parent := some new })
      match (h2 a).right with
      | some r => do
        let (h3, free3, cr) ← clone h2 fuel r free2
        let h3 := upd h3 new (fun n => { n with right := some cr })
        let h3 := upd h3 cr (fun n => { n with parent := some new })
        .ok (h3, free3, new)
      | none => .ok (h2, free2, new)
    | none =>
      match (h' a).right with
      | some r => do
        let (h3, free3, cr) ← clone h' fuel r free'
        let h3 := upd h3 new (fun n => { n with right := some cr })
        let h3 := upd h3 cr (fun n => { n with parent := some new })
        .ok (h3, free3, new)
      | none => .ok (h', free', new)

/-- `equalTo` (node level): synchronized descent comparing value (by the
comparator), color, and shape. -/
def equalTo (c : α → α → Int) (h : Heap α) : Nat → Nat → Option Nat → Res Bool
  | 0, _, _ => .fuelOut
  | fuel + 1, a, anotherRBN =>
    match anotherRBN with
    | none => .ok false
    | some b =>
      if c (h a).Val (h b).Val ≠ 0 ∨ (h a).isBlack ≠ (h b).isBlack then .ok false
      else do
        let okl ←
          match (h a).left with
          | some l => equalTo c h fuel l (h b).left
          | none => pure true
        if (h a).left ≠ none ∧ okl = false then return false
        if (h a).left = none ∧ (h b).left ≠ none then return false
        let okr ←
          match (h a).right with
          | some r => equalTo c h fuel r (h b).right
          | none => pure true
        if (h a).right ≠ none ∧ okr = false then return false
        if (h a).right = none ∧ (h b).right ≠ none then return false
        return true

/-- Dereference a pointer to obtain its address: `nil` panics. -/
def derefA : Option Nat → Res Nat
  | none => .panic
  | some a => .ok a

mutual

/-- `leftSubtreeIsValid`: check back-reference and strict order of the left
child, then recurse.  State `(initialBlackHeight, blackHeight, ok)`. -/
def leftSubtreeIsValid (c : α → α → Int) (h : Heap α) :
    Nat → Nat → Int → Int → Res (Int × Int × Bool)
  | 0, _, _, _ => .fuelOut
  | fuel + 1, a, ibh, cbh =>
    match (h a).left with
    | none => .ok (ibh, cbh, true)
    | some l =>
      if (h l).parent ≠ some a ∨ c (h a).Val (h l).Val ≤ 0 then .ok (ibh, 0, false)
      else isValid c h fuel l ibh cbh

/-- `rightSubtreeIsValid`: mirror of `leftSubtreeIsValid`. -/
def rightSubtreeIsValid (c : α → α → Int) (h : Heap α) :
    Nat → Nat → Int → Int → Res (Int × Int × Bool)
  | 0, _, _, _ => .fuelOut
  | fuel + 1, a, ibh, cbh =>
    match (h a).right with
    | none => .ok (ibh, cbh, true)
    | some r =>
      if (h r).parent ≠ some a ∨ c (h a).Val (h r).Val ≥ 0 then .ok (ibh, 0, false)
      else isValid c h fuel r ibh cbh

/-- `isValid` (node level): the Go function threads the first observed leaf
black-height through an `*int` (0 meaning unset); here it is state-passed
as the first component of the result. -/
def isValid (c : α → α → Int) (h : Heap α) :
    Nat → Nat → Int → Int → Res (Int × Int × Bool)
  | 0, _, _, _ => .fuelOut
  | fuel + 1, a, ibh, cbh =>
    let rest : Int → Int → Res (Int × Int × Bool) := fun ibh cbh => do
      let (ibh, leftBlackHeight, ok) ← leftSubtreeIsValid c h fuel a ibh cbh
      if ¬ ok then return (ibh, 0, false)
      let (ibh, rightBlackHeight, ok) ← rightSubtreeIsValid c h fuel a ibh cbh
      if ¬ ok ∨ leftBlackHeight ≠ rightBlackHeight then return (ibh, 0, false)
      return (ibh, max leftBlackHeight cbh, true)
    let afterColor : Int → Res (Int × Int × Bool) := fun cbh =>
      if (h a).left = none ∧ (h a).right = none then
        if ibh = 0 then .ok (cbh, cbh, true)
        else if ibh ≠ cbh then .ok (ibh, 0, false)
        else rest ibh cbh
      else rest ibh cbh
    if (h a).isBlack then afterColor (cbh + 1)
    else
      match (h a).parent with
      | none => .panic
      | some p => if ¬ (h p).isBlack then .ok (ibh, 0, false) else afterColor cbh

end

/-- The `Min`-to-`Max` counting loop inside `IsValid`:
`for i, ok := rbt.Min, true; ok; i, ok = i.Next() { count++ }`. -/
def countLoop (h : Heap α) : Nat → Option Nat → Bool → Int → Res Int
  | 0, _, _, _ => .fuelOut
  | fuel + 1, i, ok, count =>
    if ok then do
      let count := count + 1
      let ia ← derefA i
      let (i', ok') ← Next h fuel ia
      countLoop h fuel i' ok' count
    else .ok count

/-- `IsValid` (tree level). -/
def IsValid (fuel : Nat) (h : Heap α) (t : RBTree α) : Res Bool :=
  match t.cmp with
  | none => .ok false
  | some c =>
    match t.root with
    | none => .ok (decide (t.Min = none ∧ t.Max = none ∧ t.Count = 0))
    | some r =>
      if (h r).parent ≠ none ∨ ¬ (h r).isBlack then .ok false
      else do
        let (_, _, valid) ← isValid c h fuel r 0 0
        if ¬ valid then return false
        let lm ← leftmost h fuel r
        if t.Min ≠ some lm then return false
        let rm ← rightmost h fuel r
        if t.Max ≠ some rm then return false
        let count ← countLoop h fuel t.Min true 0
        return decide (count = t.Count)

/-- `recString`: right subtree first, then `fmt.Sprintln(strings.Repeat(" ",
counter), rbn.Val)` (which separates its two operands by one space and
appends a newline), then the left subtree.  `sh` renders a value the way
`fmt` would. -/
def recString (sh : α → String) (h : Heap α) : Nat → Nat → Nat → String → Res String
  | 0, _, _, _ => .fuelOut
  | fuel + 1, a, counter, result => do
    let result ←
      match (h a).right with
      | some r => recString sh h fuel r (counter + 1) result
      | none => pure result
    let result := result ++ String.mk (List.replicate counter ' ') ++ " " ++ sh (h a).Val ++ "\n"
    match (h a).left with
    | some l => recString sh h fuel l (counter + 1) result
    | none => pure result

/-- `String` (tree level): empty tree renders as the empty string. -/
def TreeString (sh : α → String) (fuel : Nat) (h : Heap α) (t : RBTree α) : Res String :=
  match t.root with
  | none => .ok ""
  | some r => recString sh h fuel r 0 ""

/-- `Find` (tree level). -/
def Find (c? : Option (α → α → Int)) (fuel : Nat) (h : Heap α) (root : Option Nat)
    (val : α) : Res (Option Nat × Bool) :=
  match root with
  | none => .ok (none, false)
  | some r =>
    match c? with
    | none => .panic
    | some c => find c h fuel r val

/-- `EqualTo` (tree level): nil argument, empties, count, then node-level
synchronized descent with the receiver's comparator. -/
def EqualTo (fuel : Nat) (h : Heap α) (t : RBTree α) (another : Option (RBTree α)) :
    Res Bool :=
  match another with
  | none => .ok false
  | some t2 =>
    match t.root, t2.root with
    | none, none => .ok true
    | none, some _ => .ok false
    | some _, none => .ok false
    | some r, some r2 =>
      if t.Count ≠ t2.Count then .ok false
      else
        match t.cmp with
        | none => .panic
        | some c => equalTo c h fuel r (some r2)

/-- `Clone` (tree level): deep copy of the nodes, shared comparator,
`Min`/`Max` recomputed by descent in the new graph. -/
def Clone (fuel : Nat) (h : Heap α) (free : Nat) (t : RBTree α) :
    Res (Heap α × Nat × RBTree α) :=
  match t.root with
  | none => .ok (h, free, { root := none, cmp := t.cmp, Min := none, Max := none, Count := 0 })
  | some r => do
    let (h, free, newRoot) ← clone h fuel r free
    let lm ← leftmost h fuel newRoot
    let rm ← rightmost h fuel newRoot
    .ok (h, free,
      { root := some newRoot, cmp := t.cmp, Min := some lm, Max := some rm, Count := t.Count })

/-- `rotateRight`: move the node down to the right; returns the updated
heap and tree root pointer. -/
def rotateRight (h : Heap α) (root : Option Nat) (a : Nat) : Res (Heap α × Option Nat) := do
  let root := if root = some a then (h a).left else root
  let h ← updP h (h a).left (fun n => { n with parent := (h a).parent })
  let h := upd h a (fun n => { n with parent := n.left })
  let pn ← getP h (h a).parent
  let h := upd h a (fun n => { n with left := pn.right })
  let h ←
    match (h a).left with
    | some l => pure (upd h l (fun n => { n with parent := some a }))
    | none => pure h
  let h ← updP h (h a).parent (fun n => { n with right := some a })
  let pn ← getP h (h a).parent
  match pn.parent with
  | none => return (h, root)
  | some g =>
    if (h g).left = some a then
      return (upd h g (fun n => { n with left := (h a).parent }), root)
    else
      return (upd h g (fun n => { n with right := (h a).parent }), root)

/-- `rotateLeft`: move the node down to the left (mirror of `rotateRight`). -/
def rotateLeft (h : Heap α) (root : Option Nat) (a : Nat) : Res (Heap α × Option Nat) := do
  let root := if root = some a then (h a).right else root
  let h ← updP h (h a).right (fun n => { n with parent := (h a).parent })
  let h := upd h a (fun n => { n with parent := n.right })
  let pn ← getP h (h a).parent
  let h := upd h a (fun n => { n with right := pn.left })
  let h ←
    match (h a).right with
    | some r => pure (upd h r (fun n => { n with parent := some a }))
    | none => pure h
  let h ← updP h (h a).parent (fun n => { n with left := some a })
  let pn ← getP h (h a).parent
  match pn.parent with
  | none => return (h, root)
  | some g =>
    if (h g).left = some a then
      return (upd h g (fun n => { n with left := (h a).parent }), root)
    else
      return (upd h g (fun n => { n with right := (h a).parent }), root)

/-- `solveDoubleRed`: repair a red node with a red parent after insertion. -/
def solveDoubleRed (h : Heap α) (root : Option Nat) :
    Nat → Nat → Res (Heap α × Option Nat)
  | 0, _ => .fuelOut
  | fuel + 1, a => do
    let pn ← getP h (h a).parent
    if isBlack h pn.left then do
      -- sibling (uncle) is left and black
      let (h, root, rbnP) ←
        if ¬ isBlack h (h a).left then do
          let (h, root) ← rotateRight h root a
          pure (h, root, (h a).parent)
        else pure (h, root, some a)
      let rbn ← getP h rbnP
      let h ← updP h rbn.parent (fun n => { n with isBlack := false })
      let h ← updP h rbnP (fun n => { n with isBlack := true })
      let rbn ← getP h rbnP
      let pa ← derefA rbn.parent
      rotateLeft h root pa
    else if isBlack h pn.right then do
      -- sibling (uncle) is right and black
      let (h, root, rbnP) ←
        if ¬ isBlack h (h a).right then do
          let (h, root) ← rotateLeft h root a
          pure (h, root, (h a).parent)
        else pure (h, root, some a)
      let rbn ← getP h rbnP
      let h ← updP h rbn.parent (fun n => { n with isBlack := false })
      let h ← updP h rbnP (fun n => { n with isBlack := true })
      let rbn ← getP h rbnP
      let pa ← derefA rbn.parent
      rotateRight h root pa
    else do
      -- sibling (uncle) is red
      let pn ← getP h (h a).parent
      let h ← updP h pn.left (fun n => { n with isBlack := true })
      let h ← updP h pn.right (fun n => { n with isBlack := true })
      let pn ← getP h (h a).parent
      match pn.parent with
      | none => return (h, root)
      | some g =>
        let h ← updP h (h a).parent (fun n => { n with isBlack := false })
        if ¬ (h g).isBlack then solveDoubleRed h root fuel g
        else return (h, root)

/-- `Insert` (tree level): attach, update `Min`/`Max`, repair, count. -/
def Insert (fuel : Nat) (h : Heap α) (free : Nat) (t : RBTree α) (val : α) :
    Res (Heap α × Nat × RBTree α × Nat × Bool) :=
  match t.root with
  | none =>
    let a := free
    let h := hset h a { Val := val, isBlack := true }
    .ok (h, free + 1,
      { t with root := some a, Min := some a, Max := some a, Count := t.Count + 1 }, a, true)
  | some r =>
    match t.cmp with
    | none => .panic
    | some c => do
      let (h, free, node, ok) ← insert c h fuel r free val
      if ¬ ok then return (h, free, t, node, false)
      let mn ← getP h t.Min
      let t ←
        if c val mn.Val < 0 then pure { t with Min := some node }
        else do
          let mx ← getP h t.Max
          if c val mx.Val > 0 then pure { t with Max := some node }
          else pure t
      let npn ← getP h (h node).parent
      let (h, root) ←
        if ¬ npn.isBlack then do
          let pa ← derefA (h node).parent
          solveDoubleRed h t.root fuel pa
        else pure (h, t.root)
      return (h, free, { t with root := root, Count := t.Count + 1 }, node, true)

mutual

/-- `solveDoubleBlack`: repair the black-height deficiency after removing
a black node.  `a` may already be detached from its parent. -/
def solveDoubleBlack (h : Heap α) (root : Option Nat) :
    Nat → Nat → Res (Heap α × Option Nat)
  | 0, _ => .fuelOut
  | fuel + 1, a => do
    if root = some a then return (h, root)
    let parent := (h a).parent
    let pa ← derefA parent
    let (siblingIsRight, sibling) :=
      if (h pa).left = some a ∨ ((h pa).right ≠ none ∧ (h pa).right ≠ some a) then
        (true, (h pa).right)
      else (false, (h pa).left)
    let (h, root, sibling) ←
      if sibling ≠ none ∧ ¬ isBlack h sibling then do
        -- red sibling
        let h := upd h pa (fun n => { n with isBlack := false })
        let h ← updP h sibling (fun n => { n with isBlack := true })
        if siblingIsRight then do
          let (h, root) ← rotateLeft h root pa
          pure (h, root, (h pa).right)
        else do
          let (h, root) ← rotateRight h root pa
          pure (h, root, (h pa).left)
      else pure (h, root, sibling)
    let sa ← derefA sibling
    if (h sa).isBlack ∧ isBlack h (h sa).left ∧ isBlack h (h sa).right then do
      -- black sibling with black children
      let h := upd h sa (fun n => { n with isBlack := false })
      if (h pa).isBlack then solveDoubleBlack h root fuel pa
      else do
        let h := upd h pa (fun n => { n with isBlack := true })
        return (h, root)
    else
      -- black sibling with red child
      doubleBlackBlackSiblingRedChild h root fuel pa sa siblingIsRight

/-- `doubleBlackBlackSiblingRedChild`: continuation of `solveDoubleBlack`. -/
def doubleBlackBlackSiblingRedChild (h : Heap α) (root : Option Nat) :
    Nat → Nat → Nat → Bool → Res (Heap α × Option Nat)
  | 0, _, _, _ => .fuelOut
  | _fuel + 1, pa, sa, siblingIsRight => do
    let rightIsBlack := isBlack h (h sa).right
    let leftIsBlack := isBlack h (h sa).left
    let (h, root, sa, rightIsBlack, leftIsBlack) ←
      if rightIsBlack = siblingIsRight ∧ leftIsBlack ≠ siblingIsRight then do
        -- straighten the triangle into a line
        let h := upd h sa (fun n => { n with isBlack := false })
        if siblingIsRight then do
          let h ← updP h (h sa).left (fun n => { n with isBlack := true })
          let (h, root) ← rotateRight h root sa
          let sa ← derefA (h pa).right
          pure (h, root, sa, isBlack h (h sa).right, isBlack h (h sa).left)
        else do
          let h ← updP h (h sa).right (fun n => { n with isBlack := true })
          let (h, root) ← rotateLeft h root sa
          let sa ← derefA (h pa).left
          pure (h, root, sa, isBlack h (h sa).right, isBlack h (h sa).left)
      else pure (h, root, sa, rightIsBlack, leftIsBlack)
    let h := upd h sa (fun n => { n with isBlack := (h pa).isBlack })
    let h := upd h pa (fun n => { n with isBlack := true })
    if siblingIsRight ∧ ¬ rightIsBlack then do
      let h ← updP h (h sa).right (fun n => { n with isBlack := true })
      rotateLeft h root pa
    else if ¬ siblingIsRight ∧ ¬ leftIsBlack then do
      let h ← updP h (h sa).left (fun n => { n with isBlack := true })
      rotateRight h root pa
    else return (h, root)

end

/-- `deleteNoChildren`: detach a childless node; repair if it was black. -/
def deleteNoChildren (h : Heap α) (root : Option Nat) (fuel : Nat) (a : Nat) :
    Res (Heap α × Option Nat) := do
  let pn ← getP h (h a).parent
  let h ←
    if pn.left = some a then updP h (h a).parent (fun n => { n with left := none })
    else updP h (h a).parent (fun n => { n with right := none })
  if (h a).isBlack then solveDoubleBlack h root fuel a
  else return (h, root)

/-- `findAndDeleteLeftmost`: delete the leftmost node of a subtree and
return its value. -/
def findAndDeleteLeftmost (h : Heap α) (root : Option Nat) :
    Nat → Nat → Res (Heap α × Option Nat × α)
  | 0, _ => .fuelOut
  | fuel + 1, a =>
    match (h a).left with
    | some l => findAndDeleteLeftmost h root fuel l
    | none =>
      match (h a).right with
      | some r => do
        let h := upd h r (fun n => { n with parent := (h a).parent })
        let h := upd h r (fun n => { n with isBlack := true })
        let pn ← getP h (h a).parent
        let h ←
          if pn.left = some a then updP h (h a).parent (fun n => { n with left := (h a).right })
          else updP h (h a).parent (fun n => { n with right := (h a).right })
        return (h, root, (h a).Val)
      | none => do
        let (h, root) ← deleteNoChildren h root fuel a
        return (h, root, (h a).Val)

/-- `deleteCheckChildren`: remove the located node according to its number
of children, then repoint `Min`/`Max` at it if its (possibly overwritten)
value matches theirs. -/
def deleteCheckChildren (c : α → α → Int) (h : Heap α) (t : RBTree α) (fuel : Nat)
    (a : Nat) : Res (Heap α × RBTree α) := do
  let (h, root) ←
    match (h a).left, (h a).right with
    | none, none => deleteNoChildren h t.root fuel a
    | none, some r =>
      let h := upd h a (fun n => { n with Val := (h r).Val })
      let h := upd h a (fun n => { n with right := none })
      pure (h, t.root)
    | some l, none =>
      let h := upd h a (fun n => { n with Val := (h l).Val })
      let h := upd h a (fun n => { n with left := none })
      pure (h, t.root)
    | some _, some r => do
      let (h, root, v) ← findAndDeleteLeftmost h t.root fuel r
      let h := upd h a (fun n => { n with Val := v })
      pure (h, root)
  let mn ← getP h t.Min
  let t :=
    if c (h a).Val mn.Val = 0 then { t with root := root, Min := some a }
    else { t with root := root }
  let mx ← getP h t.Max
  let t := if c (h a).Val mx.Val = 0 then { t with Max := some a } else t
  return (h, t)

/-- `Delete` (tree level).  `z` is the zero value of the element type
(`var del T`). -/
def Delete (fuel : Nat) (h : Heap α) (t : RBTree α) (z : α) (val : α) :
    Res (Heap α × RBTree α × α × Bool) :=
  match t.root with
  | none => .ok (h, t, z, false)
  | some r =>
    match t.cmp with
    | none => .panic
    | some c => do
      let (nodeP, ok) ← find c h fuel r val
      if ¬ ok then return (h, t, z, false)
      let na ← derefA nodeP
      let val := (h na).Val
      let t := { t with Count := t.Count - 1 }
      if t.Count = (0 : Int) then
        return (h, { t with root := none, Min := none, Max := none }, val, true)
      let mn ← getP h t.Min
      let t ←
        if c val mn.Val = 0 then do
          let ma ← derefA t.Min
          let (p, _) ← Next h fuel ma
          pure { t with Min := p }
        else pure t
      let mx ← getP h t.Max
      let t ←
        if c val mx.Val = 0 then do
          let ma ← derefA t.Max
          let (p, _) ← Prev h fuel ma
          pure { t with Max := p }
        else pure t
      let (h, t) ← deleteCheckChildren c h t fuel na
      return (h, t, val, true)

/-- Models `cmp.Compare[int]`, the comparator installed by `NewOrdered[int]`. -/
def intCmp : Int → Int → Int := fun a b => if a < b then -1 else if a > b then 1 else 0

/-- An all-zero initial heap (no allocations yet). -/
def zeroHeap : Heap Int := fun _ => { Val := 0 }

/-- Run a sequence of `Insert` calls, threading heap, allocator and tree. -/
def insertAll (fuel : Nat) : Heap Int → Nat → RBTree Int → List Int →
    Res (Heap Int × Nat × RBTree Int)
  | h, free, t, [] => .ok (h, free, t)
  | h, free, t, v :: rest => do
    let (h, free, t, _, _) ← Insert fuel h free t v
    insertAll fuel h free t rest

/-- The pointer structure of a subtree: which address sits at each
position.  Node contents are always read through the heap. -/
inductive Shape : Type where
  | leaf : Shape
  | node (a : Nat) (l r : Shape) : Shape
deriving DecidableEq

namespace Shape

def addrs : Shape → List Nat
  | .leaf => []
  | .node a l r => a :: (l.addrs ++ r.addrs)

def size : Shape → Nat
  | .leaf => 0
  | .node _ l r => l.size + r.size + 1

def inorder : Shape → List Nat
  | .leaf => []
  | .node a l r => l.inorder ++ a :: r.inorder

end Shape

/-- `p` points into `h` at a subtree whose pointer structure is `s`. -/
inductive Reach (h : Heap α) : Option Nat → Shape → Prop
  | leaf : Reach h none .leaf
  | node (a : Nat) (l r : Shape) : Reach h (h a).left l → Reach h (h a).right r →
      Reach h (some a) (.node a l r)

/-- Strict lower-bound check against an optional bound. -/
def loLt (c : α → α → Int) : Option α → α → Prop
  | none, _ => True
  | some x, v => c x v < 0

/-- Strict upper-bound check against an optional bound. -/
def ltHi (c : α → α → Int) : α → Option α → Prop
  | _, none => True
  | v, some x => c v x < 0

/-- Binary-search-tree ordering of the subtree `s` of heap `h`, with all
values strictly inside `(lo, hi)` under the comparator. -/
inductive Bnd (c : α → α → Int) (h : Heap α) : Option α → Option α → Shape → Prop
  | leaf : ∀ lo hi, Bnd c h lo hi .leaf
  | node : ∀ lo hi a l r, loLt c lo (h a).Val → ltHi c (h a).Val hi →
      Bnd c h lo (some (h a).Val) l → Bnd c h (some (h a).Val) hi r →
      Bnd c h lo hi (.node a l r)

/-- The comparator contract: a strict total order, consistent across calls.
`eq_congr_left` says comparator-equal values compare identically against
everything else. -/
structure STO (c : α → α → Int) : Prop where
  refl : ∀ x, c x x = 0
  trans_lt : ∀ x y z, c x y < 0 → c y z < 0 → c x z < 0
  eq_congr_left : ∀ x y, c x y = 0 → ∀ z, c x z = c y z
  lt_flip : ∀ x y, c x y < 0 ↔ 0 < c y x

/-- Node-for-node equality of two subtrees by synchronized descent:
comparator-equal values, equal colors, equal shape (the specification's
notion behind `EqualTo`). -/
inductive EqSh (c : α → α → Int) (h : Heap α) : Shape → Shape → Prop
  | leaf : EqSh c h .leaf .leaf
  | node : ∀ a b l1 l2 r1 r2, c (h a).Val (h b).Val = 0 →
      (h a).isBlack = (h b).isBlack → EqSh c h l1 l2 → EqSh c h r1 r2 →
      EqSh c h (.node a l1 r1) (.node b l2 r2)

/-- Parent back-references are consistent throughout the subtree: the
subtree root's parent field is `pp`, and every child points back at its
parent. -/
inductive ParOk (h : Heap α) : Option Nat → Shape → Prop
  | leaf : ∀ pp, ParOk h pp .leaf
  | node : ∀ pp a l r, (h a).parent = pp → ParOk h (some a) l → ParOk h (some a) r →
      ParOk h pp (.node a l r)

/-- The address at the root of a shape, if any. -/
def Shape.rootAddr : Shape → Option Nat
  | .leaf => none
  | .node a _ _ => some a

/-- The specification's notion behind `EqualTo` at node level, as a
computable predicate on shapes: equal shape and, node-for-node,
comparator-equal values and equal colors. -/
def eqShB {α : Type} (c : α → α → Int) (h : Heap α) : Shape → Shape → Bool
  | .leaf, .leaf => true
  | .node a l1 r1, .node b l2 r2 =>
    decide (c (h a).Val (h b).Val = 0) && ((h a).isBlack == (h b).isBlack) &&
      eqShB c h l1 l2 && eqShB c h r1 r2
  | _, _ => false

/-- No red node has a red child within the subtree. -/
inductive NoRR (h : Heap α) : Shape → Prop
  | leaf : NoRR h .leaf
  | node : ∀ a l r,
      ((h a).isBlack = false →
        (∀ x, l.rootAddr = some x → (h x).isBlack = true) ∧
        (∀ x, r.rootAddr = some x → (h x).isBlack = true)) →
      NoRR h l → NoRR h r → NoRR h (.node a l r)

/-- Uniform black height of the subtree (counting the node itself). -/
inductive BH (h : Heap α) : Shape → Nat → Prop
  | leaf : BH h .leaf 0
  | node : ∀ a l r n, BH h l n → BH h r n →
      BH h (.node a l r) (n + if (h a).isBlack then 1 else 0)

/-- `s'` in `h'` is a node-for-node copy of `s` in `h`: same shape, equal
values and colors positionwise. -/
inductive CopyOf (h h' : Heap α) : Shape → Shape → Prop
  | leaf : CopyOf h h' .leaf .leaf
  | node : ∀ a b l r l' r', (h' b).Val = (h a).Val → (h' b).isBlack = (h a).isBlack →
      CopyOf h h' l l' → CopyOf h h' r r' → CopyOf h h' (.node a l r) (.node b l' r')

/-- The specification's global invariants of a tree state, phrased on a
reified shape: consistent pointers, BST order, red-black coloring, and
correct `Min`/`Max`/`Count` caches. -/
structure SValid (c : α → α → Int) (h : Heap α) (t : RBTree α) (s : Shape) : Prop where
  cmp_eq : t.cmp = some c
  reach : Reach h t.root s
  par : ParOk h none s
  bnd : Bnd c h none none s
  nrr : NoRR h s
  rootBlack : ∀ x, s.rootAddr = some x → (h x).isBlack = true
  bh : ∃ n, BH h s n
  nodup : s.inorder.Nodup
  min_eq : t.Min = s.inorder.head?
  max_eq : t.Max = s.inorder.getLast?
  count_eq : t.Count = (s.size : Int)

/-- The heap of the C6 witness: root 5 (black, address 0) with red left
child 3 (address 1). -/
def c6heap : Heap Int :=
  hset (hset zeroHeap 0 { Val := 5, left := some 1, isBlack := true })
    1 { Val := 3, parent := some 0 }

/-- The heap of the C4 witness: a single black node 5 at address 0. -/
def c4heap : Heap Int :=
  hset zeroHeap 0 { Val := 5, left := none, right := none, parent := none, isBlack := true }

/-- The tree state of the C4 witness. -/
def c4tree : RBTree Int :=
  { root := some 0, cmp := some intCmp, Min := some 0, Max := some 0, Count := 1 }

/-- A one-hole context in a shape: the path from the tree root down to a
subtree position, hole-first (the first frame is the hole's direct
parent). -/
inductive Ctx : Type where
  | top : Ctx
  | inL (a : Nat) (r : Shape) (k : Ctx) : Ctx
  | inR (a : Nat) (l : Shape) (k : Ctx) : Ctx
deriving DecidableEq

/-- Fill the hole of a context with a shape. -/
def Ctx.plug : Ctx → Shape → Shape
  | .top, s => s
  | .inL a r k, s => Ctx.plug k (.node a s r)
  | .inR a l k, s => Ctx.plug k (.node a l s)

/-- The address of the hole's direct parent, if any. -/
def Ctx.holeParent : Ctx → Option Nat
  | .top => none
  | .inL a _ _ => some a
  | .inR a _ _ => some a

/-- Addresses stored in the context (frame nodes and sibling subtrees). -/
def Ctx.addrs : Ctx → List Nat
  | .top => []
  | .inL a r k => a :: (r.addrs ++ k.addrs)
  | .inR a l k => a :: (l.addrs ++ k.addrs)

/-- In-order address sequence of a plugged context as a function of the
hole's in-order sequence. -/
def Ctx.wrap : Ctx → List Nat → List Nat
  | .top, L => L
  | .inL a r k, L => Ctx.wrap k (L ++ a :: r.inorder)
  | .inR a l k, L => Ctx.wrap k (l.inorder ++ a :: L)

/-- Whether the hole's root is required to be black because the hole's
parent frame is red. -/
def Ctx.needBlack (h : Heap α) : Ctx → Bool
  | .top => false
  | .inL a _ _ => !(h a).isBlack
  | .inR a _ _ => !(h a).isBlack

/-- The context's spine is laid out in the heap from `root` down to the
hole, whose pointer is the last argument. -/
inductive ReachC (h : Heap α) (root : Option Nat) : Ctx → Option Nat → Prop
  | top : ReachC h root .top root
  | inL (a : Nat) (r : Shape) (k : Ctx) : ReachC h root k (some a) →
      Reach h (h a).right r → ReachC h root (.inL a r k) (h a).left
  | inR (a : Nat) (l : Shape) (k : Ctx) : ReachC h root k (some a) →
      Reach h (h a).left l → ReachC h root (.inR a l k) (h a).right

/-- Parent back-references along the context spine are consistent. -/
inductive ParOkC (h : Heap α) : Ctx → Prop
  | top : ParOkC h .top
  | inL (a : Nat) (r : Shape) (k : Ctx) : ParOkC h k → (h a).parent = k.holeParent →
      ParOk h (some a) r → ParOkC h (.inL a r k)
  | inR (a : Nat) (l : Shape) (k : Ctx) : ParOkC h k → (h a).parent = k.holeParent →
      ParOk h (some a) l → ParOkC h (.inR a l k)

/-- BST bounds accumulated along the context spine: the hole's bounds. -/
inductive BndC (c : α → α → Int) (h : Heap α) : Ctx → Option α → Option α → Prop
  | top : BndC c h .top none none
  | inL (a : Nat) (r : Shape) (k : Ctx) (lo hi : Option α) : BndC c h k lo hi →
      loLt c lo (h a).Val → ltHi c (h a).Val hi →
      Bnd c h (some ((h a).Val)) hi r → BndC c h (.inL a r k) lo (some ((h a).Val))
  | inR (a : Nat) (l : Shape) (k : Ctx) (lo hi : Option α) : BndC c h k lo hi →
      loLt c lo (h a).Val → ltHi c (h a).Val hi →
      Bnd c h lo (some ((h a).Val)) l → BndC c h (.inR a l k) (some ((h a).Val)) hi

/-- Black-height bookkeeping along the context spine: if the hole subtree
has black height `n`, the whole tree has black height `N`, and every
sibling matches its required height. -/
inductive BHC (h : Heap α) : Ctx → Nat → Nat → Prop
  | top (n : Nat) : BHC h .top n n
  | inL (a : Nat) (r : Shape) (k : Ctx) (n N : Nat) :
      BHC h k (n + (if (h a).isBlack then 1 else 0)) N → BH h r n →
      BHC h (.inL a r k) n N
  | inR (a : Nat) (l : Shape) (k : Ctx) (n N : Nat) :
      BHC h k (n + (if (h a).isBlack then 1 else 0)) N → BH h l n →
      BHC h (.inR a l k) n N

/-- No red-red violation within the context: sibling subtrees are clean
and every red frame has black children on the sibling side and a black
parent frame. -/
inductive NoRRC (h : Heap α) : Ctx → Prop
  | top : NoRRC h .top
  | inL (a : Nat) (r : Shape) (k : Ctx) : NoRRC h k → NoRR h r →
      ((h a).isBlack = false → ∀ x, r.rootAddr = some x → (h x).isBlack = true) →
      (k.needBlack h = true → (h a).isBlack = true) → NoRRC h (.inL a r k)
  | inR (a : Nat) (l : Shape) (k : Ctx) : NoRRC h k → NoRR h l →
      ((h a).isBlack = false → ∀ x, l.rootAddr = some x → (h x).isBlack = true) →
      (k.needBlack h = true → (h a).isBlack = true) → NoRRC h (.inR a l k)

/-- Number of frames in the context. -/
def Ctx.depth : Ctx → Nat
  | .top => 0
  | .inL _ _ k => k.depth + 1
  | .inR _ _ k => k.depth + 1

section ResLemmas

variable {β γ : Type}

@[simp] theorem Res.bind_ok (b : β) (f : β → Res γ) : Res.bind (.ok b) f = f b := rfl

@[simp] theorem Res.bind_panic (f : β → Res γ) : Res.bind .panic f = .panic := rfl

@[simp] theorem Res.bind_fuelOut (f : β → Res γ) : Res.bind .fuelOut f = .fuelOut := rfl

theorem Res.bind_eq (x : Res β) (f : β → Res γ) : x >>= f = Res.bind x f := rfl

theorem Res.pure_eq (b : β) : (pure b : Res β) = .ok b := rfl

/-- A bind does not panic when neither side does. -/
theorem Res.bind_no_panic {x : Res β} {f : β → Res γ} (hx : x ≠ .panic)
    (hf : ∀ b, f b ≠ .panic) : Res.bind x f ≠ .panic := by
  cases x with
  | panic => exact absurd rfl hx
  | fuelOut => intro hc; exact Res.noConfusion hc
  | ok b => exact hf b

/-- Conditional version: the continuation only needs to be panic-free on the
value the first computation actually produced. -/
theorem Res.bind_no_panic' {x : Res β} {f : β → Res γ} (hx : x ≠ .panic)
    (hf : ∀ b, x = .ok b → f b ≠ .panic) : Res.bind x f ≠ .panic := by
  cases x with
  | panic => exact absurd rfl hx
  | fuelOut => intro hc; exact Res.noConfusion hc
  | ok b => exact hf b rfl

end ResLemmas

section NoPanic

variable {α : Type} (h : Heap α)

theorem leftmost_no_panic : ∀ fuel a, leftmost h fuel a ≠ .panic := by
  intro fuel
  induction fuel with
  | zero => intro a hc; exact Res.noConfusion hc
  | succ f ih =>
    intro a
    simp only [leftmost]
    cases (h a).left with
    | some l => exact ih l
    | none => intro hc; exact Res.noConfusion hc

theorem rightmost_no_panic : ∀ fuel a, rightmost h fuel a ≠ .panic := by
  intro fuel
  induction fuel with
  | zero => intro a hc; exact Res.noConfusion hc
  | succ f ih =>
    intro a
    simp only [rightmost]
    cases (h a).right with
    | some r => exact ih r
    | none => intro hc; exact Res.noConfusion hc

theorem nextUp_no_panic : ∀ fuel a, nextUp h fuel a ≠ .panic := by
  intro fuel
  induction fuel with
  | zero => intro a hc; exact Res.noConfusion hc
  | succ f ih =>
    intro a
    simp only [nextUp]
    split
    · split
      · exact ih _
      · intro hc; exact Res.noConfusion hc
    · intro hc; exact Res.noConfusion hc

theorem prevUp_no_panic : ∀ fuel a, prevUp h fuel a ≠ .panic := by
  intro fuel
  induction fuel with
  | zero => intro a hc; exact Res.noConfusion hc
  | succ f ih =>
    intro a
    simp only [prevUp]
    split
    · split
      · exact ih _
      · intro hc; exact Res.noConfusion hc
    · intro hc; exact Res.noConfusion hc

theorem Next_no_panic (fuel a : Nat) : Next h fuel a ≠ .panic := by
  simp only [Next]
  cases (h a).right with
  | some r =>
    exact Res.bind_no_panic (leftmost_no_panic h fuel r)
      (fun m hc => Res.noConfusion hc)
  | none => exact nextUp_no_panic h fuel a

theorem Prev_no_panic (fuel a : Nat) : Prev h fuel a ≠ .panic := by
  simp only [Prev]
  cases (h a).left with
  | some l =>
    exact Res.bind_no_panic (rightmost_no_panic h fuel l)
      (fun m hc => Res.noConfusion hc)
  | none => exact prevUp_no_panic h fuel a

/-- `nextUp` only reports `true` together with a non-nil pointer. -/
theorem nextUp_flag : ∀ fuel a res, nextUp h fuel a = .ok res → res.2 = true →
    res.1 ≠ none := by
  intro fuel
  induction fuel with
  | zero => intro a res hr; exact Res.noConfusion hr
  | succ f ih =>
    intro a res hr
    simp only [nextUp] at hr
    split at hr
    · split at hr
      · exact ih _ res hr
      · cases hr; simp
    · cases hr; simp

/-- `Next` only reports `true` together with a non-nil pointer. -/
theorem Next_flag (fuel a : Nat) (res : Option Nat × Bool) (hr : Next h fuel a = .ok res)
    (ht : res.2 = true) : res.1 ≠ none := by
  simp only [Next] at hr
  split at hr
  · rename_i r _
    rw [Res.bind_eq] at hr
    cases hm : leftmost h fuel r with
    | panic => rw [hm] at hr; exact Res.noConfusion hr
    | fuelOut => rw [hm] at hr; exact Res.noConfusion hr
    | ok m =>
      rw [hm] at hr
      simp only [Res.bind_ok, Res.pure_eq] at hr
      cases hr
      simp
  · exact nextUp_flag h fuel a res hr ht

theorem countLoop_no_panic :
    ∀ fuel i ok cnt, (ok = true → i ≠ none) → countLoop h fuel i ok cnt ≠ .panic := by
  intro fuel
  induction fuel with
  | zero => intro i ok cnt _ hc; exact Res.noConfusion hc
  | succ f ih =>
    intro i ok cnt hinv
    simp only [countLoop]
    cases ok with
    | false => intro hc; exact Res.noConfusion hc
    | true =>
      rw [if_pos rfl]
      cases i with
      | none => exact absurd rfl (hinv rfl)
      | some a =>
        simp only [derefA, Res.bind_eq, Res.bind_ok]
        refine Res.bind_no_panic' (Next_no_panic h f a) ?_
        rintro ⟨i', ok'⟩ hnext
        exact ih i' ok' (cnt + 1) (fun hok' => Next_flag h f a _ hnext hok')

end NoPanic

end RBGo

namespace RBGo

theorem isValid_family_no_panic {α : Type} (c : α → α → Int) (h : Heap α) : ∀ fuel,
    (∀ a ibh cbh, ((h a).isBlack = true ∨ (h a).parent ≠ none) →
        isValid c h fuel a ibh cbh ≠ .panic) ∧
    (∀ a ibh cbh, leftSubtreeIsValid c h fuel a ibh cbh ≠ .panic) ∧
    (∀ a ibh cbh, rightSubtreeIsValid c h fuel a ibh cbh ≠ .panic) := by
  intro fuel
  induction fuel with
  | zero =>
    exact ⟨fun _ _ _ _ hc => Res.noConfusion hc, fun _ _ _ hc => Res.noConfusion hc,
      fun _ _ _ hc => Res.noConfusion hc⟩
  | succ f ih =>
    obtain ⟨ihV, ihL, ihR⟩ := ih
    have hrest : ∀ a ibh cbh,
        (do
          let (ibh, leftBlackHeight, ok) ← leftSubtreeIsValid c h f a ibh cbh
          if ¬ ok then return (ibh, 0, false)
          let (ibh, rightBlackHeight, ok) ← rightSubtreeIsValid c h f a ibh cbh
          if ¬ ok ∨ leftBlackHeight ≠ rightBlackHeight then return (ibh, 0, false)
          return (ibh, max leftBlackHeight cbh, true) : Res (Int × Int × Bool)) ≠ .panic := by
      intro a ibh cbh
      rw [Res.bind_eq]
      refine Res.bind_no_panic' (ihL a ibh cbh) ?_
      rintro ⟨ibh1, lbh, ok1⟩ _
      dsimp only
      simp only [Res.bind_eq, Res.pure_eq, Res.bind_ok]
      split
      · simp
      · refine Res.bind_no_panic' (ihR a ibh1 cbh) ?_
        intro b _
        split
        · simp
        · simp
    refine ⟨?_, ?_, ?_⟩
    · intro a ibh cbh hpre
      simp only [isValid]
      split
      · -- black node
        split
        · split
          · simp [Res.pure_eq]
          · split
            · simp [Res.pure_eq]
            · exact hrest a ibh (cbh + 1)
        · exact hrest a ibh (cbh + 1)
      · -- red node: parent must be non-nil by the precondition
        rename_i hred
        split
        · rename_i hp
          rcases hpre with hb | hp2
          · exact absurd hb hred
          · exact absurd hp hp2
        · split
          · simp [Res.pure_eq]
          · split
            · split
              · simp [Res.pure_eq]
              · split
                · simp [Res.pure_eq]
                · exact hrest a ibh cbh
            · exact hrest a ibh cbh
    · intro a ibh cbh
      simp only [leftSubtreeIsValid]
      split
      · simp [Res.pure_eq]
      · rename_i l hleq
        split
        · simp [Res.pure_eq]
        · rename_i hguard
          push_neg at hguard
          exact ihV l ibh cbh (Or.inr (by simp [hguard.1]))
    · intro a ibh cbh
      simp only [rightSubtreeIsValid]
      split
      · simp [Res.pure_eq]
      · rename_i r hreq
        split
        · simp [Res.pure_eq]
        · rename_i hguard
          push_neg at hguard
          exact ihV r ibh cbh (Or.inr (by simp [hguard.1]))

end RBGo

namespace RBGo

theorem IsValid_no_panic {α : Type} (fuel : Nat) (h : Heap α) (t : RBTree α) :
    IsValid fuel h t ≠ .panic := by
  unfold IsValid
  split
  · simp
  · split
    · simp
    · rename_i c _ r _
      split
      · simp
      · rename_i hroot
        push_neg at hroot
        rw [Res.bind_eq]
        refine Res.bind_no_panic' ((isValid_family_no_panic _ h fuel).1 r 0 0
          (Or.inl (by simpa using hroot.2))) ?_
        rintro ⟨ibh', bh', valid⟩ _
        dsimp only
        simp only [Res.bind_eq, Res.pure_eq, Res.bind_ok]
        split
        · simp
        · refine Res.bind_no_panic' (leftmost_no_panic h fuel r) ?_
          intro lm _
          split
          · simp
          · rename_i hmin
            refine Res.bind_no_panic' (rightmost_no_panic h fuel r) ?_
            intro rm _
            split
            · simp
            · refine Res.bind_no_panic' (countLoop_no_panic h fuel t.Min true 0 ?_) ?_
              · intro _ habs
                rw [habs] at hmin
                simp at hmin
              · intro cnt _
                simp

end RBGo

namespace RBGo

/-- C2: inserting 70, 50, 80, 20, 60, 75, 100 in that order into an empty
ordered tree of integers yields a tree on which `IsValid` returns true and
whose `String` rendering is exactly
`"   100\n  80\n   75\n 70\n   60\n  50\n   20\n"`. -/
theorem c2_insert_scenario :
    (do
      let (h, _, t) ← insertAll 64 zeroHeap 0 (New intCmp) [70, 50, 80, 20, 60, 75, 100]
      let valid ← IsValid 64 h t
      let s ← TreeString toString 64 h t
      pure (valid, s)) =
    .ok (true, "   100\n  80\n   75\n 70\n   60\n  50\n   20\n") := by
  rfl

/-- C3: `IsValid` returns false whenever the comparator is unset; on an
empty tree it returns true iff `Min` and `Max` are unset and `Count` is
zero; on a non-empty tree it returns false if the root has a parent or the
root is red; and on any input it never panics. -/
theorem c3_isValid_toplevel :
    (∀ (α : Type) (fuel : Nat) (h : Heap α) (t : RBTree α), t.cmp = none →
      IsValid fuel h t = .ok false) ∧
    (∀ (α : Type) (fuel : Nat) (h : Heap α) (t : RBTree α) (c : α → α → Int),
      t.cmp = some c → t.root = none →
      (IsValid fuel h t = .ok true ↔ (t.Min = none ∧ t.Max = none ∧ t.Count = 0))) ∧
    (∀ (α : Type) (fuel : Nat) (h : Heap α) (t : RBTree α) (c : α → α → Int) (r : Nat),
      t.cmp = some c → t.root = some r →
      ((h r).parent ≠ none ∨ (h r).isBlack = false) → IsValid fuel h t = .ok false) ∧
    (∀ (α : Type) (fuel : Nat) (h : Heap α) (t : RBTree α), IsValid fuel h t ≠ .panic) := by
  refine ⟨?_, ?_, ?_, ?_⟩
  · intro α fuel h t hc
    unfold IsValid
    rw [hc]
  · intro α fuel h t c hc hr
    unfold IsValid
    rw [hc, hr]
    constructor
    · intro he
      exact of_decide_eq_true (Res.ok.inj he)
    · intro hP
      rw [decide_eq_true hP]
  · intro α fuel h t c r hc hr hcond
    unfold IsValid
    rw [hc, hr]
    dsimp only
    rw [if_pos ?_]
    rcases hcond with h1 | h2
    · exact Or.inl h1
    · exact Or.inr (by simp [h2])
  · exact fun α fuel h t => IsValid_no_panic fuel h t

/-- Witness for C3 at concrete inputs: a comparator-less tree is invalid,
an empty comparator-equipped tree is valid, a red root is invalid. -/
theorem c3_isValid_toplevel_witness :
    IsValid 5 zeroHeap ⟨none, none, none, none, 0⟩ = .ok false ∧
    IsValid 5 zeroHeap ⟨none, some intCmp, none, none, 0⟩ = .ok true ∧
    IsValid 5 (hset zeroHeap 0 { Val := 7, isBlack := false }) ⟨some 0, some intCmp, some 0, some 0, 1⟩ = .ok false :=
  ⟨c3_isValid_toplevel.1 Int 5 zeroHeap _ rfl,
   (c3_isValid_toplevel.2.1 Int 5 zeroHeap _ intCmp rfl rfl).2 ⟨rfl, rfl, rfl⟩,
   c3_isValid_toplevel.2.2.1 Int 5 _ _ intCmp 0 rfl rfl (Or.inr rfl)⟩

end RBGo

namespace RBGo

theorem intCmp_STO : STO intCmp := by
  refine ⟨?_, ?_, ?_, ?_⟩
  · intro x; simp [intCmp]
  · intro x y z hxy hyz
    simp only [intCmp] at *
    split_ifs at * <;> omega
  · intro x y hxy z
    simp only [intCmp] at *
    split_ifs at * <;> omega
  · intro x y
    simp only [intCmp]
    split_ifs <;> omega

/-- C9: deleting the value of the only node of a one-node tree returns
(that value, true) and leaves an empty tree with `Min`, `Max` unset and
`Count` zero, on which `IsValid` returns true. -/
theorem c9_delete_singleton {α : Type} (fuel : Nat) (h : Heap α) (t : RBTree α)
    (c : α → α → Int) (a : Nat) (z v : α)
    (hfuel : 1 ≤ fuel) (hroot : t.root = some a) (hcmp : t.cmp = some c)
    (_hl : (h a).left = none) (_hr : (h a).right = none) (hcount : t.Count = 1)
    (hv : c v (h a).Val = 0) :
    Delete fuel h t z v =
      .ok (h, { root := none, cmp := t.cmp, Min := none, Max := none, Count := 0 },
        (h a).Val, true) ∧
    (∀ fuel2,
      IsValid fuel2 h { root := none, cmp := t.cmp, Min := none, Max := none, Count := 0 } =
        .ok true) := by
  obtain ⟨f, rfl⟩ : ∃ f, fuel = f + 1 := ⟨fuel - 1, by omega⟩
  constructor
  · unfold Delete
    rw [hroot, hcmp]
    dsimp only
    have hfind : find c h (f + 1) a v = .ok (some a, true) := by
      simp only [find]
      rw [if_neg (by omega), if_neg (by omega)]
    rw [Res.bind_eq, hfind, Res.bind_ok]
    simp [derefA, hcount, Res.bind_eq, Res.bind_ok, Res.pure_eq]
  · intro fuel2
    unfold IsValid
    rw [hcmp]
    rfl

end RBGo

namespace RBGo

/-- Witness for C9: a concrete one-node tree holding 5, deleted. -/
theorem c9_delete_singleton_witness :
    Delete 3 (hset zeroHeap 0 { Val := 5, isBlack := true })
      ⟨some 0, some intCmp, some 0, some 0, 1⟩ 0 5 =
      .ok (hset zeroHeap 0 { Val := 5, isBlack := true },
        { root := none, cmp := some intCmp, Min := none, Max := none, Count := 0 },
        5, true) :=
  (c9_delete_singleton 3 (hset zeroHeap 0 { Val := 5, isBlack := true })
    ⟨some 0, some intCmp, some 0, some 0, 1⟩ intCmp 0 0 5 (by omega) rfl rfl rfl rfl rfl
    (by decide)).1

end RBGo

namespace RBGo

theorem Reach.leaf_eq {α : Type} {h : Heap α} {p : Option Nat} (hr : Reach h p .leaf) :
    p = none := by cases hr; rfl

theorem Reach.node_eq {α : Type} {h : Heap α} {p : Option Nat} {a : Nat} {l r : Shape}
    (hr : Reach h p (.node a l r)) : p = some a := by cases hr; rfl

/-- If no node of the subtree compares equal to `v`, `find` reports
not-found (without mutating anything: it is a pure read). -/
theorem find_absent {α : Type} (c : α → α → Int) (h : Heap α) :
    ∀ (s : Shape) (rt : Nat) (fuel : Nat) (v : α), Reach h (some rt) s →
      (∀ a ∈ s.addrs, c v (h a).Val ≠ 0) → s.size + 1 ≤ fuel →
      find c h fuel rt v = .ok (none, false) := by
  intro s
  induction s with
  | leaf => intro rt fuel v hre _ _; cases hre
  | node a l r ihl ihr =>
    intro rt fuel v hre hab hfuel
    cases hre with
    | node _ _ _ hl hr =>
      obtain ⟨f, rfl⟩ : ∃ f, fuel = f + 1 :=
        ⟨fuel - 1, by have := hfuel; omega⟩
      have hne : c v (h a).Val ≠ 0 := hab a (by simp [Shape.addrs])
      simp only [find]
      by_cases hlt : c v (h a).Val < 0
      · rw [if_pos hlt]
        cases l with
        | leaf => rw [Reach.leaf_eq hl]
        | node a' l' r' =>
          rw [Reach.node_eq hl]
          refine ihl a' f v ?_ ?_ ?_
          · rw [← Reach.node_eq hl]; exact hl
          · intro x hx
            apply hab
            simp only [Shape.addrs, List.mem_cons, List.mem_append] at hx ⊢
            tauto
          · simp only [Shape.size] at hfuel ⊢; omega
      · rw [if_neg hlt]
        have hgt : c v (h a).Val > 0 := by omega
        rw [if_pos hgt]
        cases r with
        | leaf => rw [Reach.leaf_eq hr]
        | node a' l' r' =>
          rw [Reach.node_eq hr]
          refine ihr a' f v ?_ ?_ ?_
          · rw [← Reach.node_eq hr]; exact hr
          · intro x hx
            apply hab
            simp only [Shape.addrs, List.mem_cons, List.mem_append] at hx ⊢
            tauto
          · simp only [Shape.size] at hfuel ⊢; omega

end RBGo

namespace RBGo

/-- C8: deleting from an empty tree, or deleting a value no node of the
tree compares equal to, returns the zero value with `deleted=false` and
leaves heap and tree entirely unchanged (hence still valid); the empty
case holds for every heap, i.e. the absent root is never inspected. -/
theorem c8_delete_absent :
    (∀ (α : Type) (fuel : Nat) (h : Heap α) (t : RBTree α) (z v : α), t.root = none →
      Delete fuel h t z v = .ok (h, t, z, false)) ∧
    (∀ (α : Type) (fuel : Nat) (h : Heap α) (t : RBTree α) (z v : α)
      (c : α → α → Int) (r : Nat) (s : Shape),
      t.root = some r → t.cmp = some c → Reach h (some r) s →
      (∀ a ∈ s.addrs, c v (h a).Val ≠ 0) → s.size + 1 ≤ fuel →
      Delete fuel h t z v = .ok (h, t, z, false)) := by
  constructor
  · intro α fuel h t z v hroot
    unfold Delete
    rw [hroot]
  · intro α fuel h t z v c r s hroot hcmp hre hab hfuel
    unfold Delete
    rw [hroot, hcmp]
    dsimp only
    rw [Res.bind_eq, find_absent c h s r fuel v hre hab hfuel, Res.bind_ok]
    simp [Res.pure_eq]

/-- Witness for C8: deleting 7 from a singleton tree holding 5. -/
theorem c8_delete_absent_witness :
    Delete 3 (hset zeroHeap 0 { Val := 5, isBlack := true })
      ⟨some 0, some intCmp, some 0, some 0, 1⟩ 0 7 =
      .ok (hset zeroHeap 0 { Val := 5, isBlack := true },
        ⟨some 0, some intCmp, some 0, some 0, 1⟩, 0, false) :=
  c8_delete_absent.2 Int 3 (hset zeroHeap 0 { Val := 5, isBlack := true })
    ⟨some 0, some intCmp, some 0, some 0, 1⟩ 0 7 intCmp 0 (.node 0 .leaf .leaf)
    rfl rfl (Reach.node 0 .leaf .leaf Reach.leaf Reach.leaf)
    (by decide) (by decide)

end RBGo

namespace RBGo

theorem ltHi_of_lt {α : Type} {c : α → α → Int} (sto : STO c) {x y : α} {hi : Option α}
    (hxy : c x y < 0) (hy : ltHi c y hi) : ltHi c x hi := by
  cases hi with
  | none => trivial
  | some z => exact sto.trans_lt x y z hxy hy

theorem loLt_of_lt {α : Type} {c : α → α → Int} (sto : STO c) {x y : α} {lo : Option α}
    (hxy : c y x < 0) (hy : loLt c lo y) : loLt c lo x := by
  cases lo with
  | none => trivial
  | some z => exact sto.trans_lt z y x hy hxy

/-- Every member of a BST-bounded subtree lies strictly inside the bounds. -/
theorem Bnd.mem_bounds {α : Type} {c : α → α → Int} {h : Heap α} (sto : STO c) :
    ∀ {s : Shape} {lo hi : Option α}, Bnd c h lo hi s → ∀ x ∈ s.addrs,
      loLt c lo (h x).Val ∧ ltHi c (h x).Val hi := by
  intro s
  induction s with
  | leaf => intro lo hi _ x hx; simp [Shape.addrs] at hx
  | node a l r ihl ihr =>
    intro lo hi hb x hx
    cases hb with
    | node _ _ _ _ _ hlo hhi hbl hbr =>
      simp only [Shape.addrs, List.mem_cons, List.mem_append] at hx
      rcases hx with rfl | hx | hx
      · exact ⟨hlo, hhi⟩
      · obtain ⟨h1, h2⟩ := ihl hbl x hx
        exact ⟨h1, ltHi_of_lt sto h2 hhi⟩
      · obtain ⟨h1, h2⟩ := ihr hbr x hx
        exact ⟨loLt_of_lt sto h1 hlo, h2⟩

/-- If some node of the (BST-ordered) subtree compares equal to `v`, the
node-level `insert` finds it, changes nothing, and reports `false`. -/
theorem insert_dup {α : Type} (c : α → α → Int) (h : Heap α) (sto : STO c) :
    ∀ (s : Shape) (rt fuel free : Nat) (v : α) (lo hi : Option α),
      Reach h (some rt) s → Bnd c h lo hi s →
      (∃ d ∈ s.addrs, c v (h d).Val = 0) → s.size + 1 ≤ fuel →
      ∃ a₀, insert c h fuel rt free v = .ok (h, free, a₀, false) ∧
        c v (h a₀).Val = 0 ∧ a₀ ∈ s.addrs := by
  intro s
  induction s with
  | leaf => intro rt fuel free v lo hi hre; cases hre
  | node a l r ihl ihr =>
    intro rt fuel free v lo hi hre hb hdup hfuel
    cases hre with
    | node _ _ _ hl hr =>
      cases hb with
      | node _ _ _ _ _ hlo hhi hbl hbr =>
        obtain ⟨f, rfl⟩ : ∃ f, fuel = f + 1 := ⟨fuel - 1, by omega⟩
        obtain ⟨d, hd, hdv⟩ := hdup
        simp only [find, insert]
        by_cases hlt : c v (h a).Val < 0
        · rw [if_pos hlt]
          have hdl : d ∈ l.addrs := by
            simp only [Shape.addrs, List.mem_cons, List.mem_append] at hd
            rcases hd with rfl | hd | hd
            · omega
            · exact hd
            · exfalso
              have h1 : c (h a).Val (h d).Val < 0 := (Bnd.mem_bounds sto hbr d hd).1
              have h2 : c (h d).Val (h a).Val = c v (h a).Val := by
                have := sto.eq_congr_left v (h d).Val hdv (h a).Val
                omega
              have h3 : c (h d).Val (h d).Val = 0 := sto.refl _
              have h4 : c (h d).Val (h d).Val < 0 :=
                sto.trans_lt _ _ _ (by omega) h1
              omega
          cases l with
          | leaf => simp [Shape.addrs] at hdl
          | node a' l' r' =>
            rw [Reach.node_eq hl]
            obtain ⟨a₀, he, hv0, hmem⟩ :=
              ihl a' f free v lo (some (h a).Val) (by rw [← Reach.node_eq hl]; exact hl)
                hbl ⟨d, hdl, hdv⟩ (by simp only [Shape.size] at hfuel ⊢; omega)
            refine ⟨a₀, he, hv0, ?_⟩
            simp only [Shape.addrs, List.mem_cons, List.mem_append] at hmem ⊢
            tauto
        · rw [if_neg hlt]
          by_cases hgt : c v (h a).Val > 0
          · rw [if_pos hgt]
            have hdr : d ∈ r.addrs := by
              simp only [Shape.addrs, List.mem_cons, List.mem_append] at hd
              rcases hd with rfl | hd | hd
              · omega
              · exfalso
                have h1 : c (h d).Val (h a).Val < 0 := (Bnd.mem_bounds sto hbl d hd).2
                have h2 : c (h d).Val (h a).Val = c v (h a).Val := by
                  have := sto.eq_congr_left v (h d).Val hdv (h a).Val
                  omega
                omega
              · exact hd
            cases r with
            | leaf => simp [Shape.addrs] at hdr
            | node a' l' r' =>
              rw [Reach.node_eq hr]
              obtain ⟨a₀, he, hv0, hmem⟩ :=
                ihr a' f free v (some (h a).Val) hi (by rw [← Reach.node_eq hr]; exact hr)
                  hbr ⟨d, hdr, hdv⟩ (by simp only [Shape.size] at hfuel ⊢; omega)
              refine ⟨a₀, he, hv0, ?_⟩
              simp only [Shape.addrs, List.mem_cons, List.mem_append] at hmem ⊢
              tauto
          · rw [if_neg hgt]
            exact ⟨a, rfl, by omega, by simp [Shape.addrs]⟩

end RBGo

namespace RBGo

/-- C7: inserting a value the (BST-ordered) tree already contains returns
the pre-existing comparator-equal node with `inserted=false` and leaves
heap (all values, colors, links), allocator, `Count`, `Min` and `Max`
entirely unchanged. -/
theorem c7_insert_duplicate {α : Type} (fuel free : Nat) (h : Heap α) (t : RBTree α)
    (c : α → α → Int) (r : Nat) (s : Shape) (v : α)
    (sto : STO c) (hroot : t.root = some r) (hcmp : t.cmp = some c)
    (hre : Reach h (some r) s) (hbnd : Bnd c h none none s)
    (hdup : ∃ d ∈ s.addrs, c v (h d).Val = 0) (hfuel : s.size + 1 ≤ fuel) :
    ∃ a₀, Insert fuel h free t v = .ok (h, free, t, a₀, false) ∧
      c v (h a₀).Val = 0 ∧ a₀ ∈ s.addrs := by
  obtain ⟨a₀, he, hv0, hmem⟩ :=
    insert_dup c h sto s r fuel free v none none hre hbnd hdup hfuel
  refine ⟨a₀, ?_, hv0, hmem⟩
  unfold Insert
  rw [hroot, hcmp]
  dsimp only
  rw [Res.bind_eq, he, Res.bind_ok]
  simp [Res.pure_eq]

/-- Witness for C7: inserting 5 into a singleton tree already holding 5. -/
theorem c7_insert_duplicate_witness :
    Insert 2 (hset zeroHeap 0 { Val := 5, isBlack := true }) 1
      ⟨some 0, some intCmp, some 0, some 0, 1⟩ 5 =
      .ok (hset zeroHeap 0 { Val := 5, isBlack := true }, 1,
        ⟨some 0, some intCmp, some 0, some 0, 1⟩, 0, false) := by
  obtain ⟨a₀, he, _, hmem⟩ :=
    c7_insert_duplicate 2 1 (hset zeroHeap 0 { Val := 5, isBlack := true })
      ⟨some 0, some intCmp, some 0, some 0, 1⟩ intCmp 0 (.node 0 .leaf .leaf) 5
      intCmp_STO rfl rfl (Reach.node 0 .leaf .leaf Reach.leaf Reach.leaf)
      (Bnd.node none none 0 .leaf .leaf trivial trivial (Bnd.leaf _ _) (Bnd.leaf _ _))
      ⟨0, by simp [Shape.addrs], by decide⟩ (by simp [Shape.size])
  simp only [Shape.addrs, List.mem_cons] at hmem
  have : a₀ = 0 := by simpa using hmem
  rw [this] at he
  exact he

end RBGo

namespace RBGo

theorem eqShB_iff_EqSh {α : Type} (c : α → α → Int) (h : Heap α) :
    ∀ s1 s2 : Shape, eqShB c h s1 s2 = true ↔ EqSh c h s1 s2 := by
  intro s1
  induction s1 with
  | leaf =>
    intro s2
    cases s2 with
    | leaf => simp [eqShB]; exact EqSh.leaf
    | node b l2 r2 =>
      simp [eqShB]
      intro hc
      cases hc
  | node a l1 r1 ihl ihr =>
    intro s2
    cases s2 with
    | leaf =>
      simp [eqShB]
      intro hc
      cases hc
    | node b l2 r2 =>
      simp only [eqShB, Bool.and_eq_true, decide_eq_true_eq, beq_iff_eq]
      constructor
      · rintro ⟨⟨⟨h1, h2⟩, h3⟩, h4⟩
        exact EqSh.node a b l1 l2 r1 r2 h1 h2 ((ihl l2).1 h3) ((ihr r2).1 h4)
      · intro he
        cases he with
        | node _ _ _ _ _ _ h1 h2 h3 h4 =>
          exact ⟨⟨⟨h1, h2⟩, (ihl l2).2 h3⟩, (ihr r2).2 h4⟩

/-- With at least one unit of fuel, comparing a node against nil reports
false at once. -/
theorem equalTo_nil {α : Type} (c : α → α → Int) (h : Heap α) (f a : Nat)
    (hf : 1 ≤ f) : equalTo c h f a none = .ok false := by
  obtain ⟨f', rfl⟩ : ∃ f', f = f' + 1 := ⟨f - 1, by omega⟩
  simp only [equalTo]

/-- The right-subtree phase of `equalTo`, evaluated to the specification
predicate on the right shapes. -/
theorem equalTo_right_part {α : Type} (c : α → α → Int) (h : Heap α) (f a0 b : Nat)
    {r1 r2 : Shape}
    (hih : ∀ (a' : Nat) (s2' : Shape) (b' f' : Nat), Reach h (some a') r1 →
      Reach h (some b') s2' → r1.size + 1 ≤ f' →
      equalTo c h f' a' (some b') = .ok (eqShB c h r1 s2'))
    (hr1 : Reach h (h a0).right r1) (hr2 : Reach h (h b).right r2)
    (hf : r1.size + 1 ≤ f) :
    (match (h a0).right with
     | some r => (equalTo c h f r (h b).right).bind fun y =>
         if (h a0).right ≠ none ∧ y = false then Res.ok false
         else if (h a0).right = none ∧ (h b).right ≠ none then Res.ok false else Res.ok true
     | none =>
       if (h a0).right ≠ none ∧ true = false then Res.ok false
       else if (h a0).right = none ∧ (h b).right ≠ none then Res.ok false
       else Res.ok true) =
    Res.ok (eqShB c h r1 r2) := by
  cases r1 with
  | leaf =>
    rw [Reach.leaf_eq hr1]
    cases r2 with
    | leaf =>
      rw [Reach.leaf_eq hr2]
      simp [eqShB]
    | node b1 l2' r2' =>
      rw [Reach.node_eq hr2]
      simp [eqShB]
  | node a1 l1' r1' =>
    rw [Reach.node_eq hr1]
    cases r2 with
    | leaf =>
      rw [Reach.leaf_eq hr2]
      dsimp only
      rw [equalTo_nil c h f a1 (by omega)]
      simp [eqShB]
    | node b1 l2' r2' =>
      rw [Reach.node_eq hr2]
      dsimp only
      rw [hih a1 (.node b1 l2' r2') b1 f (by rw [← Reach.node_eq hr1]; exact hr1)
        (by rw [← Reach.node_eq hr2]; exact hr2) hf]
      cases heq : eqShB c h (Shape.node a1 l1' r1') (Shape.node b1 l2' r2') with
      | false => simp
      | true => simp
end RBGo

namespace RBGo

/-- `equalTo` computes exactly the specification predicate `eqShB`. -/
theorem equalTo_spec {α : Type} (c : α → α → Int) (h : Heap α) :
    ∀ (s1 : Shape) (a : Nat) (s2 : Shape) (b : Nat) (fuel : Nat),
      Reach h (some a) s1 → Reach h (some b) s2 → s1.size + 1 ≤ fuel →
      equalTo c h fuel a (some b) = .ok (eqShB c h s1 s2) := by
  intro s1
  induction s1 with
  | leaf => intro a s2 b fuel hre; cases hre
  | node a0 l1 r1 ihl ihr =>
    intro a s2 b fuel hre1 hre2 hfuel
    cases hre1 with
    | node _ _ _ hl1 hr1 =>
      cases hre2 with
      | node _ _ _ hl2 hr2 =>
        rename_i l2 r2
        obtain ⟨f, rfl⟩ : ∃ f, fuel = f + 1 := ⟨fuel - 1, by omega⟩
        simp only [equalTo]
        split
        · rename_i hguard
          simp only [eqShB]
          rcases hguard with hg | hg
          · simp [hg]
          · have hnb : ¬((h a0).isBlack == (h b).isBlack) = true := by
              simp only [beq_iff_eq]; exact hg
            simp [hnb]
        · rename_i hguard
          push_neg at hguard
          obtain ⟨hval, hcol⟩ := hguard
          have heqb : eqShB c h (.node a0 l1 r1) (.node b l2 r2) =
              (eqShB c h l1 l2 && eqShB c h r1 r2) := by
            simp [eqShB, hval, hcol]
          rw [heqb]
          have hrp := equalTo_right_part c h f a0 b
            (fun a' s2' b' f' h1 h2 h3 => ihr a' s2' b' f' h1 h2 h3) hr1 hr2
            (by simp only [Shape.size] at hfuel; omega)
          cases l1 with
          | leaf =>
            rw [Reach.leaf_eq hl1]
            cases l2 with
            | leaf =>
              rw [Reach.leaf_eq hl2]
              dsimp only
              simp only [Res.bind_eq, Res.pure_eq, Res.bind_ok]
              rw [if_neg (by simp), if_neg (by simp)]
              rw [show eqShB c h Shape.leaf Shape.leaf = true from rfl, Bool.true_and]
              exact hrp
            | node b1 l2' r2' =>
              rw [Reach.node_eq hl2]
              dsimp only
              simp only [Res.bind_eq, Res.pure_eq, Res.bind_ok]
              rw [if_neg (by simp), if_pos (by simp)]
              rw [show eqShB c h Shape.leaf (Shape.node b1 l2' r2') = false from rfl,
                Bool.false_and]
          | node a1 l1' r1' =>
            rw [Reach.node_eq hl1]
            dsimp only
            cases l2 with
            | leaf =>
              rw [Reach.leaf_eq hl2]
              rw [Res.bind_eq,
                equalTo_nil c h f a1 (by simp only [Shape.size] at hfuel; omega),
                Res.bind_ok]
              rw [if_pos (by simp)]
              rw [show eqShB c h (Shape.node a1 l1' r1') Shape.leaf = false from rfl,
                Bool.false_and]
              rfl
            | node b1 l2' r2' =>
              rw [Reach.node_eq hl2]
              rw [Res.bind_eq,
                ihl a1 (.node b1 l2' r2') b1 f (by rw [← Reach.node_eq hl1]; exact hl1)
                  (by rw [← Reach.node_eq hl2]; exact hl2)
                  (by simp only [Shape.size] at hfuel ⊢; omega),
                Res.bind_ok]
              cases heql : eqShB c h (Shape.node a1 l1' r1') (Shape.node b1 l2' r2') with
              | false =>
                rw [if_pos (by simp)]
                rw [Bool.false_and]
                rfl
              | true =>
                rw [if_neg (by simp), if_neg (by simp)]
                rw [Bool.true_and]
                exact hrp

end RBGo

namespace RBGo

/-- C5: `EqualTo` returns true iff both trees are empty, or both are
non-empty with equal `Count` and node-for-node comparator-equal values,
equal colors and equal shape by synchronized descent; hence it is false
whenever `Count`, shape, a value or a color differs, regardless of the
in-order value sequences. -/
theorem c5_equalTo_iff {α : Type} (fuel : Nat) (h : Heap α) (t t2 : RBTree α)
    (c : α → α → Int) (s1 s2 : Shape)
    (hcmp : t.cmp = some c) (hre1 : Reach h t.root s1) (hre2 : Reach h t2.root s2)
    (hfuel : s1.size + 1 ≤ fuel) :
    (EqualTo fuel h t (some t2) = .ok true ↔
      (t.root = none ∧ t2.root = none) ∨
      (t.root ≠ none ∧ t2.root ≠ none ∧ t.Count = t2.Count ∧ EqSh c h s1 s2)) := by
  unfold EqualTo
  dsimp only
  cases h1 : t.root with
  | none =>
    rw [h1] at hre1
    cases h2 : t2.root with
    | none => simp
    | some r2 => simp
  | some r =>
    rw [h1] at hre1
    cases h2 : t2.root with
    | none => simp
    | some r2 =>
      rw [h2] at hre2
      rw [hcmp]
      dsimp only
      by_cases hcnt : t.Count = t2.Count
      · rw [if_neg (not_not_intro hcnt)]
        rw [equalTo_spec c h s1 r s2 r2 fuel hre1 hre2 hfuel]
        simp [hcnt, eqShB_iff_EqSh]
      · rw [if_pos hcnt]
        simp [hcnt]

/-- Witness for C5: two structurally equal singleton trees holding 5. -/
theorem c5_equalTo_iff_witness :
    EqualTo 2
      (hset (hset zeroHeap 0 { Val := 5, isBlack := true }) 1 { Val := 5, isBlack := true })
      ⟨some 0, some intCmp, some 0, some 0, 1⟩
      (some ⟨some 1, some intCmp, some 1, some 1, 1⟩) = .ok true := by
  refine (c5_equalTo_iff 2 _ _ _ intCmp (.node 0 .leaf .leaf) (.node 1 .leaf .leaf)
    rfl (Reach.node 0 .leaf .leaf Reach.leaf Reach.leaf)
    (Reach.node 1 .leaf .leaf Reach.leaf Reach.leaf) (by simp [Shape.size])).2 ?_
  refine Or.inr ⟨by simp, by simp, rfl, ?_⟩
  exact EqSh.node 0 1 .leaf .leaf .leaf .leaf (by decide) (by decide) EqSh.leaf EqSh.leaf

end RBGo

namespace RBGo

theorem Reach.rootAddr_eq {α : Type} {h : Heap α} {p : Option Nat} {s : Shape}
    (hr : Reach h p s) : p = s.rootAddr := by
  cases hr <;> rfl

theorem Shape.rootAddr_mem_inorder (s : Shape) (x : Nat) (hx : s.rootAddr = some x) :
    x ∈ s.inorder := by
  cases s with
  | leaf => cases hx
  | node a l r =>
    cases hx
    simp [Shape.inorder]

theorem Shape.inorder_ne_nil {a : Nat} {l r : Shape} :
    (Shape.node a l r).inorder ≠ [] := by
  simp [Shape.inorder]

/-- `leftmost` lands on the head of the in-order sequence. -/
theorem leftmost_head {α : Type} (h : Heap α) :
    ∀ (s : Shape) (a : Nat), Reach h (some a) s → ∀ f, s.size + 1 ≤ f →
      ∃ hd, s.inorder.head? = some hd ∧ leftmost h f a = .ok hd := by
  intro s
  induction s with
  | leaf => intro a hre; cases hre
  | node a0 l r ihl ihr =>
    intro a hre f hf
    cases hre with
    | node _ _ _ hl hr =>
      obtain ⟨f', rfl⟩ : ∃ f', f = f' + 1 := ⟨f - 1, by omega⟩
      simp only [leftmost]
      cases l with
      | leaf =>
        rw [Reach.leaf_eq hl]
        exact ⟨a0, by simp [Shape.inorder], rfl⟩
      | node a1 l1 r1 =>
        rw [Reach.node_eq hl]
        obtain ⟨hd, hh, hlm⟩ := ihl a1 (by rw [← Reach.node_eq hl]; exact hl) f'
          (by simp only [Shape.size] at hf ⊢; omega)
        refine ⟨hd, ?_, hlm⟩
        simp only [Shape.inorder, List.head?_append] at hh ⊢
        rw [hh]
        rfl

end RBGo

namespace RBGo

theorem rightmost_last {α : Type} (h : Heap α) :
    ∀ (s : Shape) (a : Nat), Reach h (some a) s → ∀ f, s.size + 1 ≤ f →
      ∃ lst, s.inorder.getLast? = some lst ∧ rightmost h f a = .ok lst := by
  intro s
  induction s with
  | leaf => intro a hre; cases hre
  | node a0 l r ihl ihr =>
    intro a hre f hf
    cases hre with
    | node _ _ _ hl hr =>
      obtain ⟨f', rfl⟩ : ∃ f', f = f' + 1 := ⟨f - 1, by omega⟩
      simp only [rightmost]
      cases r with
      | leaf =>
        rw [Reach.leaf_eq hr]
        refine ⟨a0, ?_, rfl⟩
        simp [Shape.inorder, List.getLast?_append_cons]
      | node a1 l1 r1 =>
        rw [Reach.node_eq hr]
        obtain ⟨lst, hlast, hrm⟩ := ihr a1 (by rw [← Reach.node_eq hr]; exact hr) f'
          (by simp only [Shape.size] at hf ⊢; omega)
        refine ⟨lst, ?_, hrm⟩
        simp only [Shape.inorder, List.getLast?_append_cons] at hlast ⊢
        rw [← List.cons_append, List.getLast?_append_cons]
        exact hlast

/-- Core induction for `Next`: inside a subtree whose root's upward climb
is known to produce `up`, `Next` maps every in-order element to the
following one, and the last element to `up`. -/
theorem Next_aux {α : Type} (h : Heap α) :
    ∀ (s : Shape) (pp : Option Nat) (up : Option Nat × Bool) (F : Nat),
      Reach h s.rootAddr s → ParOk h pp s → s.inorder.Nodup →
      (∀ x, s.rootAddr = some x → ∀ f, F ≤ f → nextUp h f x = .ok up) →
      List.Chain' (fun x y => ∀ f, F + s.size + 1 ≤ f → Next h f x = .ok (some y, true))
        s.inorder ∧
      (∀ x, s.inorder.getLast? = some x → ∀ f, F + s.size + 1 ≤ f →
        Next h f x = .ok up) := by
  intro s
  induction s with
  | leaf =>
    intro pp up F _ _ _ _
    exact ⟨List.chain'_nil, by intro x hx; simp [Shape.inorder] at hx⟩
  | node a0 l r ihl ihr =>
    intro pp up F hre hpar hnd hup
    cases hre with
    | node _ _ _ hl hr =>
      cases hpar with
      | node _ _ _ _ hpp hpl hpr =>
        simp only [Shape.inorder, List.nodup_append, List.nodup_cons] at hnd
        obtain ⟨hndl, ⟨ha0r, hndr⟩, hdisj⟩ := hnd
        -- climbing out of the left child stops at a0
        have hupL : ∀ x, l.rootAddr = some x → ∀ f, 1 ≤ f →
            nextUp h f x = .ok (some a0, true) := by
          intro x hx f hf
          cases l with
          | leaf => cases hx
          | node la ll lr =>
            cases hx
            obtain ⟨f', rfl⟩ : ∃ f', f = f' + 1 := ⟨f - 1, by omega⟩
            simp only [nextUp]
            cases hpl with
            | node _ _ _ _ hppl _ _ =>
              rw [hppl]
              dsimp only
              rw [if_neg ?_]
              have hlra : (h a0).right = r.rootAddr := Reach.rootAddr_eq hr
              rw [hlra]
              cases r with
              | leaf => simp [Shape.rootAddr]
              | node ra rl rr =>
                simp only [Shape.rootAddr, Option.some_inj]
                intro hc
                subst hc
                exact hdisj (Shape.rootAddr_mem_inorder (Shape.node ra ll lr) ra rfl)
                  (List.mem_cons_of_mem a0 (Shape.rootAddr_mem_inorder (Shape.node ra rl rr) ra rfl))
        -- climbing out of the right child continues above a0
        have hupR : ∀ x, r.rootAddr = some x → ∀ f, F + 1 ≤ f →
            nextUp h f x = .ok up := by
          intro x hx f hf
          cases r with
          | leaf => cases hx
          | node ra rl rr =>
            cases hx
            obtain ⟨f', rfl⟩ : ∃ f', f = f' + 1 := ⟨f - 1, by omega⟩
            simp only [nextUp]
            cases hpr with
            | node _ _ _ _ hppr _ _ =>
              rw [hppr]
              dsimp only
              rw [if_pos (show (h a0).right = some x from Reach.rootAddr_eq hr)]
              exact hup a0 rfl f' (by omega)
        have IHl := ihl (some a0) (some a0, true) 1
          (by rw [← Reach.rootAddr_eq hl]; exact hl) hpl hndl hupL
        have IHr := ihr (some a0) up (F + 1)
          (by rw [← Reach.rootAddr_eq hr]; exact hr) hpr hndr hupR
        have hsz : (Shape.node a0 l r).size = l.size + r.size + 1 := rfl
        constructor
        · -- the chain over l.inorder ++ a0 :: r.inorder
          simp only [Shape.inorder]
          rw [List.chain'_append]
          refine ⟨IHl.1.imp ?_, ?_, ?_⟩
          · intro x y hxy f hf
            exact hxy f (by simp only [Shape.size] at hf ⊢; omega)
          · -- chain over a0 :: r.inorder
            rw [List.chain'_cons']
            constructor
            · intro y hy f hf
              simp only [Next]
              rw [Reach.rootAddr_eq hr]
              cases r with
              | leaf => simp [Shape.inorder] at hy
              | node ra rl rr =>
                simp only [Shape.rootAddr]
                obtain ⟨hd, hhd, hlm⟩ := leftmost_head h (.node ra rl rr) ra
                  (by rw [← Reach.node_eq hr]; exact hr) f
                  (by simp only [Shape.size] at hf ⊢; omega)
                rw [Res.bind_eq, hlm, Res.bind_ok]
                rw [hhd] at hy
                cases hy
                rfl
            · refine IHr.1.imp ?_
              intro x y hxy f hf
              exact hxy f (by simp only [Shape.size] at hf ⊢; omega)
          · -- the link: last of l, then a0
            intro x hx y hy f hf
            simp only [List.head?_cons, Option.mem_def] at hy
            cases hy
            exact IHl.2 x (Option.mem_def.1 hx) f (by simp only [Shape.size] at hf ⊢; omega)
        · -- last element of the subtree climbs to `up`
          intro x hx f hf
          simp only [Shape.inorder, List.getLast?_append_cons] at hx
          cases r with
          | leaf =>
            simp only [Shape.inorder, List.getLast?_singleton] at hx
            cases hx
            simp only [Next]
            rw [Reach.rootAddr_eq hr]
            simp only [Shape.rootAddr]
            exact hup a0 rfl f (by simp only [Shape.size] at hf ⊢; omega)
          | node ra rl rr =>
            have hx2 : (Shape.node ra rl rr).inorder.getLast? = some x := by
              simp only [Shape.inorder, List.getLast?_append_cons] at hx ⊢
              rw [← List.cons_append, List.getLast?_append_cons] at hx
              exact hx
            exact IHr.2 x hx2 f (by simp only [Shape.size] at hf ⊢; omega)

end RBGo

namespace RBGo

/-- Core induction for `Prev` (mirror of `Next_aux`): inside a subtree
whose root's upward climb is known to produce `up`, `Prev` maps every
in-order element to the preceding one, and the first element to `up`. -/
theorem Prev_aux {α : Type} (h : Heap α) :
    ∀ (s : Shape) (pp : Option Nat) (up : Option Nat × Bool) (F : Nat),
      Reach h s.rootAddr s → ParOk h pp s → s.inorder.Nodup →
      (∀ x, s.rootAddr = some x → ∀ f, F ≤ f → prevUp h f x = .ok up) →
      List.Chain' (fun x y => ∀ f, F + s.size + 1 ≤ f → Prev h f y = .ok (some x, true))
        s.inorder ∧
      (∀ x, s.inorder.head? = some x → ∀ f, F + s.size + 1 ≤ f →
        Prev h f x = .ok up) := by
  intro s
  induction s with
  | leaf =>
    intro pp up F _ _ _ _
    exact ⟨List.chain'_nil, by intro x hx; simp [Shape.inorder] at hx⟩
  | node a0 l r ihl ihr =>
    intro pp up F hre hpar hnd hup
    cases hre with
    | node _ _ _ hl hr =>
      cases hpar with
      | node _ _ _ _ hpp hpl hpr =>
        simp only [Shape.inorder, List.nodup_append, List.nodup_cons] at hnd
        obtain ⟨hndl, ⟨ha0r, hndr⟩, hdisj⟩ := hnd
        -- climbing out of the right child stops at a0
        have hupR : ∀ x, r.rootAddr = some x → ∀ f, 1 ≤ f →
            prevUp h f x = .ok (some a0, true) := by
          intro x hx f hf
          cases r with
          | leaf => cases hx
          | node ra rl rr =>
            cases hx
            obtain ⟨f', rfl⟩ : ∃ f', f = f' + 1 := ⟨f - 1, by omega⟩
            simp only [prevUp]
            cases hpr with
            | node _ _ _ _ hppr _ _ =>
              rw [hppr]
              dsimp only
              rw [if_neg ?_]
              have hlla : (h a0).left = l.rootAddr := Reach.rootAddr_eq hl
              rw [hlla]
              cases l with
              | leaf => simp [Shape.rootAddr]
              | node la ll lr =>
                simp only [Shape.rootAddr, Option.some_inj]
                intro hc
                subst hc
                exact hdisj (Shape.rootAddr_mem_inorder (Shape.node la ll lr) la rfl)
                  (List.mem_cons_of_mem a0
                    (Shape.rootAddr_mem_inorder (Shape.node la rl rr) la rfl))
        -- climbing out of the left child continues above a0
        have hupL : ∀ x, l.rootAddr = some x → ∀ f, F + 1 ≤ f →
            prevUp h f x = .ok up := by
          intro x hx f hf
          cases l with
          | leaf => cases hx
          | node la ll lr =>
            cases hx
            obtain ⟨f', rfl⟩ : ∃ f', f = f' + 1 := ⟨f - 1, by omega⟩
            simp only [prevUp]
            cases hpl with
            | node _ _ _ _ hppl _ _ =>
              rw [hppl]
              dsimp only
              rw [if_pos (show (h a0).left = some x from Reach.rootAddr_eq hl)]
              exact hup a0 rfl f' (by omega)
        have IHl := ihl (some a0) up (F + 1)
          (by rw [← Reach.rootAddr_eq hl]; exact hl) hpl hndl hupL
        have IHr := ihr (some a0) (some a0, true) 1
          (by rw [← Reach.rootAddr_eq hr]; exact hr) hpr hndr hupR
        constructor
        · simp only [Shape.inorder]
          rw [List.chain'_append]
          refine ⟨IHl.1.imp ?_, ?_, ?_⟩
          · intro x y hxy f hf
            exact hxy f (by simp only [Shape.size] at hf ⊢; omega)
          · rw [List.chain'_cons']
            constructor
            · intro y hy f hf
              exact IHr.2 y hy f (by simp only [Shape.size] at hf ⊢; omega)
            · refine IHr.1.imp ?_
              intro x y hxy f hf
              exact hxy f (by simp only [Shape.size] at hf ⊢; omega)
          · -- the link: last of l precedes a0
            intro x hx y hy f hf
            simp only [List.head?_cons, Option.mem_def] at hy
            cases hy
            simp only [Prev]
            rw [Reach.rootAddr_eq hl]
            cases l with
            | leaf => simp [Shape.inorder] at hx
            | node la ll lr =>
              simp only [Shape.rootAddr]
              obtain ⟨lst, hlast, hrm⟩ := rightmost_last h (.node la ll lr) la
                (by rw [← Reach.node_eq hl]; exact hl) f
                (by simp only [Shape.size] at hf ⊢; omega)
              rw [Res.bind_eq, hrm, Res.bind_ok]
              rw [hlast] at hx
              cases hx
              rfl
        · -- first element of the subtree climbs to `up`
          intro x hx f hf
          simp only [Shape.inorder, List.head?_append] at hx
          cases l with
          | leaf =>
            simp only [Shape.inorder, List.head?_nil, Option.none_or, List.head?_cons,
              Option.some.injEq] at hx
            subst hx
            simp only [Prev]
            rw [Reach.rootAddr_eq hl]
            simp only [Shape.rootAddr]
            exact hup a0 rfl f (by simp only [Shape.size] at hf ⊢; omega)
          | node la ll lr =>
            cases hh : (Shape.node la ll lr).inorder.head? with
            | none =>
              exact absurd (List.head?_eq_none_iff.1 hh) Shape.inorder_ne_nil
            | some v =>
              rw [hh] at hx
              have hvx : some v = some x := hx
              exact IHl.2 x (by rw [hh]; exact hvx) f
                (by simp only [Shape.size] at hf ⊢; omega)

end RBGo

namespace RBGo

theorem Shape.mem_inorder_iff_addrs : ∀ (s : Shape) (x : Nat),
    x ∈ s.inorder ↔ x ∈ s.addrs := by
  intro s
  induction s with
  | leaf => intro x; simp [Shape.inorder, Shape.addrs]
  | node a l r ihl ihr =>
    intro x
    simp only [Shape.inorder, Shape.addrs, List.mem_append, List.mem_cons, ihl, ihr]
    tauto

/-- The in-order address sequence of a BST-bounded subtree is strictly
increasing under the comparator. -/
theorem Bnd.inorder_sorted {α : Type} {c : α → α → Int} {h : Heap α} (sto : STO c) :
    ∀ {s : Shape} {lo hi : Option α}, Bnd c h lo hi s →
      List.Pairwise (fun x y => c (h x).Val (h y).Val < 0) s.inorder := by
  intro s
  induction s with
  | leaf => intro lo hi _; simp [Shape.inorder]
  | node a l r ihl ihr =>
    intro lo hi hb
    cases hb with
    | node _ _ _ _ _ hlo hhi hbl hbr =>
      simp only [Shape.inorder]
      rw [List.pairwise_append]
      refine ⟨ihl hbl, ?_, ?_⟩
      · rw [List.pairwise_cons]
        refine ⟨?_, ihr hbr⟩
        intro y hy
        have := (Bnd.mem_bounds sto hbr y ((Shape.mem_inorder_iff_addrs r y).1 hy)).1
        exact this
      · intro x hx y hy
        have hxa : c (h x).Val (h a).Val < 0 :=
          (Bnd.mem_bounds sto hbl x ((Shape.mem_inorder_iff_addrs l x).1 hx)).2
        rcases List.mem_cons.1 hy with rfl | hy'
        · exact hxa
        · have hay : c (h a).Val (h y).Val < 0 :=
            (Bnd.mem_bounds sto hbr y ((Shape.mem_inorder_iff_addrs r y).1 hy')).1
          exact sto.trans_lt _ _ _ hxa hay

/-- C6: on a valid tree, `Next` maps every node to its in-order successor
with flag true and the maximum to (nil, false); `Prev` is the exact
mirror; and the in-order sequence is strictly increasing under the
comparator, so the successor is the node with the least greater value. -/
theorem c6_next_prev_successor {α : Type} (h : Heap α) (t : RBTree α)
    (c : α → α → Int) (s : Shape) (sto : STO c)
    (hre : Reach h t.root s) (hpar : ParOk h none s) (hnd : s.inorder.Nodup)
    (hbnd : Bnd c h none none s) :
    List.Chain' (fun x y => ∀ f, s.size + 2 ≤ f → Next h f x = .ok (some y, true))
      s.inorder ∧
    (∀ x, s.inorder.getLast? = some x → ∀ f, s.size + 2 ≤ f →
      Next h f x = .ok (none, false)) ∧
    List.Chain' (fun x y => ∀ f, s.size + 2 ≤ f → Prev h f y = .ok (some x, true))
      s.inorder ∧
    (∀ x, s.inorder.head? = some x → ∀ f, s.size + 2 ≤ f →
      Prev h f x = .ok (none, false)) ∧
    List.Pairwise (fun x y => c (h x).Val (h y).Val < 0) s.inorder := by
  have hroot : t.root = s.rootAddr := Reach.rootAddr_eq hre
  have hre' : Reach h s.rootAddr s := by rw [← hroot]; exact hre
  have hupN : ∀ x, s.rootAddr = some x → ∀ f, 1 ≤ f →
      nextUp h f x = .ok (none, false) := by
    intro x hx f hf
    obtain ⟨f', rfl⟩ : ∃ f', f = f' + 1 := ⟨f - 1, by omega⟩
    cases s with
    | leaf => cases hx
    | node a l r =>
      cases hx
      cases hpar with
      | node _ _ _ _ hpp _ _ =>
        simp only [nextUp]
        rw [hpp]
  have hupP : ∀ x, s.rootAddr = some x → ∀ f, 1 ≤ f →
      prevUp h f x = .ok (none, false) := by
    intro x hx f hf
    obtain ⟨f', rfl⟩ : ∃ f', f = f' + 1 := ⟨f - 1, by omega⟩
    cases s with
    | leaf => cases hx
    | node a l r =>
      cases hx
      cases hpar with
      | node _ _ _ _ hpp _ _ =>
        simp only [prevUp]
        rw [hpp]
  have HN := Next_aux h s none (none, false) 1 hre' hpar hnd hupN
  have HP := Prev_aux h s none (none, false) 1 hre' hpar hnd hupP
  refine ⟨HN.1.imp ?_, ?_, HP.1.imp ?_, ?_, Bnd.inorder_sorted sto hbnd⟩
  · intro x y hxy f hf
    exact hxy f (by omega)
  · intro x hx f hf
    exact HN.2 x hx f (by omega)
  · intro x y hxy f hf
    exact hxy f (by omega)
  · intro x hx f hf
    exact HP.2 x hx f (by omega)

end RBGo

namespace RBGo

/-- Witness for C6: in the two-node tree, `Next` of the child is the root,
`Next` of the root is nil, and `Prev` mirrors both. -/
theorem c6_next_prev_successor_witness :
    Next c6heap 4 1 = .ok (some 0, true) ∧ Next c6heap 4 0 = .ok (none, false) ∧
    Prev c6heap 4 0 = .ok (some 1, true) ∧ Prev c6heap 4 1 = .ok (none, false) := by
  obtain ⟨h1, h2, h3, h4, _⟩ :=
    c6_next_prev_successor c6heap ⟨some 0, some intCmp, some 1, some 0, 2⟩ intCmp
      (.node 0 (.node 1 .leaf .leaf) .leaf) intCmp_STO
      (Reach.node 0 (.node 1 .leaf .leaf) .leaf
        (Reach.node 1 .leaf .leaf Reach.leaf Reach.leaf) Reach.leaf)
      (ParOk.node none 0 (.node 1 .leaf .leaf) .leaf rfl
        (ParOk.node (some 0) 1 .leaf .leaf rfl (ParOk.leaf _) (ParOk.leaf _))
        (ParOk.leaf _))
      (by decide)
      (Bnd.node none none 0 (.node 1 .leaf .leaf) .leaf trivial trivial
        (Bnd.node none (some ((c6heap 0).Val)) 1 .leaf .leaf trivial
          (by decide : intCmp (3 : Int) 5 < 0) (Bnd.leaf _ _) (Bnd.leaf _ _))
        (Bnd.leaf _ _))
  exact ⟨(List.chain'_cons.1 h1).1 4 (by decide), h2 0 (by rfl) 4 (by decide),
    (List.chain'_cons.1 h3).1 4 (by decide), h4 1 (by rfl) 4 (by decide)⟩

end RBGo
namespace RBGo

theorem Reach_congr {α : Type} {h h' : Heap α} :
    ∀ {s : Shape} {p : Option Nat}, Reach h p s →
      (∀ x ∈ s.addrs, (h' x).left = (h x).left ∧ (h' x).right = (h x).right) →
      Reach h' p s := by
  intro s
  induction s with
  | leaf => intro p hre _; cases hre; exact Reach.leaf
  | node a l r ihl ihr =>
    intro p hre hag
    cases hre with
    | node _ _ _ hl hr =>
      have hagl : ∀ x ∈ l.addrs, (h' x).left = (h x).left ∧ (h' x).right = (h x).right :=
        fun x hx => hag x (by simp [Shape.addrs]; tauto)
      have hagr : ∀ x ∈ r.addrs, (h' x).left = (h x).left ∧ (h' x).right = (h x).right :=
        fun x hx => hag x (by simp [Shape.addrs]; tauto)
      have haa := hag a (by simp [Shape.addrs])
      refine Reach.node a l r ?_ ?_
      · rw [haa.1]; exact ihl hl hagl
      · rw [haa.2]; exact ihr hr hagr

theorem ParOk_congr {α : Type} {h h' : Heap α} :
    ∀ {s : Shape} {pp : Option Nat}, ParOk h pp s →
      (∀ x ∈ s.addrs, (h' x).parent = (h x).parent) → ParOk h' pp s := by
  intro s
  induction s with
  | leaf => intro pp _ _; exact ParOk.leaf _
  | node a l r ihl ihr =>
    intro pp hp hag
    cases hp with
    | node _ _ _ _ hpp hpl hpr =>
      refine ParOk.node _ _ _ _ ?_ ?_ ?_
      · rw [hag a (by simp [Shape.addrs])]; exact hpp
      · exact ihl hpl (fun x hx => hag x (by simp [Shape.addrs]; tauto))
      · exact ihr hpr (fun x hx => hag x (by simp [Shape.addrs]; tauto))

theorem Bnd_congr {α : Type} {c : α → α → Int} {h h' : Heap α} :
    ∀ {s : Shape} {lo hi : Option α}, Bnd c h lo hi s →
      (∀ x ∈ s.addrs, (h' x).Val = (h x).Val) → Bnd c h' lo hi s := by
  intro s
  induction s with
  | leaf => intro lo hi _ _; exact Bnd.leaf _ _
  | node a l r ihl ihr =>
    intro lo hi hb hag
    cases hb with
    | node _ _ _ _ _ hlo hhi hbl hbr =>
      have haa := hag a (by simp [Shape.addrs])
      refine Bnd.node _ _ _ _ _ ?_ ?_ ?_ ?_
      · rw [haa]; exact hlo
      · rw [haa]; exact hhi
      · rw [haa]; exact ihl hbl (fun x hx => hag x (by simp [Shape.addrs]; tauto))
      · rw [haa]; exact ihr hbr (fun x hx => hag x (by simp [Shape.addrs]; tauto))

theorem Shape.rootAddr_mem_addrs (s : Shape) (x : Nat) (hx : s.rootAddr = some x) :
    x ∈ s.addrs := by
  cases s with
  | leaf => cases hx
  | node a l r => cases hx; simp [Shape.addrs]

theorem NoRR_congr {α : Type} {h h' : Heap α} :
    ∀ {s : Shape}, NoRR h s → (∀ x ∈ s.addrs, (h' x).isBlack = (h x).isBlack) →
      NoRR h' s := by
  intro s
  induction s with
  | leaf => intro _ _; exact NoRR.leaf
  | node a l r ihl ihr =>
    intro hn hag
    cases hn with
    | node _ _ _ hrr hnl hnr =>
      refine NoRR.node _ _ _ ?_ ?_ ?_
      · intro hared
        rw [hag a (by simp [Shape.addrs])] at hared
        obtain ⟨h1, h2⟩ := hrr hared
        constructor
        · intro x hx
          rw [hag x (by
            simp only [Shape.addrs, List.mem_cons, List.mem_append]
            exact Or.inr (Or.inl (Shape.rootAddr_mem_addrs l x hx)))]
          exact h1 x hx
        · intro x hx
          rw [hag x (by
            simp only [Shape.addrs, List.mem_cons, List.mem_append]
            exact Or.inr (Or.inr (Shape.rootAddr_mem_addrs r x hx)))]
          exact h2 x hx
      · exact ihl hnl (fun x hx => hag x (by simp [Shape.addrs]; tauto))
      · exact ihr hnr (fun x hx => hag x (by simp [Shape.addrs]; tauto))

end RBGo

namespace RBGo

theorem BH_congr {α : Type} {h h' : Heap α} :
    ∀ {s : Shape} {n : Nat}, BH h s n →
      (∀ x ∈ s.addrs, (h' x).isBlack = (h x).isBlack) → BH h' s n := by
  intro s
  induction s with
  | leaf => intro n hb _; cases hb; exact BH.leaf
  | node a l r ihl ihr =>
    intro n hb hag
    cases hb with
    | node _ _ _ _ hbl hbr =>
      rw [← hag a (by simp [Shape.addrs])]
      exact BH.node _ _ _ _ (ihl hbl (fun x hx => hag x (by simp [Shape.addrs]; tauto)))
        (ihr hbr (fun x hx => hag x (by simp [Shape.addrs]; tauto)))

theorem CopyOf_congr {α : Type} {h h' h2 h2' : Heap α} :
    ∀ {s s' : Shape}, CopyOf h h' s s' →
      (∀ x ∈ s.addrs, (h2 x).Val = (h x).Val ∧ (h2 x).isBlack = (h x).isBlack) →
      (∀ x ∈ s'.addrs, (h2' x).Val = (h' x).Val ∧ (h2' x).isBlack = (h' x).isBlack) →
      CopyOf h2 h2' s s' := by
  intro s
  induction s with
  | leaf => intro s' hc _ _; cases hc; exact CopyOf.leaf
  | node a l r ihl ihr =>
    intro s' hc hag hag'
    cases hc with
    | node _ b _ _ l' r' hv hb hcl hcr =>
      have haa := hag a (by simp [Shape.addrs])
      have hbb := hag' b (by simp [Shape.addrs])
      refine CopyOf.node _ _ _ _ _ _ ?_ ?_ ?_ ?_
      · rw [hbb.1, haa.1]; exact hv
      · rw [hbb.2, haa.2]; exact hb
      · exact ihl hcl (fun x hx => hag x (by simp [Shape.addrs]; tauto))
          (fun x hx => hag' x (by simp [Shape.addrs]; tauto))
      · exact ihr hcr (fun x hx => hag x (by simp [Shape.addrs]; tauto))
          (fun x hx => hag' x (by simp [Shape.addrs]; tauto))

end RBGo

namespace RBGo

theorem Shape.eq_leaf_of_rootAddr_none {s : Shape} (hs : s.rootAddr = none) :
    s = .leaf := by
  cases s with
  | leaf => rfl
  | node a l r => cases hs

/-- On a subtree satisfying the red-black invariants, the node-level
validator succeeds and returns the black-height accounting values. -/
theorem isValid_ok {α : Type} {c : α → α → Int} {h : Heap α} (sto : STO c) :
    ∀ (s : Shape) (a : Nat) (pp : Option Nat) (lo hi : Option α) (n : Nat)
      (ibh cbh : Int) (fuel : Nat),
      Reach h (some a) s → ParOk h pp s → Bnd c h lo hi s → NoRR h s → BH h s n →
      ((h a).isBlack = false → ∃ p, (h a).parent = some p ∧ (h p).isBlack = true) →
      2 * s.size + 1 ≤ fuel → 1 ≤ cbh + n → (ibh = 0 ∨ ibh = cbh + n) →
      isValid c h fuel a ibh cbh = .ok (cbh + n, cbh + n, true) := by
  intro s
  induction s with
  | leaf => intro a pp lo hi n ibh cbh fuel hre; cases hre
  | node a0 l r ihl ihr =>
    intro a pp lo hi n ibh cbh fuel hre hpar hbnd hnrr hbh hred hfuel hpos hinv
    cases hre with
    | node _ _ _ hl hr =>
      cases hpar with
      | node _ _ _ _ hpp hpl hpr =>
        cases hbnd with
        | node _ _ _ _ _ hlo hhi hbl hbr =>
          cases hnrr with
          | node _ _ _ hrr hnl hnr =>
            obtain ⟨n', hbhl, hbhr, hne⟩ : ∃ n', BH h l n' ∧ BH h r n' ∧
                n = n' + (if (h a0).isBlack = true then 1 else 0) := by
              cases hbh with
              | node _ _ _ nn hb1 hb2 => exact ⟨nn, hb1, hb2, rfl⟩
            obtain ⟨f, rfl⟩ : ∃ f, fuel = f + 1 := ⟨fuel - 1, by omega⟩
            have hfl : (h a0).left = l.rootAddr := Reach.rootAddr_eq hl
            have hfr : (h a0).right = r.rootAddr := Reach.rootAddr_eq hr
            have hleft : ∀ (ibh0 cb : Int),
                cb + (n' : Int) = cbh + n → (ibh0 = 0 ∨ ibh0 = cbh + n) →
                leftSubtreeIsValid c h f a0 ibh0 cb =
                  .ok (if l = .leaf then ibh0 else cbh + n, cb + (n' : Int), true) := by
              intro ibh0 cb hcb hinv0
              obtain ⟨f', rfl⟩ : ∃ f', f = f' + 1 :=
                ⟨f - 1, by simp only [Shape.size] at hfuel; omega⟩
              simp only [leftSubtreeIsValid]
              cases l with
              | leaf =>
                have h0 : n' = 0 := by cases hbhl; rfl
                subst h0
                rw [Reach.leaf_eq hl]
                simp
              | node la ll lr =>
                rw [Reach.node_eq hl]
                dsimp only
                rw [if_neg ?_]
                · have hres := ihl la (some a0) lo (some (h a0).Val) n' ibh0 cb f'
                    (by rw [← Reach.node_eq hl]; exact hl) hpl hbl hnl hbhl
                    ?_ (by simp only [Shape.size] at hfuel ⊢; omega)
                    (by omega) (by omega)
                  · rw [hres, hcb]
                    simp
                  · intro hlared
                    refine ⟨a0, ?_, ?_⟩
                    · cases hpl with
                      | node _ _ _ _ hppl _ _ => exact hppl
                    · by_cases ha0 : (h a0).isBlack = true
                      · exact ha0
                      · exfalso
                        have := (hrr (by simpa using ha0)).1 la rfl
                        rw [this] at hlared
                        cases hlared
                · push_neg
                  constructor
                  · cases hpl with
                    | node _ _ _ _ hppl _ _ => exact hppl
                  · have hmem : c (h la).Val (h a0).Val < 0 :=
                      (Bnd.mem_bounds sto hbl la
                        (Shape.rootAddr_mem_addrs _ la rfl)).2
                    have := (sto.lt_flip (h la).Val (h a0).Val).1 hmem
                    omega
            have hright : ∀ (ibh0 cb : Int),
                cb + (n' : Int) = cbh + n → (ibh0 = 0 ∨ ibh0 = cbh + n) →
                rightSubtreeIsValid c h f a0 ibh0 cb =
                  .ok (if r = .leaf then ibh0 else cbh + n, cb + (n' : Int), true) := by
              intro ibh0 cb hcb hinv0
              obtain ⟨f', rfl⟩ : ∃ f', f = f' + 1 :=
                ⟨f - 1, by simp only [Shape.size] at hfuel; omega⟩
              simp only [rightSubtreeIsValid]
              cases r with
              | leaf =>
                have h0 : n' = 0 := by cases hbhr; rfl
                subst h0
                rw [Reach.leaf_eq hr]
                simp
              | node ra rl rr =>
                rw [Reach.node_eq hr]
                dsimp only
                rw [if_neg ?_]
                · have hres := ihr ra (some a0) (some (h a0).Val) hi n' ibh0 cb f'
                    (by rw [← Reach.node_eq hr]; exact hr) hpr hbr hnr hbhr
                    ?_ (by simp only [Shape.size] at hfuel ⊢; omega)
                    (by omega) (by omega)
                  · rw [hres, hcb]
                    simp
                  · intro hrared
                    refine ⟨a0, ?_, ?_⟩
                    · cases hpr with
                      | node _ _ _ _ hppr _ _ => exact hppr
                    · by_cases ha0 : (h a0).isBlack = true
                      · exact ha0
                      · exfalso
                        have := (hrr (by simpa using ha0)).2 ra rfl
                        rw [this] at hrared
                        cases hrared
                · push_neg
                  constructor
                  · cases hpr with
                    | node _ _ _ _ hppr _ _ => exact hppr
                  · have hmem : c (h a0).Val (h ra).Val < 0 :=
                      (Bnd.mem_bounds sto hbr ra
                        (Shape.rootAddr_mem_addrs _ ra rfl)).1
                    omega
            have hREST : ∀ (ibh0 cb : Int),
                cb + (n' : Int) = cbh + n → (ibh0 = 0 ∨ ibh0 = cbh + n) →
                (l = Shape.leaf → r = Shape.leaf → ibh0 = cbh + n) →
                (do
                  let (ibh, leftBlackHeight, ok) ← leftSubtreeIsValid c h f a0 ibh0 cb
                  if ¬ ok then return (ibh, 0, false)
                  let (ibh, rightBlackHeight, ok) ← rightSubtreeIsValid c h f a0 ibh cb
                  if ¬ ok ∨ leftBlackHeight ≠ rightBlackHeight then return (ibh, 0, false)
                  return (ibh, max leftBlackHeight cb, true) : Res (Int × Int × Bool)) =
                .ok (cbh + n, cbh + n, true) := by
              intro ibh0 cb hcb hinv0 hll
              rw [Res.bind_eq, hleft ibh0 cb hcb hinv0, Res.bind_ok]
              dsimp only
              rw [if_neg (by simp)]
              simp only [Res.bind_eq, Res.pure_eq, Res.bind_ok]
              have hinv1 : (if l = Shape.leaf then ibh0 else cbh + (n : Int)) = 0 ∨
                  (if l = Shape.leaf then ibh0 else cbh + (n : Int)) = cbh + n := by
                split
                · exact hinv0
                · exact Or.inr rfl
              rw [hright _ cb hcb hinv1, Res.bind_ok]
              dsimp only
              rw [if_neg (by simp)]
              have hmax : max (cb + (n' : Int)) cb = cb + (n' : Int) := by
                apply max_eq_left
                omega
              rw [hmax, hcb]
              have hfin : (if r = Shape.leaf then
                  (if l = Shape.leaf then ibh0 else cbh + (n : Int)) else cbh + n) =
                  cbh + n := by
                split
                · rename_i hrleaf
                  split
                  · rename_i hlleaf
                    exact hll hlleaf hrleaf
                  · rfl
                · rfl
              rw [hfin]
            have hAC : ∀ cb : Int, cb + (n' : Int) = cbh + n →
                (if (h a0).left = none ∧ (h a0).right = none then
                  if ibh = 0 then Res.ok (cb, cb, true)
                  else if ibh ≠ cb then Res.ok (ibh, 0, false)
                  else
                    (do
                      let (ibh, leftBlackHeight, ok) ← leftSubtreeIsValid c h f a0 ibh cb
                      if ¬ ok then return (ibh, 0, false)
                      let (ibh, rightBlackHeight, ok) ← rightSubtreeIsValid c h f a0 ibh cb
                      if ¬ ok ∨ leftBlackHeight ≠ rightBlackHeight then
                        return (ibh, 0, false)
                      return (ibh, max leftBlackHeight cb, true) : Res (Int × Int × Bool))
                else
                  (do
                    let (ibh, leftBlackHeight, ok) ← leftSubtreeIsValid c h f a0 ibh cb
                    if ¬ ok then return (ibh, 0, false)
                    let (ibh, rightBlackHeight, ok) ← rightSubtreeIsValid c h f a0 ibh cb
                    if ¬ ok ∨ leftBlackHeight ≠ rightBlackHeight then
                      return (ibh, 0, false)
                    return (ibh, max leftBlackHeight cb, true) : Res (Int × Int × Bool))) =
                .ok (cbh + n, cbh + n, true) := by
              intro cb hcb
              by_cases hlf : (h a0).left = none ∧ (h a0).right = none
              · have hleq : l = Shape.leaf := by
                  apply Shape.eq_leaf_of_rootAddr_none
                  rw [← hfl]; exact hlf.1
                have hreq : r = Shape.leaf := by
                  apply Shape.eq_leaf_of_rootAddr_none
                  rw [← hfr]; exact hlf.2
                have h0 : n' = 0 := by
                  rw [hleq] at hbhl; cases hbhl; rfl
                have hcb' : cb = cbh + n := by omega
                rw [if_pos hlf]
                by_cases hibh : ibh = 0
                · rw [if_pos hibh, hcb']
                · rw [if_neg hibh]
                  have hieq : ibh = cbh + n := by tauto
                  rw [if_neg (by omega)]
                  exact hREST ibh cb hcb (Or.inr hieq) (fun _ _ => hieq)
              · rw [if_neg hlf]
                refine hREST ibh cb hcb hinv ?_
                intro hleq hreq
                exfalso
                apply hlf
                constructor
                · rw [hfl, hleq]; rfl
                · rw [hfr, hreq]; rfl
            simp only [isValid]
            by_cases hcol : (h a0).isBlack = true
            · rw [if_pos hcol]
              exact hAC (cbh + 1) (by subst hne; simp only [hcol, if_true]; push_cast; ring)
            · rw [if_neg hcol]
              obtain ⟨p, hp, hpb⟩ := hred (by simpa using hcol)
              rw [hp]
              dsimp only
              rw [if_neg (by simp [hpb])]
              exact hAC cbh (by subst hne; simp only [hcol, if_false]; push_cast; ring)

end RBGo

namespace RBGo

theorem Shape.length_inorder : ∀ s : Shape, s.inorder.length = s.size := by
  intro s
  induction s with
  | leaf => rfl
  | node a l r ihl ihr =>
    simp [Shape.inorder, Shape.size, ihl, ihr]
    omega

/-- The `IsValid` counting loop follows the `Next` chain over the whole
in-order sequence and counts its length. -/
theorem countLoop_chain {α : Type} {h : Heap α} (B : Nat) :
    ∀ (L : List Nat) (x : Nat) (cnt : Int) (fuel : Nat),
      List.Chain' (fun u v => ∀ f, B ≤ f → Next h f u = .ok (some v, true)) (x :: L) →
      (∀ z, (x :: L).getLast? = some z → ∀ f, B ≤ f → Next h f z = .ok (none, false)) →
      B + L.length + 2 ≤ fuel →
      countLoop h fuel (some x) true cnt = .ok (cnt + (L.length + 1)) := by
  intro L
  induction L with
  | nil =>
    intro x cnt fuel _ hlast hfuel
    obtain ⟨f, rfl⟩ : ∃ f, fuel = f + 1 := ⟨fuel - 1, by omega⟩
    simp only [countLoop, if_pos rfl]
    simp only [derefA, Res.bind_eq, Res.bind_ok]
    rw [hlast x rfl f (by omega), Res.bind_ok]
    obtain ⟨f', rfl⟩ : ∃ f', f = f' + 1 := ⟨f - 1, by omega⟩
    simp only [countLoop]
    norm_num
  | cons y L' ih =>
    intro x cnt fuel hchain hlast hfuel
    obtain ⟨f, rfl⟩ : ∃ f, fuel = f + 1 := ⟨fuel - 1, by omega⟩
    simp only [countLoop, if_pos rfl]
    simp only [derefA, Res.bind_eq, Res.bind_ok]
    rw [(List.chain'_cons.1 hchain).1 f (by omega), Res.bind_ok]
    rw [ih y (cnt + 1) f (List.chain'_cons.1 hchain).2
      (by
        intro z hz fz hfz
        exact hlast z (by rw [List.getLast?_cons_cons]; exact hz) fz hfz)
      (by simp at hfuel ⊢; omega)]
    simp only [List.length_cons]
    push_cast
    ring_nf

end RBGo

namespace RBGo

/-- On a tree state satisfying the specification's global invariants, the
`IsValid` validator returns true. -/
theorem IsValid_complete {α : Type} {c : α → α → Int} {h : Heap α} {t : RBTree α}
    {s : Shape} (sto : STO c) (hv : SValid c h t s) (fuel : Nat)
    (hfuel : 2 * s.size + 3 ≤ fuel) : IsValid fuel h t = .ok true := by
  unfold IsValid
  rw [hv.cmp_eq]
  have hroot : t.root = s.rootAddr := Reach.rootAddr_eq hv.reach
  cases s with
  | leaf =>
    rw [hroot]
    have h1 := hv.min_eq
    have h2 := hv.max_eq
    have h3 := hv.count_eq
    simp only [Shape.inorder, List.head?_nil, List.getLast?_nil, Shape.size,
      Nat.cast_zero] at h1 h2 h3
    simp [Shape.rootAddr, h1, h2, h3]
  | node a l r =>
    rw [hroot]
    dsimp only [Shape.rootAddr]
    have hreach : Reach h (some a) (Shape.node a l r) := by
      have := hv.reach
      rw [hroot] at this
      exact this
    have hblack : (h a).isBlack = true := hv.rootBlack a rfl
    have hppnone : (h a).parent = none := by
      cases hv.par with
      | node _ _ _ _ hpp _ _ => exact hpp
    rw [if_neg (by simp [hppnone, hblack])]
    obtain ⟨n, hbh⟩ := hv.bh
    have hn1 : 1 ≤ n := by
      cases hbh with
      | node _ _ _ n' hb1 hb2 => rw [hblack]; simp
    rw [Res.bind_eq,
      isValid_ok sto (Shape.node a l r) a none none none n 0 0 fuel hreach hv.par
        hv.bnd hv.nrr hbh (fun hf => absurd hblack (by simp [hf]))
        (by omega) (by omega) (Or.inl rfl),
      Res.bind_ok]
    dsimp only
    rw [if_neg (by simp)]
    simp only [Res.bind_eq, Res.pure_eq, Res.bind_ok]
    obtain ⟨hd, hhd, hlm⟩ := leftmost_head h (Shape.node a l r) a hreach fuel
      (by simp only [Shape.size] at hfuel ⊢; omega)
    rw [hlm, Res.bind_ok]
    rw [if_neg (by rw [hv.min_eq, hhd]; simp)]
    obtain ⟨lst, hlst, hrm⟩ := rightmost_last h (Shape.node a l r) a hreach fuel
      (by simp only [Shape.size] at hfuel ⊢; omega)
    rw [hrm, Res.bind_ok]
    rw [if_neg (by rw [hv.max_eq, hlst]; simp)]
    -- the counting loop follows the Next chain over the in-order sequence
    have hupN : ∀ x, (Shape.node a l r).rootAddr = some x → ∀ f, 1 ≤ f →
        nextUp h f x = .ok (none, false) := by
      intro x hx f hf
      obtain ⟨f', rfl⟩ : ∃ f', f = f' + 1 := ⟨f - 1, by omega⟩
      cases hx
      simp only [nextUp]
      rw [hppnone]
    have HN := Next_aux h (Shape.node a l r) none (none, false) 1 hreach hv.par
      hv.nodup hupN
    obtain ⟨L, hL⟩ : ∃ L, (Shape.node a l r).inorder = hd :: L := by
      cases hio : (Shape.node a l r).inorder with
      | nil => rw [hio] at hhd; cases hhd
      | cons z L =>
        rw [hio] at hhd
        simp only [List.head?_cons, Option.some_inj] at hhd
        exact ⟨L, by rw [hhd]⟩
    rw [hv.min_eq, hhd]
    rw [countLoop_chain (1 + (Shape.node a l r).size + 1) L hd 0 fuel
      (by rw [← hL]; exact HN.1) (by rw [← hL]; exact HN.2)
      (by
        have := Shape.length_inorder (Shape.node a l r)
        rw [hL] at this
        simp only [List.length_cons] at this
        omega)]
    rw [hv.count_eq]
    have hlen : (L.length : Int) + 1 = ((Shape.node a l r).size : Int) := by
      have := Shape.length_inorder (Shape.node a l r)
      rw [hL] at this
      simp only [List.length_cons] at this
      omega
    simp [hlen]

end RBGo

namespace RBGo

theorem hset_same {α : Type} (h : Heap α) (a : Nat) (n : RBNode α) : hset h a n a = n := by
  simp [hset]

theorem hset_other {α : Type} (h : Heap α) (a b : Nat) (n : RBNode α) (hb : b ≠ a) :
    hset h a n b = h b := by
  simp [hset, hb]

theorem upd_same {α : Type} (h : Heap α) (a : Nat) (f : RBNode α → RBNode α) :
    upd h a f a = f (h a) := by
  simp [upd]

theorem upd_other {α : Type} (h : Heap α) (a b : Nat) (f : RBNode α → RBNode α)
    (hb : b ≠ a) : upd h a f b = h b := by
  simp [upd, hb]

/-- Re-pointing the (fresh) root's parent of a parent-consistent subtree. -/
theorem ParOk_reparent {α : Type} {h : Heap α} {s : Shape} {cr : Nat} (pp' : Option Nat)
    (hp : ParOk h none s) (hroot : s.rootAddr = some cr) (hnd : s.addrs.Nodup) :
    ParOk (upd h cr (fun n => { n with parent := pp' })) pp' s := by
  cases s with
  | leaf => cases hroot
  | node b bl br =>
    cases hroot
    cases hp with
    | node _ _ _ _ hpp hpl hpr =>
      simp only [Shape.addrs, List.nodup_cons, List.mem_append] at hnd
      refine ParOk.node _ _ _ _ ?_ ?_ ?_
      · rw [upd_same]
      · refine ParOk_congr hpl ?_
        intro x hx
        rw [upd_other]
        intro hc
        subst hc
        exact hnd.1 (Or.inl hx)
      · refine ParOk_congr hpr ?_
        intro x hx
        rw [upd_other]
        intro hc
        subst hc
        exact hnd.1 (Or.inr hx)

/-- `clone` writes only fresh addresses, allocates them contiguously, and
produces a parent-consistent node-for-node copy whose root's parent is
nil. -/
theorem clone_ok {α : Type} :
    ∀ (s : Shape) (h : Heap α) (a free fuel : Nat),
      Reach h (some a) s → (∀ x ∈ s.addrs, x < free) → s.size + 1 ≤ fuel →
      ∃ h' r' s',
        clone h fuel a free = .ok (h', free + s.size, r') ∧
        (∀ x, x < free → h' x = h x) ∧
        Reach h' (some r') s' ∧
        ParOk h' none s' ∧
        CopyOf h h' s s' ∧
        (∀ x ∈ s'.addrs, free ≤ x ∧ x < free + s.size) ∧
        s'.addrs.Nodup := by
  intro s
  induction s with
  | leaf => intro h a free fuel hre; cases hre
  | node a0 l r ihl ihr =>
    intro h a free fuel hre hlt hfuel
    cases hre with
    | node _ _ _ hl hr =>
      obtain ⟨f, rfl⟩ : ∃ f, fuel = f + 1 := ⟨fuel - 1, by omega⟩
      have ha0 : a0 < free := hlt a0 (by simp [Shape.addrs])
      have hlts : ∀ x ∈ l.addrs, x < free :=
        fun x hx => hlt x (by simp [Shape.addrs]; tauto)
      have hrts : ∀ x ∈ r.addrs, x < free :=
        fun x hx => hlt x (by simp [Shape.addrs]; tauto)
      simp only [clone]
      cases l with
      | leaf =>
        rw [Reach.leaf_eq hl]
        rw [hset_other h free a0 _ (by omega)]
        cases r with
        | leaf =>
          rw [Reach.leaf_eq hr]
          refine ⟨_, free, .node free .leaf .leaf, rfl, ?_, ?_, ?_, ?_, ?_, ?_⟩
          · intro x hx
            exact hset_other h free x _ (by omega)
          · refine Reach.node free .leaf .leaf ?_ ?_ <;>
              (rw [hset_same]; exact Reach.leaf)
          · refine ParOk.node none free .leaf .leaf ?_ (ParOk.leaf _) (ParOk.leaf _)
            rw [hset_same]
          · refine CopyOf.node a0 free .leaf .leaf .leaf .leaf ?_ ?_ CopyOf.leaf CopyOf.leaf <;>
              rw [hset_same]
          · intro x hx
            simp only [Shape.addrs, List.append_nil, List.mem_singleton] at hx
            subst hx
            simp [Shape.size]
          · simp [Shape.addrs]
        | node ra rl rr =>
          rw [Reach.node_eq hr]
          dsimp only
          have hre1 : Reach (hset h free
              { Val := (h a0).Val, isBlack := (h a0).isBlack }) (some ra)
              (Shape.node ra rl rr) := by
            refine Reach_congr (by rw [← Reach.node_eq hr]; exact hr) ?_
            intro x hx
            rw [hset_other h free x _ (by have := hrts x hx; omega)]
            exact ⟨rfl, rfl⟩
          obtain ⟨h2, cr, s'r, heq, hag, hre2, hpar2, hcp2, hrange2, hnd2⟩ :=
            ihr _ ra (free + 1) f hre1
              (fun x hx => by have := hrts x hx; omega)
              (by simp only [Shape.size] at hfuel ⊢; omega)
          rw [Res.bind_eq, heq, Res.bind_ok]
          dsimp only
          obtain ⟨hcr1, hcr2⟩ : free + 1 ≤ cr ∧ cr < free + 1 + (Shape.node ra rl rr).size :=
            hrange2 cr (Shape.rootAddr_mem_addrs s'r cr (Reach.rootAddr_eq hre2).symm)
          have hsz : free + (Shape.node a0 Shape.leaf (Shape.node ra rl rr)).size =
              free + 1 + (Shape.node ra rl rr).size := by
            simp [Shape.size]; omega
          refine ⟨upd (upd h2 free (fun n => { n with right := some cr })) cr
            (fun n => { n with parent := some free }), free, .node free .leaf s'r,
            ?_, ?_, ?_, ?_, ?_, ?_, ?_⟩
          · rw [hsz]
          · intro x hx
            rw [upd_other _ cr x _ (by omega), upd_other _ free x _ (by omega),
              hag x (by omega), hset_other h free x _ (by omega)]
          · refine Reach.node free .leaf s'r ?_ ?_
            · rw [upd_other _ cr free _ (by omega), upd_same]
              dsimp only
              rw [hag free (by omega), hset_same]
              exact Reach.leaf
            · rw [upd_other _ cr free _ (by omega), upd_same]
              dsimp only
              refine Reach_congr hre2 ?_
              intro x hx
              obtain ⟨hx1, hx2⟩ := hrange2 x hx
              by_cases hxc : x = cr
              · subst hxc
                rw [upd_same, upd_other _ free x _ (by omega)]
                exact ⟨rfl, rfl⟩
              · rw [upd_other _ cr x _ hxc, upd_other _ free x _ (by omega)]
                exact ⟨rfl, rfl⟩
          · refine ParOk.node none free .leaf s'r ?_ (ParOk.leaf _) ?_
            · rw [upd_other _ cr free _ (by omega), upd_same]
              dsimp only
              rw [hag free (by omega), hset_same]
            · refine ParOk_reparent (some free) ?_ (Reach.rootAddr_eq hre2).symm hnd2
              refine ParOk_congr hpar2 ?_
              intro x hx
              obtain ⟨hx1, hx2⟩ := hrange2 x hx
              rw [upd_other _ free x _ (by omega)]
          · refine CopyOf.node a0 free _ _ .leaf s'r ?_ ?_ CopyOf.leaf ?_
            · rw [upd_other _ cr free _ (by omega), upd_same]
              dsimp only
              rw [hag free (by omega), hset_same]
            · rw [upd_other _ cr free _ (by omega), upd_same]
              dsimp only
              rw [hag free (by omega), hset_same]
            · refine CopyOf_congr hcp2 ?_ ?_
              · intro x hx
                have hxf := hrts x hx
                rw [hset_other h free x _ (by omega)]
                exact ⟨rfl, rfl⟩
              · intro x hx
                obtain ⟨hx1, hx2⟩ := hrange2 x hx
                by_cases hxc : x = cr
                · subst hxc
                  rw [upd_same, upd_other _ free x _ (by omega)]
                  exact ⟨rfl, rfl⟩
                · rw [upd_other _ cr x _ hxc, upd_other _ free x _ (by omega)]
                  exact ⟨rfl, rfl⟩
          · intro x hx
            simp only [Shape.addrs, List.nil_append, List.mem_cons] at hx
            rcases hx with rfl | hx
            · constructor
              · omega
              · simp only [Shape.size]; omega
            · obtain ⟨hx1, hx2⟩ := hrange2 x hx
              constructor
              · omega
              · simp only [Shape.size] at hx2 ⊢; omega
          · simp only [Shape.addrs, List.nil_append, List.nodup_cons]
            refine ⟨?_, hnd2⟩
            intro hc
            obtain ⟨hx1, _⟩ := hrange2 free hc
            omega
      | node la ll lr =>
        rw [Reach.node_eq hl]
        dsimp only
        have hre1l : Reach (hset h free
            { Val := (h a0).Val, isBlack := (h a0).isBlack }) (some la)
            (Shape.node la ll lr) := by
          refine Reach_congr (by rw [← Reach.node_eq hl]; exact hl) ?_
          intro x hx
          rw [hset_other h free x _ (by have := hlts x hx; omega)]
          exact ⟨rfl, rfl⟩
        obtain ⟨h2, cl, s'l, heql, hagl, hrel, hparl, hcpl, hrangel, hndl⟩ :=
          ihl _ la (free + 1) f hre1l
            (fun x hx => by have := hlts x hx; omega)
            (by simp only [Shape.size] at hfuel ⊢; omega)
        rw [Res.bind_eq, heql, Res.bind_ok]
        dsimp only
        obtain ⟨hcl1, hcl2⟩ : free + 1 ≤ cl ∧ cl < free + 1 + (Shape.node la ll lr).size :=
          hrangel cl (Shape.rootAddr_mem_addrs s'l cl (Reach.rootAddr_eq hrel).symm)
        have hlow2 : ∀ x, x < free →
            (upd (upd h2 free (fun n => { n with left := some cl })) cl
              (fun n => { n with parent := some free })) x = h x := by
          intro x hx
          rw [upd_other _ cl x _ (by omega), upd_other _ free x _ (by omega),
            hagl x (by omega), hset_other h free x _ (by omega)]
        have hfl2 : ∀ x ∈ s'l.addrs,
            ((upd (upd h2 free (fun n => { n with left := some cl })) cl
              (fun n => { n with parent := some free })) x).left = (h2 x).left ∧
            ((upd (upd h2 free (fun n => { n with left := some cl })) cl
              (fun n => { n with parent := some free })) x).right = (h2 x).right ∧
            ((upd (upd h2 free (fun n => { n with left := some cl })) cl
              (fun n => { n with parent := some free })) x).Val = (h2 x).Val ∧
            ((upd (upd h2 free (fun n => { n with left := some cl })) cl
              (fun n => { n with parent := some free })) x).isBlack = (h2 x).isBlack := by
          intro x hx
          obtain ⟨hx1, hx2⟩ := hrangel x hx
          by_cases hxc : x = cl
          · subst hxc
            rw [upd_same, upd_other _ free x _ (by omega)]
            exact ⟨rfl, rfl, rfl, rfl⟩
          · rw [upd_other _ cl x _ hxc, upd_other _ free x _ (by omega)]
            exact ⟨rfl, rfl, rfl, rfl⟩
        rw [upd_other _ cl a0 _ (by omega), upd_other _ free a0 _ (by omega),
          hagl a0 (by omega), hset_other h free a0 _ (by omega)]
        cases r with
        | leaf =>
          rw [Reach.leaf_eq hr]
          dsimp only
          have hsz : free + (Shape.node a0 (Shape.node la ll lr) Shape.leaf).size =
              free + 1 + (Shape.node la ll lr).size := by
            simp only [Shape.size]; omega
          refine ⟨upd (upd h2 free (fun n => { n with left := some cl })) cl
            (fun n => { n with parent := some free }), free, .node free s'l .leaf,
            ?_, hlow2, ?_, ?_, ?_, ?_, ?_⟩
          · rw [hsz]
          · refine Reach.node free s'l .leaf ?_ ?_
            · rw [upd_other _ cl free _ (by omega), upd_same]
              dsimp only
              refine Reach_congr hrel ?_
              intro x hx
              exact ⟨(hfl2 x hx).1, (hfl2 x hx).2.1⟩
            · rw [upd_other _ cl free _ (by omega), upd_same]
              dsimp only
              rw [hagl free (by omega), hset_same]
              exact Reach.leaf
          · refine ParOk.node none free s'l .leaf ?_ ?_ (ParOk.leaf _)
            · rw [upd_other _ cl free _ (by omega), upd_same]
              dsimp only
              rw [hagl free (by omega), hset_same]
            · refine ParOk_reparent (some free) ?_ (Reach.rootAddr_eq hrel).symm hndl
              refine ParOk_congr hparl ?_
              intro x hx
              obtain ⟨hx1, hx2⟩ := hrangel x hx
              rw [upd_other _ free x _ (by omega)]
          · refine CopyOf.node a0 free _ _ s'l .leaf ?_ ?_ ?_ CopyOf.leaf
            · rw [upd_other _ cl free _ (by omega), upd_same]
              dsimp only
              rw [hagl free (by omega), hset_same]
            · rw [upd_other _ cl free _ (by omega), upd_same]
              dsimp only
              rw [hagl free (by omega), hset_same]
            · refine CopyOf_congr hcpl ?_ ?_
              · intro x hx
                have hxf := hlts x hx
                rw [hset_other h free x _ (by omega)]
                exact ⟨rfl, rfl⟩
              · intro x hx
                exact ⟨(hfl2 x hx).2.2.1, (hfl2 x hx).2.2.2⟩
          · intro x hx
            simp only [Shape.addrs, List.append_nil, List.mem_cons] at hx
            rcases hx with rfl | hx
            · constructor
              · omega
              · simp only [Shape.size]; omega
            · obtain ⟨hx1, hx2⟩ := hrangel x hx
              constructor
              · omega
              · simp only [Shape.size] at hx2 ⊢; omega
          · simp only [Shape.addrs, List.append_nil, List.nodup_cons]
            refine ⟨?_, hndl⟩
            intro hc
            obtain ⟨hx1, _⟩ := hrangel free hc
            omega
        | node ra rl rr =>
          rw [Reach.node_eq hr]
          dsimp only
          have hre1r : Reach (upd (upd h2 free (fun n => { n with left := some cl })) cl
              (fun n => { n with parent := some free })) (some ra)
              (Shape.node ra rl rr) := by
            refine Reach_congr (by rw [← Reach.node_eq hr]; exact hr) ?_
            intro x hx
            rw [hlow2 x (hrts x hx)]
            exact ⟨rfl, rfl⟩
          obtain ⟨h3, cr, s'r, heqr, hagr, hrer, hparr, hcpr, hranger, hndr⟩ :=
            ihr _ ra (free + 1 + (Shape.node la ll lr).size) f hre1r
              (fun x hx => by have := hrts x hx; omega)
              (by simp only [Shape.size] at hfuel ⊢; omega)
          rw [Res.bind_eq, heqr, Res.bind_ok]
          dsimp only
          obtain ⟨hcr1, hcr2⟩ : free + 1 + (Shape.node la ll lr).size ≤ cr ∧
              cr < free + 1 + (Shape.node la ll lr).size + (Shape.node ra rl rr).size :=
            hranger cr (Shape.rootAddr_mem_addrs s'r cr (Reach.rootAddr_eq hrer).symm)
          have hsz : free + (Shape.node a0 (Shape.node la ll lr) (Shape.node ra rl rr)).size =
              free + 1 + (Shape.node la ll lr).size + (Shape.node ra rl rr).size := by
            simp only [Shape.size]; omega
          have hfl3 : ∀ x ∈ s'l.addrs,
              ((upd (upd h3 free (fun n => { n with right := some cr })) cr
                (fun n => { n with parent := some free })) x) =
              ((upd (upd h2 free (fun n => { n with left := some cl })) cl
                (fun n => { n with parent := some free })) x) := by
            intro x hx
            obtain ⟨hx1, hx2⟩ := hrangel x hx
            rw [upd_other _ cr x _ (by omega), upd_other _ free x _ (by omega),
              hagr x (by omega)]
          have hfr3 : ∀ x ∈ s'r.addrs,
              (((upd (upd h3 free (fun n => { n with right := some cr })) cr
                (fun n => { n with parent := some free })) x).left = (h3 x).left ∧
              ((upd (upd h3 free (fun n => { n with right := some cr })) cr
                (fun n => { n with parent := some free })) x).right = (h3 x).right) ∧
              ((upd (upd h3 free (fun n => { n with right := some cr })) cr
                (fun n => { n with parent := some free })) x).Val = (h3 x).Val ∧
              ((upd (upd h3 free (fun n => { n with right := some cr })) cr
                (fun n => { n with parent := some free })) x).isBlack = (h3 x).isBlack := by
            intro x hx
            obtain ⟨hx1, hx2⟩ := hranger x hx
            by_cases hxc : x = cr
            · subst hxc
              rw [upd_same, upd_other _ free x _ (by omega)]
              exact ⟨⟨rfl, rfl⟩, rfl, rfl⟩
            · rw [upd_other _ cr x _ hxc, upd_other _ free x _ (by omega)]
              exact ⟨⟨rfl, rfl⟩, rfl, rfl⟩
          refine ⟨upd (upd h3 free (fun n => { n with right := some cr })) cr
            (fun n => { n with parent := some free }), free, .node free s'l s'r,
            ?_, ?_, ?_, ?_, ?_, ?_, ?_⟩
          · rw [hsz]
          · intro x hx
            rw [upd_other _ cr x _ (by omega), upd_other _ free x _ (by omega),
              hagr x (by omega), hlow2 x hx]
          · refine Reach.node free s'l s'r ?_ ?_
            · rw [upd_other _ cr free _ (by omega), upd_same]
              dsimp only
              rw [hagr free (by omega), upd_other _ cl free _ (by omega), upd_same]
              dsimp only
              refine Reach_congr hrel ?_
              intro x hx
              rw [hfl3 x hx]
              exact ⟨(hfl2 x hx).1, (hfl2 x hx).2.1⟩
            · rw [upd_other _ cr free _ (by omega), upd_same]
              dsimp only
              refine Reach_congr hrer ?_
              intro x hx
              exact (hfr3 x hx).1
          · refine ParOk.node none free s'l s'r ?_ ?_ ?_
            · rw [upd_other _ cr free _ (by omega), upd_same]
              dsimp only
              rw [hagr free (by omega), upd_other _ cl free _ (by omega), upd_same]
              dsimp only
              rw [hagl free (by omega), hset_same]
            · refine ParOk_congr (ParOk_reparent (some free)
                ((ParOk_congr hparl (by
                  intro x hx
                  obtain ⟨hx1, hx2⟩ := hrangel x hx
                  rw [upd_other _ free x _ (by omega)])) :
                  ParOk (upd h2 free (fun n => { n with left := some cl })) none s'l)
                (Reach.rootAddr_eq hrel).symm hndl) ?_
              intro x hx
              rw [hfl3 x hx]
            · refine ParOk_reparent (some free) ?_ (Reach.rootAddr_eq hrer).symm hndr
              refine ParOk_congr hparr ?_
              intro x hx
              obtain ⟨hx1, hx2⟩ := hranger x hx
              rw [upd_other _ free x _ (by omega)]
          · refine CopyOf.node a0 free _ _ s'l s'r ?_ ?_ ?_ ?_
            · rw [upd_other _ cr free _ (by omega), upd_same]
              dsimp only
              rw [hagr free (by omega), upd_other _ cl free _ (by omega), upd_same]
              dsimp only
              rw [hagl free (by omega), hset_same]
            · rw [upd_other _ cr free _ (by omega), upd_same]
              dsimp only
              rw [hagr free (by omega), upd_other _ cl free _ (by omega), upd_same]
              dsimp only
              rw [hagl free (by omega), hset_same]
            · refine CopyOf_congr hcpl ?_ ?_
              · intro x hx
                have hxf := hlts x hx
                rw [hset_other h free x _ (by omega)]
                exact ⟨rfl, rfl⟩
              · intro x hx
                rw [hfl3 x hx]
                exact ⟨(hfl2 x hx).2.2.1, (hfl2 x hx).2.2.2⟩
            · refine CopyOf_congr hcpr ?_ ?_
              · intro x hx
                have hxf := hrts x hx
                rw [hlow2 x hxf]
                exact ⟨rfl, rfl⟩
              · intro x hx
                exact (hfr3 x hx).2
          · intro x hx
            simp only [Shape.addrs, List.mem_cons, List.mem_append] at hx
            rcases hx with rfl | hx | hx
            · constructor
              · omega
              · simp only [Shape.size]; omega
            · obtain ⟨hx1, hx2⟩ := hrangel x hx
              constructor
              · omega
              · simp only [Shape.size] at hx2 ⊢; omega
            · obtain ⟨hx1, hx2⟩ := hranger x hx
              constructor
              · omega
              · simp only [Shape.size] at hx2 ⊢; omega
          · simp only [Shape.addrs, List.nodup_cons]
            constructor
            · intro hc
              rw [List.mem_append] at hc
              rcases hc with hc | hc
              · obtain ⟨hx1, _⟩ := hrangel free hc
                omega
              · obtain ⟨hx1, _⟩ := hranger free hc
                omega
            · refine List.Nodup.append hndl hndr ?_
              intro x hx1 hx2
              obtain ⟨ha1, ha2⟩ := hrangel x hx1
              obtain ⟨hb1, hb2⟩ := hranger x hx2
              omega

end RBGo

namespace RBGo

theorem CopyOf_size {α : Type} {h h' : Heap α} :
    ∀ {s s' : Shape}, CopyOf h h' s s' → s'.size = s.size := by
  intro s
  induction s with
  | leaf => intro s' hc; cases hc; rfl
  | node a l r ihl ihr =>
    intro s' hc
    cases hc with
    | node _ b _ _ l' r' _ _ hcl hcr =>
      simp only [Shape.size, ihl hcl, ihr hcr]

theorem CopyOf_vals {α : Type} {h h' : Heap α} :
    ∀ {s s' : Shape}, CopyOf h h' s s' →
      s'.inorder.map (fun x => (h' x).Val) = s.inorder.map (fun x => (h x).Val) := by
  intro s
  induction s with
  | leaf => intro s' hc; cases hc; rfl
  | node a l r ihl ihr =>
    intro s' hc
    cases hc with
    | node _ b _ _ l' r' hv _ hcl hcr =>
      simp only [Shape.inorder, List.map_append, List.map_cons, ihl hcl, ihr hcr, hv]

theorem CopyOf_Bnd {α : Type} {c : α → α → Int} {h h' : Heap α} :
    ∀ {s s' : Shape} {lo hi : Option α}, CopyOf h h' s s' → Bnd c h lo hi s →
      Bnd c h' lo hi s' := by
  intro s
  induction s with
  | leaf => intro s' lo hi hc _; cases hc; exact Bnd.leaf _ _
  | node a l r ihl ihr =>
    intro s' lo hi hc hb
    cases hc with
    | node _ b _ _ l' r' hv _ hcl hcr =>
      cases hb with
      | node _ _ _ _ _ hlo hhi hbl hbr =>
        refine Bnd.node _ _ _ _ _ ?_ ?_ ?_ ?_
        · rw [hv]; exact hlo
        · rw [hv]; exact hhi
        · rw [hv]; exact ihl hcl hbl
        · rw [hv]; exact ihr hcr hbr

theorem CopyOf_rootIsBlack {α : Type} {h h' : Heap α} :
    ∀ {s s' : Shape}, CopyOf h h' s s' → ∀ x, s'.rootAddr = some x →
      ∃ y, s.rootAddr = some y ∧ (h' x).isBlack = (h y).isBlack := by
  intro s s' hc x hx
  cases hc with
  | leaf => cases hx
  | node a b l r l' r' _ hb _ _ =>
    cases hx
    exact ⟨a, rfl, hb⟩

theorem CopyOf_NoRR {α : Type} {h h' : Heap α} :
    ∀ {s s' : Shape}, CopyOf h h' s s' → NoRR h s → NoRR h' s' := by
  intro s
  induction s with
  | leaf => intro s' hc _; cases hc; exact NoRR.leaf
  | node a l r ihl ihr =>
    intro s' hc hn
    cases hc with
    | node _ b _ _ l' r' _ hb hcl hcr =>
      cases hn with
      | node _ _ _ hrr hnl hnr =>
        refine NoRR.node _ _ _ ?_ (ihl hcl hnl) (ihr hcr hnr)
        intro hbred
        rw [hb] at hbred
        obtain ⟨h1, h2⟩ := hrr hbred
        constructor
        · intro x hx
          obtain ⟨y, hy, hxy⟩ := CopyOf_rootIsBlack hcl x hx
          rw [hxy]
          exact h1 y hy
        · intro x hx
          obtain ⟨y, hy, hxy⟩ := CopyOf_rootIsBlack hcr x hx
          rw [hxy]
          exact h2 y hy

theorem CopyOf_BH {α : Type} {h h' : Heap α} :
    ∀ {s s' : Shape} {n : Nat}, CopyOf h h' s s' → BH h s n → BH h' s' n := by
  intro s
  induction s with
  | leaf => intro s' n hc hb; cases hc; cases hb; exact BH.leaf
  | node a l r ihl ihr =>
    intro s' n hc hb
    cases hc with
    | node _ b _ _ l' r' _ hcol hcl hcr =>
      cases hb with
      | node _ _ _ m hbl hbr =>
        rw [← hcol]
        exact BH.node _ _ _ _ (ihl hcl hbl) (ihr hcr hbr)

theorem CopyOf_EqSh {α : Type} {c : α → α → Int} {h h' : Heap α} (sto : STO c) :
    ∀ {s s' : Shape}, CopyOf h h' s s' →
      (∀ x ∈ s.addrs, h' x = h x) → EqSh c h' s' s := by
  intro s
  induction s with
  | leaf => intro s' hc _; cases hc; exact EqSh.leaf
  | node a l r ihl ihr =>
    intro s' hc hag
    cases hc with
    | node _ b _ _ l' r' hv hb hcl hcr =>
      refine EqSh.node b a l' l r' r ?_ ?_ ?_ ?_
      · rw [hv, hag a (by simp [Shape.addrs])]
        exact sto.refl _
      · rw [hb, hag a (by simp [Shape.addrs])]

      · exact ihl hcl (fun x hx => hag x (by simp [Shape.addrs]; tauto))
      · exact ihr hcr (fun x hx => hag x (by simp [Shape.addrs]; tauto))

theorem Shape.inorder_perm_addrs : ∀ s : Shape, s.inorder.Perm s.addrs := by
  intro s
  induction s with
  | leaf => exact List.Perm.refl _
  | node a l r ihl ihr =>
    simp only [Shape.inorder, Shape.addrs]
    refine (List.Perm.append ihl (List.Perm.cons a ihr)).trans ?_
    exact List.perm_middle

end RBGo

namespace RBGo

/-- C4: cloning a valid tree succeeds and yields a valid tree (its
`IsValid` returns true) with equal `Count`, equal `Min`/`Max` values,
whose `Min`/`Max` references point into the freshly allocated nodes, and
which is `EqualTo` the original. -/
theorem c4_clone_roundtrip {α : Type} {c : α → α → Int} {h : Heap α} {t : RBTree α}
    {s : Shape} (sto : STO c) (hv : SValid c h t s) (free fuel : Nat)
    (hfree : ∀ x ∈ s.addrs, x < free) (hfuel : 2 * s.size + 3 ≤ fuel) :
    ∃ h' free' t' s',
      Clone fuel h free t = .ok (h', free', t') ∧
      SValid c h' t' s' ∧
      IsValid fuel h' t' = .ok true ∧
      t'.Count = t.Count ∧
      t'.Min.map (fun x => (h' x).Val) = t.Min.map (fun x => (h x).Val) ∧
      t'.Max.map (fun x => (h' x).Val) = t.Max.map (fun x => (h x).Val) ∧
      (∀ p, t'.Min = some p → free ≤ p) ∧
      (∀ p, t'.Max = some p → free ≤ p) ∧
      EqualTo fuel h' t' (some t) = .ok true := by
  have hroot : t.root = s.rootAddr := Reach.rootAddr_eq hv.reach
  cases s with
  | leaf =>
    refine ⟨h, free, { root := none, cmp := t.cmp, Min := none, Max := none, Count := 0 },
      .leaf, ?_, ?_, ?_, ?_, ?_, ?_, ?_, ?_, ?_⟩
    · unfold Clone
      rw [hroot]
      rfl
    · exact ⟨hv.cmp_eq, Reach.leaf, ParOk.leaf _, Bnd.leaf _ _, NoRR.leaf,
        (by intro x hx; cases hx), ⟨0, BH.leaf⟩, List.nodup_nil, rfl, rfl,
        by simp [Shape.size]⟩
    · unfold IsValid
      rw [hv.cmp_eq]
      simp
    · have := hv.count_eq
      simp only [Shape.size, Nat.cast_zero] at this
      exact this.symm
    · rw [hv.min_eq]
      rfl
    · rw [hv.max_eq]
      rfl
    · intro p hp
      cases hp
    · intro p hp
      cases hp
    · unfold EqualTo
      dsimp only
      rw [show t.root = none from by rw [hroot]; rfl]
  | node a l r =>
    have hroota : t.root = some a := by rw [hroot]; rfl
    have hreach : Reach h (some a) (Shape.node a l r) := by
      have := hv.reach
      rw [hroota] at this
      exact this
    obtain ⟨h', r', s', hcl, hlow, hre', hpar', hcp', hrange', hnd'⟩ :=
      clone_ok (Shape.node a l r) h a free fuel hreach hfree (by omega)
    have hsz' : s'.size = (Shape.node a l r).size := CopyOf_size hcp'
    obtain ⟨lm, hlm_head, hlm⟩ := leftmost_head h' s' r' hre' fuel (by omega)
    obtain ⟨rm, hrm_last, hrm⟩ := rightmost_last h' s' r' hre' fuel (by omega)
    have hclone_eq : Clone fuel h free t =
        .ok (h', free + (Shape.node a l r).size,
          { root := some r', cmp := t.cmp, Min := some lm, Max := some rm,
            Count := t.Count }) := by
      unfold Clone
      simp only [hroota]
      rw [Res.bind_eq, hcl, Res.bind_ok]
      simp only [Res.bind_eq, hlm, Res.bind_ok, hrm]
    have hreach' : Reach h' (some a) (Shape.node a l r) := by
      refine Reach_congr hreach ?_
      intro x hx
      rw [hlow x (hfree x hx)]
      exact ⟨rfl, rfl⟩
    have hsv : SValid c h'
        { root := some r', cmp := t.cmp, Min := some lm, Max := some rm,
          Count := t.Count } s' := by
      refine ⟨hv.cmp_eq, hre', hpar', CopyOf_Bnd hcp' hv.bnd, CopyOf_NoRR hcp' hv.nrr,
        ?_, ?_, ?_, hlm_head.symm, hrm_last.symm, ?_⟩
      · intro x hx
        obtain ⟨y, hy, hxy⟩ := CopyOf_rootIsBlack hcp' x hx
        rw [hxy]
        exact hv.rootBlack y hy
      · obtain ⟨n, hbh⟩ := hv.bh
        exact ⟨n, CopyOf_BH hcp' hbh⟩
      · exact ((Shape.inorder_perm_addrs s').nodup_iff).2 hnd'
      · rw [hv.count_eq, hsz']
    refine ⟨h', free + (Shape.node a l r).size,
      { root := some r', cmp := t.cmp, Min := some lm, Max := some rm,
        Count := t.Count }, s', hclone_eq, hsv, ?_, rfl, ?_, ?_, ?_, ?_, ?_⟩
    · exact IsValid_complete sto hsv fuel (by omega)
    · show (some lm).map _ = _
      rw [hv.min_eq, ← hlm_head, ← List.head?_map, ← List.head?_map, CopyOf_vals hcp']
    · show (some rm).map _ = _
      rw [hv.max_eq, ← hrm_last, ← List.getLast?_map, ← List.getLast?_map,
        CopyOf_vals hcp']
    · intro p hp
      have hplm : p = lm := by cases hp; rfl
      subst hplm
      have hmem : p ∈ s'.inorder := by
        cases hio : s'.inorder with
        | nil => rw [hio] at hlm_head; cases hlm_head
        | cons z L =>
          rw [hio] at hlm_head
          simp only [List.head?_cons, Option.some_inj] at hlm_head
          rw [hlm_head]
          exact List.mem_cons_self _ _
      have := (hrange' p (((Shape.inorder_perm_addrs s').mem_iff).1 hmem)).1
      omega
    · intro p hp
      have hprm : p = rm := by cases hp; rfl
      subst hprm
      have hmem : p ∈ s'.inorder := List.mem_of_mem_getLast? hrm_last
      have := (hrange' p (((Shape.inorder_perm_addrs s').mem_iff).1 hmem)).1
      omega
    · unfold EqualTo
      dsimp only
      rw [hroota]
      dsimp only
      rw [if_neg (by simp), hv.cmp_eq]
      dsimp only
      rw [equalTo_spec c h' s' r' (Shape.node a l r) a fuel hre' hreach' (by omega)]
      rw [(eqShB_iff_EqSh c h' s' (Shape.node a l r)).2
        (CopyOf_EqSh sto hcp' (fun x hx => hlow x (hfree x hx)))]

end RBGo

namespace RBGo

theorem c4_clone_roundtrip_witness :
    ∃ h' free' t' s',
      Clone 5 c4heap 1 c4tree = .ok (h', free', t') ∧
      SValid intCmp h' t' s' ∧
      IsValid 5 h' t' = .ok true ∧
      t'.Count = c4tree.Count ∧
      t'.Min.map (fun x => (h' x).Val) = c4tree.Min.map (fun x => (c4heap x).Val) ∧
      t'.Max.map (fun x => (h' x).Val) = c4tree.Max.map (fun x => (c4heap x).Val) ∧
      (∀ p, t'.Min = some p → 1 ≤ p) ∧
      (∀ p, t'.Max = some p → 1 ≤ p) ∧
      EqualTo 5 h' t' (some c4tree) = .ok true :=
  c4_clone_roundtrip intCmp_STO
    (⟨rfl, Reach.node 0 .leaf .leaf Reach.leaf Reach.leaf,
      ParOk.node none 0 .leaf .leaf rfl (ParOk.leaf _) (ParOk.leaf _),
      Bnd.node none none 0 .leaf .leaf trivial trivial (Bnd.leaf _ _) (Bnd.leaf _ _),
      NoRR.node 0 .leaf .leaf (fun hred => absurd hred (by decide)) NoRR.leaf NoRR.leaf,
      (fun x hx => by cases hx; rfl),
      ⟨1, BH.node 0 .leaf .leaf 0 BH.leaf BH.leaf⟩,
      by decide, rfl, rfl, by decide⟩ :
      SValid intCmp c4heap c4tree (.node 0 .leaf .leaf))
    1 5 (by intro x hx; simp [Shape.addrs] at hx; omega) (by decide)

end RBGo
namespace RBGo

theorem ReachC.plug_reach {α : Type} {h : Heap α} {root : Option Nat} :
    ∀ {ctx : Ctx} {p : Option Nat} {s : Shape}, ReachC h root ctx p → Reach h p s →
      Reach h root (ctx.plug s) := by
  intro ctx
  induction ctx with
  | top => intro p s hc hr; cases hc; exact hr
  | inL a r k ih =>
    intro p s hc hr
    cases hc with
    | inL _ _ _ hk hsib =>
      exact ih hk (Reach.node a s r hr hsib)
  | inR a l k ih =>
    intro p s hc hr
    cases hc with
    | inR _ _ _ hk hsib =>
      exact ih hk (Reach.node a l s hsib hr)

theorem ParOkC.plug_par {α : Type} {h : Heap α} :
    ∀ {ctx : Ctx} {s : Shape}, ParOkC h ctx → ParOk h ctx.holeParent s →
      ParOk h none (ctx.plug s) := by
  intro ctx
  induction ctx with
  | top => intro s _ hp; exact hp
  | inL a r k ih =>
    intro s hc hp
    cases hc with
    | inL _ _ _ hk hpar hsib =>
      exact ih hk (ParOk.node _ _ _ _ hpar hp hsib)
  | inR a l k ih =>
    intro s hc hp
    cases hc with
    | inR _ _ _ hk hpar hsib =>
      exact ih hk (ParOk.node _ _ _ _ hpar hsib hp)

theorem BndC.plug_bnd {α : Type} {c : α → α → Int} {h : Heap α} :
    ∀ {ctx : Ctx} {lo hi : Option α} {s : Shape}, BndC c h ctx lo hi →
      Bnd c h lo hi s → Bnd c h none none (ctx.plug s) := by
  intro ctx
  induction ctx with
  | top => intro lo hi s hc hb; cases hc; exact hb
  | inL a r k ih =>
    intro lo hi s hc hb
    cases hc with
    | inL _ _ _ _ _ hk hlo hhi hsib =>
      exact ih hk (Bnd.node _ _ _ _ _ hlo hhi hb hsib)
  | inR a l k ih =>
    intro lo hi s hc hb
    cases hc with
    | inR _ _ _ _ _ hk hlo hhi hsib =>
      exact ih hk (Bnd.node _ _ _ _ _ hlo hhi hsib hb)

theorem BHC.plug_bh {α : Type} {h : Heap α} :
    ∀ {ctx : Ctx} {n N : Nat} {s : Shape}, BHC h ctx n N → BH h s n →
      BH h (ctx.plug s) N := by
  intro ctx
  induction ctx with
  | top => intro n N s hc hb; cases hc; exact hb
  | inL a r k ih =>
    intro n N s hc hb
    cases hc with
    | inL _ _ _ _ _ hk hsib =>
      exact ih hk (BH.node a s r n hb hsib)
  | inR a l k ih =>
    intro n N s hc hb
    cases hc with
    | inR _ _ _ _ _ hk hsib =>
      exact ih hk (BH.node a l s n hsib hb)

theorem NoRRC.plug_norr {α : Type} {h : Heap α} :
    ∀ {ctx : Ctx} {s : Shape}, NoRRC h ctx → NoRR h s →
      (ctx.needBlack h = true → ∀ x, s.rootAddr = some x → (h x).isBlack = true) →
      NoRR h (ctx.plug s) := by
  intro ctx
  induction ctx with
  | top => intro s _ hn _; exact hn
  | inL a r k ih =>
    intro s hc hn hnb
    cases hc with
    | inL _ _ _ hk hsib hred hblk =>
      refine ih hk (NoRR.node a s r ?_ hn hsib) ?_
      · intro hared
        refine ⟨hnb (by simp [Ctx.needBlack, hared]), hred hared⟩
      · intro hk_nb x hx
        cases hx
        exact hblk hk_nb
  | inR a l k ih =>
    intro s hc hn hnb
    cases hc with
    | inR _ _ _ hk hsib hred hblk =>
      refine ih hk (NoRR.node a l s ?_ hsib hn) ?_
      · intro hared
        refine ⟨hred hared, hnb (by simp [Ctx.needBlack, hared])⟩
      · intro hk_nb x hx
        cases hx
        exact hblk hk_nb

theorem Ctx.plug_inorder : ∀ (ctx : Ctx) (s : Shape),
    (ctx.plug s).inorder = ctx.wrap s.inorder := by
  intro ctx
  induction ctx with
  | top => intro s; rfl
  | inL a r k ih =>
    intro s
    simp only [Ctx.plug, Ctx.wrap, ih, Shape.inorder]
  | inR a l k ih =>
    intro s
    simp only [Ctx.plug, Ctx.wrap, ih, Shape.inorder]

theorem Ctx.plug_addrs_perm : ∀ (ctx : Ctx) (s : Shape),
    (ctx.plug s).addrs.Perm (s.addrs ++ ctx.addrs) := by
  intro ctx
  induction ctx with
  | top =>
    intro s
    simp only [Ctx.plug, Ctx.addrs, List.append_nil]
    exact List.Perm.refl _
  | inL a r k ih =>
    intro s
    simp only [Ctx.plug, Ctx.addrs]
    refine (ih (Shape.node a s r)).trans ?_
    simp only [Shape.addrs, List.cons_append, List.append_assoc]
    exact List.perm_middle.symm
  | inR a l k ih =>
    intro s
    simp only [Ctx.plug, Ctx.addrs]
    refine (ih (Shape.node a l s)).trans ?_
    simp only [Shape.addrs, List.cons_append, List.append_assoc]
    refine List.Perm.trans ?_ List.perm_middle.symm
    refine List.Perm.cons a ?_
    rw [← List.append_assoc]
    refine List.Perm.trans (List.Perm.append_right k.addrs List.perm_append_comm) ?_
    rw [List.append_assoc]

end RBGo

namespace RBGo

theorem Ctx.needBlack_congr {α : Type} {h h' : Heap α} :
    ∀ {ctx : Ctx}, (∀ x ∈ ctx.addrs, (h' x).isBlack = (h x).isBlack) →
      ctx.needBlack h' = ctx.needBlack h := by
  intro ctx
  cases ctx with
  | top => intro _; rfl
  | inL a r k =>
    intro hag
    simp only [Ctx.needBlack, hag a (by simp [Ctx.addrs])]
  | inR a l k =>
    intro hag
    simp only [Ctx.needBlack, hag a (by simp [Ctx.addrs])]

theorem ReachC_congr {α : Type} {h h' : Heap α} {root : Option Nat} :
    ∀ {ctx : Ctx} {p : Option Nat}, ReachC h root ctx p →
      (∀ x ∈ ctx.addrs, (h' x).left = (h x).left ∧ (h' x).right = (h x).right) →
      ReachC h' root ctx p := by
  intro ctx
  induction ctx with
  | top => intro p hc _; cases hc; exact ReachC.top
  | inL a r k ih =>
    intro p hc hag
    cases hc with
    | inL _ _ _ hk hsib =>
      have haa := hag a (by simp [Ctx.addrs])
      have h1 : ReachC h' root (Ctx.inL a r k) ((h' a).left) :=
        ReachC.inL a r k
          (ih hk (fun x hx => hag x (by simp [Ctx.addrs]; tauto)))
          (by rw [haa.2]
              exact Reach_congr hsib (fun x hx => hag x (by simp [Ctx.addrs]; tauto)))
      rw [haa.1] at h1
      exact h1
  | inR a l k ih =>
    intro p hc hag
    cases hc with
    | inR _ _ _ hk hsib =>
      have haa := hag a (by simp [Ctx.addrs])
      have h1 : ReachC h' root (Ctx.inR a l k) ((h' a).right) :=
        ReachC.inR a l k
          (ih hk (fun x hx => hag x (by simp [Ctx.addrs]; tauto)))
          (by rw [haa.1]
              exact Reach_congr hsib (fun x hx => hag x (by simp [Ctx.addrs]; tauto)))
      rw [haa.2] at h1
      exact h1

theorem ParOkC_congr {α : Type} {h h' : Heap α} :
    ∀ {ctx : Ctx}, ParOkC h ctx →
      (∀ x ∈ ctx.addrs, (h' x).parent = (h x).parent) → ParOkC h' ctx := by
  intro ctx
  induction ctx with
  | top => intro _ _; exact ParOkC.top
  | inL a r k ih =>
    intro hc hag
    cases hc with
    | inL _ _ _ hk hpar hsib =>
      refine ParOkC.inL a r k (ih hk (fun x hx => hag x (by simp [Ctx.addrs]; tauto))) ?_ ?_
      · rw [hag a (by simp [Ctx.addrs])]; exact hpar
      · exact ParOk_congr hsib (fun x hx => hag x (by simp [Ctx.addrs]; tauto))
  | inR a l k ih =>
    intro hc hag
    cases hc with
    | inR _ _ _ hk hpar hsib =>
      refine ParOkC.inR a l k (ih hk (fun x hx => hag x (by simp [Ctx.addrs]; tauto))) ?_ ?_
      · rw [hag a (by simp [Ctx.addrs])]; exact hpar
      · exact ParOk_congr hsib (fun x hx => hag x (by simp [Ctx.addrs]; tauto))

theorem BndC_congr {α : Type} {c : α → α → Int} {h h' : Heap α} :
    ∀ {ctx : Ctx} {lo hi : Option α}, BndC c h ctx lo hi →
      (∀ x ∈ ctx.addrs, (h' x).Val = (h x).Val) → BndC c h' ctx lo hi := by
  intro ctx
  induction ctx with
  | top => intro lo hi hc _; cases hc; exact BndC.top
  | inL a r k ih =>
    intro lo hi hc hag
    cases hc with
    | inL _ _ _ _ _ hk hlo hhi hsib =>
      have haa := hag a (by simp [Ctx.addrs])
      have h1 : BndC c h' (Ctx.inL a r k) _ (some ((h' a).Val)) :=
        BndC.inL a r k _ _
          (ih hk (fun x hx => hag x (by simp [Ctx.addrs]; tauto)))
          (by rw [haa]; exact hlo) (by rw [haa]; exact hhi)
          (by rw [haa]
              exact Bnd_congr hsib (fun x hx => hag x (by simp [Ctx.addrs]; tauto)))
      rw [haa] at h1
      exact h1
  | inR a l k ih =>
    intro lo hi hc hag
    cases hc with
    | inR _ _ _ _ _ hk hlo hhi hsib =>
      have haa := hag a (by simp [Ctx.addrs])
      have h1 : BndC c h' (Ctx.inR a l k) (some ((h' a).Val)) _ :=
        BndC.inR a l k _ _
          (ih hk (fun x hx => hag x (by simp [Ctx.addrs]; tauto)))
          (by rw [haa]; exact hlo) (by rw [haa]; exact hhi)
          (by rw [haa]
              exact Bnd_congr hsib (fun x hx => hag x (by simp [Ctx.addrs]; tauto)))
      rw [haa] at h1
      exact h1

theorem BHC_congr {α : Type} {h h' : Heap α} :
    ∀ {ctx : Ctx} {n N : Nat}, BHC h ctx n N →
      (∀ x ∈ ctx.addrs, (h' x).isBlack = (h x).isBlack) → BHC h' ctx n N := by
  intro ctx
  induction ctx with
  | top => intro n N hc _; cases hc; exact BHC.top _
  | inL a r k ih =>
    intro n N hc hag
    cases hc with
    | inL _ _ _ _ _ hk hsib =>
      refine BHC.inL a r k n N ?_ ?_
      · rw [hag a (by simp [Ctx.addrs])]
        exact ih hk (fun x hx => hag x (by simp [Ctx.addrs]; tauto))
      · exact BH_congr hsib (fun x hx => hag x (by simp [Ctx.addrs]; tauto))
  | inR a l k ih =>
    intro n N hc hag
    cases hc with
    | inR _ _ _ _ _ hk hsib =>
      refine BHC.inR a l k n N ?_ ?_
      · rw [hag a (by simp [Ctx.addrs])]
        exact ih hk (fun x hx => hag x (by simp [Ctx.addrs]; tauto))
      · exact BH_congr hsib (fun x hx => hag x (by simp [Ctx.addrs]; tauto))

theorem NoRRC_congr {α : Type} {h h' : Heap α} :
    ∀ {ctx : Ctx}, NoRRC h ctx →
      (∀ x ∈ ctx.addrs, (h' x).isBlack = (h x).isBlack) → NoRRC h' ctx := by
  intro ctx
  induction ctx with
  | top => intro _ _; exact NoRRC.top
  | inL a r k ih =>
    intro hc hag
    cases hc with
    | inL _ _ _ hk hsib hred hblk =>
      have hagk : ∀ x ∈ k.addrs, (h' x).isBlack = (h x).isBlack :=
        fun x hx => hag x (by simp [Ctx.addrs]; tauto)
      have hagr : ∀ x ∈ r.addrs, (h' x).isBlack = (h x).isBlack :=
        fun x hx => hag x (by simp [Ctx.addrs]; tauto)
      refine NoRRC.inL a r k (ih hk hagk) (NoRR_congr hsib hagr) ?_ ?_
      · intro hared x hx
        rw [hag a (by simp [Ctx.addrs])] at hared
        rw [hagr x (Shape.rootAddr_mem_addrs r x hx)]
        exact hred hared x hx
      · intro hnb
        rw [Ctx.needBlack_congr hagk] at hnb
        rw [hag a (by simp [Ctx.addrs])]
        exact hblk hnb
  | inR a l k ih =>
    intro hc hag
    cases hc with
    | inR _ _ _ hk hsib hred hblk =>
      have hagk : ∀ x ∈ k.addrs, (h' x).isBlack = (h x).isBlack :=
        fun x hx => hag x (by simp [Ctx.addrs]; tauto)
      have hagl : ∀ x ∈ l.addrs, (h' x).isBlack = (h x).isBlack :=
        fun x hx => hag x (by simp [Ctx.addrs]; tauto)
      refine NoRRC.inR a l k (ih hk hagk) (NoRR_congr hsib hagl) ?_ ?_
      · intro hared x hx
        rw [hag a (by simp [Ctx.addrs])] at hared
        rw [hagl x (Shape.rootAddr_mem_addrs l x hx)]
        exact hred hared x hx
      · intro hnb
        rw [Ctx.needBlack_congr hagk] at hnb
        rw [hag a (by simp [Ctx.addrs])]
        exact hblk hnb

end RBGo

namespace RBGo

theorem Ctx.holeParent_mem : ∀ {ctx : Ctx} {g : Nat}, ctx.holeParent = some g →
    g ∈ ctx.addrs := by
  intro ctx g hg
  cases ctx with
  | top => cases hg
  | inL a r k => cases hg; simp [Ctx.addrs]
  | inR a l k => cases hg; simp [Ctx.addrs]

theorem ReachC_inL_inv {α : Type} {h : Heap α} {root : Option Nat} {g : Nat}
    {r : Shape} {k : Ctx} {p : Option Nat} (hc : ReachC h root (.inL g r k) p) :
    p = (h g).left ∧ ReachC h root k (some g) ∧ Reach h (h g).right r := by
  cases hc with
  | inL _ _ _ hk hsib => exact ⟨rfl, hk, hsib⟩

theorem ReachC_inR_inv {α : Type} {h : Heap α} {root : Option Nat} {g : Nat}
    {l : Shape} {k : Ctx} {p : Option Nat} (hc : ReachC h root (.inR g l k) p) :
    p = (h g).right ∧ ReachC h root k (some g) ∧ Reach h (h g).left l := by
  cases hc with
  | inR _ _ _ hk hsib => exact ⟨rfl, hk, hsib⟩

/-- Reassembly of the global structure after the pointer surgery of a left
rotation at `a`: `H5` is any heap whose fields relate to the original `h`
as the rotation leaves them. -/
theorem rotAssembleL {α : Type} {h H5 : Heap α} {root root1 : Option Nat} {ctx : Ctx}
    {a rc : Nat} {sA sB sC : Shape}
    (hre : Reach h (some a) (.node a sA (.node rc sB sC)))
    (hpar : ParOk h ctx.holeParent (.node a sA (.node rc sB sC)))
    (hreC : ReachC h root ctx (some a))
    (hparC : ParOkC h ctx)
    (hndK : ctx.addrs.Nodup)
    (haK : a ∉ ctx.addrs)
    (h5rc : (H5 rc).left = some a ∧ (H5 rc).right = (h rc).right ∧
      (H5 rc).parent = ctx.holeParent)
    (h5a : (H5 a).left = (h a).left ∧ (H5 a).right = (h rc).left ∧
      (H5 a).parent = some rc)
    (hagA : ∀ x ∈ sA.addrs, H5 x = h x)
    (hagB : ∀ x ∈ sB.addrs, (H5 x).left = (h x).left ∧ (H5 x).right = (h x).right)
    (hparB : ParOk H5 (some a) sB)
    (hagC : ∀ x ∈ sC.addrs, H5 x = h x)
    (hagK : ∀ x ∈ ctx.addrs, (H5 x).parent = (h x).parent)
    (hagK2 : ∀ x ∈ ctx.addrs, (∀ g, ctx.holeParent = some g → x ≠ g) →
      (H5 x).left = (h x).left ∧ (H5 x).right = (h x).right)
    (hgfix : ∀ g, ctx.holeParent = some g →
      ((h g).left = some a → (H5 g).left = some rc ∧ (H5 g).right = (h g).right) ∧
      ((h g).left ≠ some a → (H5 g).right = some rc ∧ (H5 g).left = (h g).left))
    (hroot1 : ctx = .top → root1 = some rc)
    (hroot2 : ctx ≠ .top → root1 = root) :
    Reach H5 (some rc) (.node rc (.node a sA sB) sC) ∧
      ParOk H5 ctx.holeParent (.node rc (.node a sA sB) sC) ∧
      ReachC H5 root1 ctx (some rc) ∧
      ParOkC H5 ctx := by
  cases hre with
  | node _ _ _ hA hRsub =>
    have hrcptr : (h a).right = some rc := Reach.node_eq hRsub
    have hBC : Reach h (h rc).left sB ∧ Reach h (h rc).right sC := by
      rw [hrcptr] at hRsub
      cases hRsub with
      | node _ _ _ hB hC => exact ⟨hB, hC⟩
    obtain ⟨hB, hC⟩ := hBC
    cases hpar with
    | node _ _ _ _ hppA hparA hparRsub =>
      have hparBC : (h rc).parent = some a ∧ ParOk h (some rc) sB ∧
          ParOk h (some rc) sC := by
        cases hparRsub with
        | node _ _ _ _ hpprc hpB hpC => exact ⟨hpprc, hpB, hpC⟩
      obtain ⟨hpprc, hpB, hpC⟩ := hparBC
      refine ⟨?_, ?_, ?_, ?_⟩
      · refine Reach.node rc (.node a sA sB) sC ?_ ?_
        · rw [h5rc.1]
          refine Reach.node a sA sB ?_ ?_
          · rw [h5a.1]
            exact Reach_congr hA (fun x hx => by rw [hagA x hx]; exact ⟨rfl, rfl⟩)
          · rw [h5a.2.1]
            exact Reach_congr hB (fun x hx => hagB x hx)
        · rw [h5rc.2.1]
          exact Reach_congr hC (fun x hx => by rw [hagC x hx]; exact ⟨rfl, rfl⟩)
      · refine ParOk.node _ rc _ _ h5rc.2.2 ?_ ?_
        · refine ParOk.node _ a _ _ h5a.2.2 ?_ hparB
          exact ParOk_congr hparA (fun x hx => by rw [hagA x hx])
        · exact ParOk_congr hpC (fun x hx => by rw [hagC x hx])
      · cases ctx with
        | top =>
          rw [hroot1 rfl]
          exact ReachC.top
        | inL g r k =>
          rw [hroot2 (by intro hc; cases hc)]
          obtain ⟨hponeq, hk, hsib⟩ := ReachC_inL_inv hreC
          have hgK : g ∉ k.addrs ∧ g ∉ r.addrs ∧ (r.addrs ++ k.addrs).Nodup := by
            simp only [Ctx.addrs, List.nodup_cons, List.mem_append] at hndK
            exact ⟨fun hc => hndK.1 (Or.inr hc), fun hc => hndK.1 (Or.inl hc), hndK.2⟩
          have hfix := (hgfix g rfl).1 hponeq.symm
          have h1 : ReachC H5 root (Ctx.inL g r k) ((H5 g).left) := by
            refine ReachC.inL g r k ?_ ?_
            · refine ReachC_congr hk ?_
              intro x hx
              exact hagK2 x (by simp [Ctx.addrs]; tauto)
                (fun gg hgg => by
                  cases hgg
                  intro hc
                  subst hc
                  exact hgK.1 hx)
            · rw [hfix.2]
              refine Reach_congr hsib ?_
              intro x hx
              exact hagK2 x (by simp [Ctx.addrs]; tauto)
                (fun gg hgg => by
                  cases hgg
                  intro hc
                  subst hc
                  exact hgK.2.1 hx)
          rw [hfix.1] at h1
          exact h1
        | inR g l k =>
          rw [hroot2 (by intro hc; cases hc)]
          obtain ⟨hponeq, hk, hsib⟩ := ReachC_inR_inv hreC
          have hgK : g ∉ k.addrs ∧ g ∉ l.addrs ∧ (l.addrs ++ k.addrs).Nodup := by
            simp only [Ctx.addrs, List.nodup_cons, List.mem_append] at hndK
            exact ⟨fun hc => hndK.1 (Or.inr hc), fun hc => hndK.1 (Or.inl hc), hndK.2⟩
          have hglne : (h g).left ≠ some a := by
            intro hc
            have : a ∈ l.addrs := by
              have := Reach.rootAddr_eq hsib
              rw [hc] at this
              exact Shape.rootAddr_mem_addrs l a this.symm
            exact haK (by simp [Ctx.addrs]; tauto)
          have hfix := (hgfix g rfl).2 hglne
          have h1 : ReachC H5 root (Ctx.inR g l k) ((H5 g).right) := by
            refine ReachC.inR g l k ?_ ?_
            · refine ReachC_congr hk ?_
              intro x hx
              exact hagK2 x (by simp [Ctx.addrs]; tauto)
                (fun gg hgg => by
                  cases hgg
                  intro hc
                  subst hc
                  exact hgK.1 hx)
            · rw [hfix.2]
              refine Reach_congr hsib ?_
              intro x hx
              exact hagK2 x (by simp [Ctx.addrs]; tauto)
                (fun gg hgg => by
                  cases hgg
                  intro hc
                  subst hc
                  exact hgK.2.1 hx)
          rw [hfix.1] at h1
          exact h1
      · exact ParOkC_congr hparC hagK

end RBGo

namespace RBGo

/-- Mirror of `rotAssembleL` for a right rotation at `a`: original layout
`node a (node lc sL sM) sR`, rotated layout `node lc sL (node a sM sR)`. -/
theorem rotAssembleR {α : Type} {h H5 : Heap α} {root root1 : Option Nat} {ctx : Ctx}
    {a lc : Nat} {sL sM sR : Shape}
    (hre : Reach h (some a) (.node a (.node lc sL sM) sR))
    (hpar : ParOk h ctx.holeParent (.node a (.node lc sL sM) sR))
    (hreC : ReachC h root ctx (some a))
    (hparC : ParOkC h ctx)
    (hndK : ctx.addrs.Nodup)
    (haK : a ∉ ctx.addrs)
    (h5lc : (H5 lc).right = some a ∧ (H5 lc).left = (h lc).left ∧
      (H5 lc).parent = ctx.holeParent)
    (h5a : (H5 a).right = (h a).right ∧ (H5 a).left = (h lc).right ∧
      (H5 a).parent = some lc)
    (hagR : ∀ x ∈ sR.addrs, H5 x = h x)
    (hagM : ∀ x ∈ sM.addrs, (H5 x).left = (h x).left ∧ (H5 x).right = (h x).right)
    (hparM : ParOk H5 (some a) sM)
    (hagL : ∀ x ∈ sL.addrs, H5 x = h x)
    (hagK : ∀ x ∈ ctx.addrs, (H5 x).parent = (h x).parent)
    (hagK2 : ∀ x ∈ ctx.addrs, (∀ g, ctx.holeParent = some g → x ≠ g) →
      (H5 x).left = (h x).left ∧ (H5 x).right = (h x).right)
    (hgfix : ∀ g, ctx.holeParent = some g →
      ((h g).left = some a → (H5 g).left = some lc ∧ (H5 g).right = (h g).right) ∧
      ((h g).left ≠ some a → (H5 g).right = some lc ∧ (H5 g).left = (h g).left))
    (hroot1 : ctx = .top → root1 = some lc)
    (hroot2 : ctx ≠ .top → root1 = root) :
    Reach H5 (some lc) (.node lc sL (.node a sM sR)) ∧
      ParOk H5 ctx.holeParent (.node lc sL (.node a sM sR)) ∧
      ReachC H5 root1 ctx (some lc) ∧
      ParOkC H5 ctx := by
  cases hre with
  | node _ _ _ hLsub hR =>
    have hlcptr : (h a).left = some lc := Reach.node_eq hLsub
    have hLM : Reach h (h lc).left sL ∧ Reach h (h lc).right sM := by
      rw [hlcptr] at hLsub
      cases hLsub with
      | node _ _ _ hL hM => exact ⟨hL, hM⟩
    obtain ⟨hL, hM⟩ := hLM
    cases hpar with
    | node _ _ _ _ hppA hparLsub hparR =>
      have hparLM : (h lc).parent = some a ∧ ParOk h (some lc) sL ∧
          ParOk h (some lc) sM := by
        cases hparLsub with
        | node _ _ _ _ hpplc hpL hpM => exact ⟨hpplc, hpL, hpM⟩
      obtain ⟨hpplc, hpL, hpM⟩ := hparLM
      refine ⟨?_, ?_, ?_, ?_⟩
      · refine Reach.node lc sL (.node a sM sR) ?_ ?_
        · rw [h5lc.2.1]
          exact Reach_congr hL (fun x hx => by rw [hagL x hx]; exact ⟨rfl, rfl⟩)
        · rw [h5lc.1]
          refine Reach.node a sM sR ?_ ?_
          · rw [h5a.2.1]
            exact Reach_congr hM (fun x hx => hagM x hx)
          · rw [h5a.1]
            exact Reach_congr hR (fun x hx => by rw [hagR x hx]; exact ⟨rfl, rfl⟩)
      · refine ParOk.node _ lc _ _ h5lc.2.2 ?_ ?_
        · exact ParOk_congr hpL (fun x hx => by rw [hagL x hx])
        · refine ParOk.node _ a _ _ h5a.2.2 hparM ?_
          exact ParOk_congr hparR (fun x hx => by rw [hagR x hx])
      · cases ctx with
        | top =>
          rw [hroot1 rfl]
          exact ReachC.top
        | inL g r k =>
          rw [hroot2 (by intro hc; cases hc)]
          obtain ⟨hponeq, hk, hsib⟩ := ReachC_inL_inv hreC
          have hgK : g ∉ k.addrs ∧ g ∉ r.addrs ∧ (r.addrs ++ k.addrs).Nodup := by
            simp only [Ctx.addrs, List.nodup_cons, List.mem_append] at hndK
            exact ⟨fun hc => hndK.1 (Or.inr hc), fun hc => hndK.1 (Or.inl hc), hndK.2⟩
          have hfix := (hgfix g rfl).1 hponeq.symm
          have h1 : ReachC H5 root (Ctx.inL g r k) ((H5 g).left) := by
            refine ReachC.inL g r k ?_ ?_
            · refine ReachC_congr hk ?_
              intro x hx
              exact hagK2 x (by simp [Ctx.addrs]; tauto)
                (fun gg hgg => by
                  cases hgg
                  intro hc
                  subst hc
                  exact hgK.1 hx)
            · rw [hfix.2]
              refine Reach_congr hsib ?_
              intro x hx
              exact hagK2 x (by simp [Ctx.addrs]; tauto)
                (fun gg hgg => by
                  cases hgg
                  intro hc
                  subst hc
                  exact hgK.2.1 hx)
          rw [hfix.1] at h1
          exact h1
        | inR g l k =>
          rw [hroot2 (by intro hc; cases hc)]
          obtain ⟨hponeq, hk, hsib⟩ := ReachC_inR_inv hreC
          have hgK : g ∉ k.addrs ∧ g ∉ l.addrs ∧ (l.addrs ++ k.addrs).Nodup := by
            simp only [Ctx.addrs, List.nodup_cons, List.mem_append] at hndK
            exact ⟨fun hc => hndK.1 (Or.inr hc), fun hc => hndK.1 (Or.inl hc), hndK.2⟩
          have hglne : (h g).left ≠ some a := by
            intro hc
            have : a ∈ l.addrs := by
              have := Reach.rootAddr_eq hsib
              rw [hc] at this
              exact Shape.rootAddr_mem_addrs l a this.symm
            exact haK (by simp [Ctx.addrs]; tauto)
          have hfix := (hgfix g rfl).2 hglne
          have h1 : ReachC H5 root (Ctx.inR g l k) ((H5 g).right) := by
            refine ReachC.inR g l k ?_ ?_
            · refine ReachC_congr hk ?_
              intro x hx
              exact hagK2 x (by simp [Ctx.addrs]; tauto)
                (fun gg hgg => by
                  cases hgg
                  intro hc
                  subst hc
                  exact hgK.1 hx)
            · rw [hfix.2]
              refine Reach_congr hsib ?_
              intro x hx
              exact hagK2 x (by simp [Ctx.addrs]; tauto)
                (fun gg hgg => by
                  cases hgg
                  intro hc
                  subst hc
                  exact hgK.2.1 hx)
          rw [hfix.1] at h1
          exact h1
      · exact ParOkC_congr hparC hagK

end RBGo

namespace RBGo

theorem plug_nodup_unpack {ctx : Ctx} {S : Shape}
    (hnd : (ctx.plug S).addrs.Nodup) :
    S.addrs.Nodup ∧ ctx.addrs.Nodup ∧ ∀ x ∈ S.addrs, x ∉ ctx.addrs := by
  have h2 := ((Ctx.plug_addrs_perm ctx S).nodup_iff).1 hnd
  rw [List.nodup_append] at h2
  exact ⟨h2.1, h2.2.1, fun x hx hc => h2.2.2 hx hc⟩

theorem ReachC_root_mem {α : Type} {h : Heap α} {root : Option Nat} :
    ∀ {ctx : Ctx} {p : Option Nat}, ReachC h root ctx p → ctx ≠ .top →
      ∃ t, root = some t ∧ t ∈ ctx.addrs := by
  intro ctx
  induction ctx with
  | top => intro p _ hne; exact absurd rfl hne
  | inL a r k ih =>
    intro p hc _
    obtain ⟨_, hk, _⟩ := ReachC_inL_inv hc
    by_cases hk0 : k = .top
    · subst hk0
      cases hk
      exact ⟨a, rfl, by simp [Ctx.addrs]⟩
    · obtain ⟨t, ht, htm⟩ := ih hk hk0
      exact ⟨t, ht, by simp [Ctx.addrs]; tauto⟩
  | inR a l k ih =>
    intro p hc _
    obtain ⟨_, hk, _⟩ := ReachC_inR_inv hc
    by_cases hk0 : k = .top
    · subst hk0
      cases hk
      exact ⟨a, rfl, by simp [Ctx.addrs]⟩
    · obtain ⟨t, ht, htm⟩ := ih hk hk0
      exact ⟨t, ht, by simp [Ctx.addrs]; tauto⟩

theorem upd_vc {α : Type} (h : Heap α) (w : Nat) (f : RBNode α → RBNode α)
    (hf : ∀ n, (f n).Val = n.Val ∧ (f n).isBlack = n.isBlack) (x : Nat) :
    ((upd h w f) x).Val = (h x).Val ∧ ((upd h w f) x).isBlack = (h x).isBlack := by
  by_cases hx : x = w
  · subst hx
    rw [upd_same]
    exact hf _
  · rw [upd_other _ _ _ _ hx]
    exact ⟨rfl, rfl⟩

theorem rotShapeL_addrs_perm (a rc : Nat) (sA sB sC : Shape) :
    (Shape.node rc (Shape.node a sA sB) sC).addrs.Perm
      (Shape.node a sA (Shape.node rc sB sC)).addrs := by
  simp only [Shape.addrs, List.cons_append, List.append_assoc]
  refine List.Perm.trans (List.Perm.swap a rc _) ?_
  exact List.Perm.cons a List.perm_middle.symm

end RBGo

namespace RBGo

set_option maxHeartbeats 1000000 in
/-- Full evaluation of `rotateLeft` at the root of a reached subtree
`node a sA (node rc sB sC)` inside a context: it rewires the pointers to
`node rc (node a sA sB) sC`, repairs the context's hole pointer and the
root pointer, and touches no value or color. -/
theorem rotateLeft_ok {α : Type} {h : Heap α} {root : Option Nat} {ctx : Ctx}
    {a rc : Nat} {sA sB sC : Shape}
    (hre : Reach h (some a) (.node a sA (.node rc sB sC)))
    (hpar : ParOk h ctx.holeParent (.node a sA (.node rc sB sC)))
    (hreC : ReachC h root ctx (some a))
    (hparC : ParOkC h ctx)
    (hnd : (ctx.plug (.node a sA (.node rc sB sC))).addrs.Nodup) :
    ∃ h' root1,
      rotateLeft h root a = .ok (h', root1) ∧
      (∀ x, (h' x).Val = (h x).Val ∧ (h' x).isBlack = (h x).isBlack) ∧
      Reach h' (some rc) (.node rc (.node a sA sB) sC) ∧
      ParOk h' ctx.holeParent (.node rc (.node a sA sB) sC) ∧
      ReachC h' root1 ctx (some rc) ∧
      ParOkC h' ctx ∧
      (∀ x, x ≠ a → x ≠ rc → x ∉ sB.addrs →
        (∀ g, ctx.holeParent = some g → x ≠ g) → h' x = h x) := by
  obtain ⟨hndS, hndK, hdisj⟩ := plug_nodup_unpack hnd
  have hrcptr : (h a).right = some rc := by
    cases hre with
    | node _ _ _ hA hRsub => exact Reach.node_eq hRsub
  have hABC : Reach h (h a).left sA ∧ Reach h (h rc).left sB ∧
      Reach h (h rc).right sC := by
    cases hre with
    | node _ _ _ hA hRsub =>
      rw [hrcptr] at hRsub
      cases hRsub with
      | node _ _ _ hB hC => exact ⟨hA, hB, hC⟩
  obtain ⟨hA, hB, hC⟩ := hABC
  have hppA : (h a).parent = ctx.holeParent := by
    cases hpar with
    | node _ _ _ _ hp _ _ => exact hp
  have hpprcBC : (h rc).parent = some a ∧ ParOk h (some rc) sB ∧
      ParOk h (some rc) sC := by
    cases hpar with
    | node _ _ _ _ _ _ hparR =>
      cases hparR with
      | node _ _ _ _ hpp hpB hpC => exact ⟨hpp, hpB, hpC⟩
  obtain ⟨hpprc, hpB, hpC⟩ := hpprcBC
  -- address distinctness
  have hfacts : a ≠ rc ∧ a ∉ sA.addrs ∧ a ∉ sB.addrs ∧ a ∉ sC.addrs ∧
      rc ∉ sA.addrs ∧ rc ∉ sB.addrs ∧ rc ∉ sC.addrs ∧
      (∀ x ∈ sB.addrs, x ∉ sA.addrs ∧ x ∉ sC.addrs) := by
    simp only [Shape.addrs, List.nodup_cons, List.nodup_append, List.mem_cons,
      List.mem_append, List.disjoint_left, not_or] at hndS
    obtain ⟨⟨ha1, ha2, ha3, ha4⟩, _, ⟨⟨hrc1, hrc2⟩, _, _, hBC⟩, hA'⟩ := hndS
    refine ⟨ha2, ha1, ha3, ha4, ?_, hrc1, hrc2, ?_⟩
    · intro hc
      exact (hA' hc).1 rfl
    · intro x hx
      exact ⟨fun hc => (hA' hc).2.1 hx, hBC hx⟩
  obtain ⟨harc, haA, haB, haC, hrcA, hrcB, hrcC, hBAC⟩ := hfacts
  have haK : a ∉ ctx.addrs := hdisj a (by simp [Shape.addrs])
  have hrcK : rc ∉ ctx.addrs := hdisj rc (by simp [Shape.addrs])
  have hsBK : ∀ x ∈ sB.addrs, x ∉ ctx.addrs :=
    fun x hx => hdisj x (by simp [Shape.addrs]; tauto)
  have hrootif : (ctx = Ctx.top → (if root = some a then some rc else root) = some rc) ∧
      (ctx ≠ Ctx.top → (if root = some a then some rc else root) = root) := by
    constructor
    · intro h0
      subst h0
      cases hreC
      simp
    · intro hne
      obtain ⟨t, ht, htm⟩ := ReachC_root_mem hreC hne
      rw [ht, if_neg]
      intro hc
      rw [Option.some_inj] at hc
      subst hc
      exact haK htm
  simp only [rotateLeft]
  rw [hrcptr]
  simp only [updP, Res.bind_eq, Res.bind_ok]
  rw [show (upd (upd h rc (fun n => { n with parent := (h a).parent })) a
      (fun n => { n with parent := n.right }) a).parent = some rc from by
    rw [upd_same]
    dsimp only
    rw [upd_other _ rc a _ harc, hrcptr]]
  simp only [getP, Res.bind_ok]
  rw [show (upd (upd h rc (fun n => { n with parent := (h a).parent })) a
      (fun n => { n with parent := n.right }) rc).left = (h rc).left from by
    rw [upd_other _ a rc _ (fun hc => harc hc.symm), upd_same]]
  rw [show (upd (upd (upd h rc (fun n => { n with parent := (h a).parent })) a
      (fun n => { n with parent := n.right })) a
      (fun n => { n with right := (h rc).left }) a).right = (h rc).left from by
    rw [upd_same]]
  cases sB with
  | leaf =>
    rw [Reach.leaf_eq hB]
    dsimp only
    simp only [Res.pure_eq, Res.bind_ok]
    rw [show (upd (upd (upd h rc (fun n => { n with parent := (h a).parent })) a
        (fun n => { n with parent := n.right })) a
        (fun n => { n with right := none }) a).parent = some rc from by
      rw [upd_same]
      dsimp only
      rw [upd_same]
      dsimp only
      rw [upd_other _ rc a _ harc, hrcptr]]
    simp only [updP, Res.bind_eq, Res.bind_ok]
    rw [show (upd (upd (upd (upd h rc (fun n => { n with parent := (h a).parent })) a
        (fun n => { n with parent := n.right })) a
        (fun n => { n with right := none })) rc
        (fun n => { n with left := some a }) a).parent = some rc from by
      rw [upd_other _ rc a _ harc, upd_same]
      dsimp only
      rw [upd_same]
      dsimp only
      rw [upd_other _ rc a _ harc, hrcptr]]
    simp only [getP, Res.bind_ok]
    rw [show (upd (upd (upd (upd h rc (fun n => { n with parent := (h a).parent })) a
        (fun n => { n with parent := n.right })) a
        (fun n => { n with right := none })) rc
        (fun n => { n with left := some a }) rc).parent = ctx.holeParent from by
      rw [upd_same]
      dsimp only
      rw [upd_other _ a rc _ (fun hc => harc hc.symm),
        upd_other _ a rc _ (fun hc => harc hc.symm), upd_same]
      dsimp only
      exact hppA]
    have hf_out : ∀ x, x ≠ a → x ≠ rc →
        (upd (upd (upd (upd h rc (fun n => { n with parent := (h a).parent })) a
          (fun n => { n with parent := n.right })) a
          (fun n => { n with right := none })) rc
          (fun n => { n with left := some a })) x = h x := by
      intro x hxa hxrc
      rw [upd_other _ rc x _ hxrc, upd_other _ a x _ hxa, upd_other _ a x _ hxa,
        upd_other _ rc x _ hxrc]
    have hf_vc : ∀ x,
        ((upd (upd (upd (upd h rc (fun n => { n with parent := (h a).parent })) a
          (fun n => { n with parent := n.right })) a
          (fun n => { n with right := none })) rc
          (fun n => { n with left := some a })) x).Val = (h x).Val ∧
        ((upd (upd (upd (upd h rc (fun n => { n with parent := (h a).parent })) a
          (fun n => { n with parent := n.right })) a
          (fun n => { n with right := none })) rc
          (fun n => { n with left := some a })) x).isBlack = (h x).isBlack := by
      intro x
      constructor <;> (simp only [upd]; split_ifs <;> rfl)
    have hf_rc_left : ((upd (upd (upd (upd h rc
        (fun n => { n with parent := (h a).parent })) a
        (fun n => { n with parent := n.right })) a
        (fun n => { n with right := none })) rc
        (fun n => { n with left := some a })) rc).left = some a := by
      rw [upd_same]
    have hf_rc_right : ((upd (upd (upd (upd h rc
        (fun n => { n with parent := (h a).parent })) a
        (fun n => { n with parent := n.right })) a
        (fun n => { n with right := none })) rc
        (fun n => { n with left := some a })) rc).right = (h rc).right := by
      rw [upd_same]
      dsimp only
      rw [upd_other _ a rc _ (fun hc => harc hc.symm),
        upd_other _ a rc _ (fun hc => harc hc.symm), upd_same]
    have hf_rc_parent : ((upd (upd (upd (upd h rc
        (fun n => { n with parent := (h a).parent })) a
        (fun n => { n with parent := n.right })) a
        (fun n => { n with right := none })) rc
        (fun n => { n with left := some a })) rc).parent = ctx.holeParent := by
      rw [upd_same]
      dsimp only
      rw [upd_other _ a rc _ (fun hc => harc hc.symm),
        upd_other _ a rc _ (fun hc => harc hc.symm), upd_same]
      dsimp only
      exact hppA
    have hf_a_left : ((upd (upd (upd (upd h rc
        (fun n => { n with parent := (h a).parent })) a
        (fun n => { n with parent := n.right })) a
        (fun n => { n with right := none })) rc
        (fun n => { n with left := some a })) a).left = (h a).left := by
      rw [upd_other _ rc a _ harc, upd_same]
      dsimp only
      rw [upd_same]
      dsimp only
      rw [upd_other _ rc a _ harc]
    have hf_a_right : ((upd (upd (upd (upd h rc
        (fun n => { n with parent := (h a).parent })) a
        (fun n => { n with parent := n.right })) a
        (fun n => { n with right := none })) rc
        (fun n => { n with left := some a })) a).right = (h rc).left := by
      rw [upd_other _ rc a _ harc, upd_same, Reach.leaf_eq hB]
    have hf_a_parent : ((upd (upd (upd (upd h rc
        (fun n => { n with parent := (h a).parent })) a
        (fun n => { n with parent := n.right })) a
        (fun n => { n with right := none })) rc
        (fun n => { n with left := some a })) a).parent = some rc := by
      rw [upd_other _ rc a _ harc, upd_same]
      dsimp only
      rw [upd_same]
      dsimp only
      rw [upd_other _ rc a _ harc, hrcptr]
    have hagA : ∀ x ∈ sA.addrs,
        (upd (upd (upd (upd h rc (fun n => { n with parent := (h a).parent })) a
          (fun n => { n with parent := n.right })) a
          (fun n => { n with right := none })) rc
          (fun n => { n with left := some a })) x = h x := by
      intro x hx
      exact hf_out x (fun hc => haA (hc ▸ hx)) (fun hc => hrcA (hc ▸ hx))
    have hagC : ∀ x ∈ sC.addrs,
        (upd (upd (upd (upd h rc (fun n => { n with parent := (h a).parent })) a
          (fun n => { n with parent := n.right })) a
          (fun n => { n with right := none })) rc
          (fun n => { n with left := some a })) x = h x := by
      intro x hx
      exact hf_out x (fun hc => haC (hc ▸ hx)) (fun hc => hrcC (hc ▸ hx))
    cases ctx with
    | top =>
      dsimp only [Ctx.holeParent]
      refine ⟨_, _, rfl, hf_vc, ?_⟩
      have hasm := rotAssembleL hre hpar hreC hparC hndK haK
        ⟨hf_rc_left, hf_rc_right, hf_rc_parent⟩
        ⟨hf_a_left, hf_a_right, hf_a_parent⟩
        hagA (by intro x hx; cases hx) (ParOk.leaf _) hagC
        (by intro x hx; cases hx) (by intro x hx; cases hx)
        (by intro g hg; cases hg)
        (fun _ => hrootif.1 rfl) (fun hne => absurd rfl hne)
      exact ⟨hasm.1, hasm.2.1, hasm.2.2.1, hasm.2.2.2, by
        intro x hxa hxrc _ _
        exact hf_out x hxa hxrc⟩
    | inL g r k =>
      dsimp only [Ctx.holeParent]
      obtain ⟨hponeq, hk, hsib⟩ := ReachC_inL_inv hreC
      have hg1 : g ≠ a := by
        intro hc
        exact haK (hc ▸ (by simp [Ctx.addrs] : g ∈ (Ctx.inL g r k).addrs))
      have hg2 : g ≠ rc := by
        intro hc
        exact hrcK (hc ▸ (by simp [Ctx.addrs] : g ∈ (Ctx.inL g r k).addrs))
      rw [hf_out g hg1 hg2, if_pos hponeq.symm]
      refine ⟨_, _, rfl, ?_, ?_⟩
      · intro x
        have hvc := hf_vc x
        by_cases hxg : x = g
        · subst hxg
          rw [upd_same]
          exact hvc
        · rw [upd_other _ _ _ _ hxg]
          exact hvc
      have hrcF : (((upd (upd (upd (upd (upd h rc (fun n => { n with parent := (h a).parent })) a
          (fun n => { n with parent := n.right })) a
          (fun n => { n with right := none })) rc
          (fun n => { n with left := some a })) g
          (fun n => { n with left := some rc })) rc).left = some a ∧
          ((upd (upd (upd (upd (upd h rc (fun n => { n with parent := (h a).parent })) a
          (fun n => { n with parent := n.right })) a
          (fun n => { n with right := none })) rc
          (fun n => { n with left := some a })) g
          (fun n => { n with left := some rc })) rc).right = (h rc).right ∧
          ((upd (upd (upd (upd (upd h rc (fun n => { n with parent := (h a).parent })) a
          (fun n => { n with parent := n.right })) a
          (fun n => { n with right := none })) rc
          (fun n => { n with left := some a })) g
          (fun n => { n with left := some rc })) rc).parent = (Ctx.inL g r k).holeParent) := by
        refine ⟨?_, ?_, ?_⟩
        · rw [upd_other _ g rc _ (Ne.symm hg2)]
          exact hf_rc_left
        · rw [upd_other _ g rc _ (Ne.symm hg2)]
          exact hf_rc_right
        · rw [upd_other _ g rc _ (Ne.symm hg2)]
          exact hf_rc_parent
      have hasm := rotAssembleL hre hpar hreC hparC hndK haK hrcF
        ⟨by rw [upd_other _ g a _ (Ne.symm hg1)]; exact hf_a_left,
         by rw [upd_other _ g a _ (Ne.symm hg1)]; exact hf_a_right,
         by rw [upd_other _ g a _ (Ne.symm hg1)]; exact hf_a_parent⟩
        (by
          intro x hx
          have hxk : x ∉ (Ctx.inL g r k).addrs := hdisj x (by simp [Shape.addrs]; tauto)
          rw [upd_other _ g x _ (by intro hc; exact hxk (hc ▸ (by simp [Ctx.addrs])))]
          exact hagA x hx)
        (by intro x hx; cases hx) (ParOk.leaf _)
        (by
          intro x hx
          have hxk : x ∉ (Ctx.inL g r k).addrs := hdisj x (by simp [Shape.addrs]; tauto)
          rw [upd_other _ g x _ (by intro hc; exact hxk (hc ▸ (by simp [Ctx.addrs])))]
          exact hagC x hx)
        (by
          intro x hx
          by_cases hxg : x = g
          · subst hxg
            rw [upd_same]
            dsimp only
            rw [hf_out x hg1 hg2]
          · rw [upd_other _ g x _ hxg,
              hf_out x (fun hc => haK (hc ▸ hx)) (fun hc => hrcK (hc ▸ hx))])
        (by
          intro x hx hxg'
          have hxg : x ≠ g := hxg' g rfl
          rw [upd_other _ g x _ hxg,
            hf_out x (fun hc => haK (hc ▸ hx)) (fun hc => hrcK (hc ▸ hx))]
          exact ⟨rfl, rfl⟩)
        (by
          intro g' hg'
          dsimp only [Ctx.holeParent] at hg'
          rw [Option.some_inj] at hg'
          subst hg'
          refine ⟨fun _ => ⟨?_, ?_⟩, fun hcon => absurd hponeq.symm hcon⟩
          · rw [upd_same]
          · rw [upd_same]
            dsimp only
            rw [hf_out g hg1 hg2])
        (by intro hc; cases hc) (fun _ => hrootif.2 (by intro hc; cases hc))
      exact ⟨hasm.1, hasm.2.1, hasm.2.2.1, hasm.2.2.2, by
        intro x hxa hxrc _ hxg'
        rw [upd_other _ g x _ (hxg' g rfl)]
        exact hf_out x hxa hxrc⟩
    | inR g l k =>
      dsimp only [Ctx.holeParent]
      obtain ⟨hponeq, hk, hsib⟩ := ReachC_inR_inv hreC
      have hg1 : g ≠ a := by
        intro hc
        exact haK (hc ▸ (by simp [Ctx.addrs] : g ∈ (Ctx.inR g l k).addrs))
      have hg2 : g ≠ rc := by
        intro hc
        exact hrcK (hc ▸ (by simp [Ctx.addrs] : g ∈ (Ctx.inR g l k).addrs))
      have hglne : (h g).left ≠ some a := by
        intro hc
        have : a ∈ l.addrs := by
          have := Reach.rootAddr_eq hsib
          rw [hc] at this
          exact Shape.rootAddr_mem_addrs l a this.symm
        exact haK (by simp [Ctx.addrs]; tauto)
      rw [hf_out g hg1 hg2, if_neg hglne]
      refine ⟨_, _, rfl, ?_, ?_⟩
      · intro x
        have hvc := hf_vc x
        by_cases hxg : x = g
        · subst hxg
          rw [upd_same]
          exact hvc
        · rw [upd_other _ _ _ _ hxg]
          exact hvc
      have hrcF : (((upd (upd (upd (upd (upd h rc (fun n => { n with parent := (h a).parent })) a
          (fun n => { n with parent := n.right })) a
          (fun n => { n with right := none })) rc
          (fun n => { n with left := some a })) g
          (fun n => { n with right := some rc })) rc).left = some a ∧
          ((upd (upd (upd (upd (upd h rc (fun n => { n with parent := (h a).parent })) a
          (fun n => { n with parent := n.right })) a
          (fun n => { n with right := none })) rc
          (fun n => { n with left := some a })) g
          (fun n => { n with right := some rc })) rc).right = (h rc).right ∧
          ((upd (upd (upd (upd (upd h rc (fun n => { n with parent := (h a).parent })) a
          (fun n => { n with parent := n.right })) a
          (fun n => { n with right := none })) rc
          (fun n => { n with left := some a })) g
          (fun n => { n with right := some rc })) rc).parent = (Ctx.inR g l k).holeParent) := by
        refine ⟨?_, ?_, ?_⟩
        · rw [upd_other _ g rc _ (Ne.symm hg2)]
          exact hf_rc_left
        · rw [upd_other _ g rc _ (Ne.symm hg2)]
          exact hf_rc_right
        · rw [upd_other _ g rc _ (Ne.symm hg2)]
          exact hf_rc_parent
      have hasm := rotAssembleL hre hpar hreC hparC hndK haK hrcF
        ⟨by rw [upd_other _ g a _ (Ne.symm hg1)]; exact hf_a_left,
         by rw [upd_other _ g a _ (Ne.symm hg1)]; exact hf_a_right,
         by rw [upd_other _ g a _ (Ne.symm hg1)]; exact hf_a_parent⟩
        (by
          intro x hx
          have hxk : x ∉ (Ctx.inR g l k).addrs := hdisj x (by simp [Shape.addrs]; tauto)
          rw [upd_other _ g x _ (by intro hc; exact hxk (hc ▸ (by simp [Ctx.addrs])))]
          exact hagA x hx)
        (by intro x hx; cases hx) (ParOk.leaf _)
        (by
          intro x hx
          have hxk : x ∉ (Ctx.inR g l k).addrs := hdisj x (by simp [Shape.addrs]; tauto)
          rw [upd_other _ g x _ (by intro hc; exact hxk (hc ▸ (by simp [Ctx.addrs])))]
          exact hagC x hx)
        (by
          intro x hx
          by_cases hxg : x = g
          · subst hxg
            rw [upd_same]
            dsimp only
            rw [hf_out x hg1 hg2]
          · rw [upd_other _ g x _ hxg,
              hf_out x (fun hc => haK (hc ▸ hx)) (fun hc => hrcK (hc ▸ hx))])
        (by
          intro x hx hxg'
          have hxg : x ≠ g := hxg' g rfl
          rw [upd_other _ g x _ hxg,
            hf_out x (fun hc => haK (hc ▸ hx)) (fun hc => hrcK (hc ▸ hx))]
          exact ⟨rfl, rfl⟩)
        (by
          intro g' hg'
          dsimp only [Ctx.holeParent] at hg'
          rw [Option.some_inj] at hg'
          subst hg'
          refine ⟨fun hcon => absurd hcon hglne, fun _ => ⟨?_, ?_⟩⟩
          · rw [upd_same]
          · rw [upd_same]
            dsimp only
            rw [hf_out g hg1 hg2])
        (by intro hc; cases hc) (fun _ => hrootif.2 (by intro hc; cases hc))
      exact ⟨hasm.1, hasm.2.1, hasm.2.2.1, hasm.2.2.2, by
        intro x hxa hxrc _ hxg'
        rw [upd_other _ g x _ (hxg' g rfl)]
        exact hf_out x hxa hxrc⟩
  | node bb bL bR =>
    have hbbB : bb ∈ (Shape.node bb bL bR).addrs := by simp [Shape.addrs]
    have habb : a ≠ bb := fun hc => haB (hc ▸ hbbB)
    have hrcbb : rc ≠ bb := fun hc => hrcB (hc ▸ hbbB)
    have hndB : (Shape.node bb bL bR).addrs.Nodup := by
      simp only [Shape.addrs, List.nodup_cons, List.nodup_append] at hndS
      simp only [Shape.addrs, List.nodup_cons, List.nodup_append]
      tauto
    rw [Reach.node_eq hB]
    dsimp only
    simp only [Res.pure_eq, Res.bind_ok]
    rw [show (upd (upd (upd (upd h rc (fun n => { n with parent := (h a).parent })) a
        (fun n => { n with parent := n.right })) a
        (fun n => { n with right := some bb })) bb
        (fun n => { n with parent := some a }) a).parent = some rc from by
      rw [upd_other _ bb a _ habb, upd_same]
      dsimp only
      rw [upd_same]
      dsimp only
      rw [upd_other _ rc a _ harc, hrcptr]]
    simp only [updP, Res.bind_eq, Res.bind_ok]
    rw [show ((upd (upd (upd (upd (upd h rc (fun n => { n with parent := (h a).parent })) a
        (fun n => { n with parent := n.right })) a
        (fun n => { n with right := some bb })) bb
        (fun n => { n with parent := some a })) rc
        (fun n => { n with left := some a })) a).parent = some rc from by
      rw [upd_other _ rc a _ harc, upd_other _ bb a _ habb, upd_same]
      dsimp only
      rw [upd_same]
      dsimp only
      rw [upd_other _ rc a _ harc, hrcptr]]
    simp only [getP, Res.bind_ok]
    rw [show ((upd (upd (upd (upd (upd h rc (fun n => { n with parent := (h a).parent })) a
        (fun n => { n with parent := n.right })) a
        (fun n => { n with right := some bb })) bb
        (fun n => { n with parent := some a })) rc
        (fun n => { n with left := some a })) rc).parent = ctx.holeParent from by
      rw [upd_same]
      dsimp only
      rw [upd_other _ bb rc _ hrcbb, upd_other _ a rc _ (fun hc => harc hc.symm),
        upd_other _ a rc _ (fun hc => harc hc.symm), upd_same]
      dsimp only
      exact hppA]
    have hf_out : ∀ x, x ≠ a → x ≠ rc → x ∉ (Shape.node bb bL bR).addrs →
        (upd (upd (upd (upd (upd h rc (fun n => { n with parent := (h a).parent })) a
        (fun n => { n with parent := n.right })) a
        (fun n => { n with right := some bb })) bb
        (fun n => { n with parent := some a })) rc
        (fun n => { n with left := some a })) x = h x := by
      intro x hxa hxrc hxB
      have hxbb : x ≠ bb := fun hc => hxB (hc ▸ hbbB)
      rw [upd_other _ rc x _ hxrc, upd_other _ bb x _ hxbb, upd_other _ a x _ hxa,
        upd_other _ a x _ hxa, upd_other _ rc x _ hxrc]
    have hf_vc : ∀ x, (((upd (upd (upd (upd (upd h rc (fun n => { n with parent := (h a).parent })) a
        (fun n => { n with parent := n.right })) a
        (fun n => { n with right := some bb })) bb
        (fun n => { n with parent := some a })) rc
        (fun n => { n with left := some a }))) x).Val = (h x).Val ∧
        (((upd (upd (upd (upd (upd h rc (fun n => { n with parent := (h a).parent })) a
        (fun n => { n with parent := n.right })) a
        (fun n => { n with right := some bb })) bb
        (fun n => { n with parent := some a })) rc
        (fun n => { n with left := some a }))) x).isBlack = (h x).isBlack := by
      intro x
      constructor <;> (simp only [upd]; split_ifs <;> rfl)
    have hf_rc_left : (((upd (upd (upd (upd (upd h rc (fun n => { n with parent := (h a).parent })) a
        (fun n => { n with parent := n.right })) a
        (fun n => { n with right := some bb })) bb
        (fun n => { n with parent := some a })) rc
        (fun n => { n with left := some a }))) rc).left = some a := by
      rw [upd_same]
    have hf_rc_right : (((upd (upd (upd (upd (upd h rc (fun n => { n with parent := (h a).parent })) a
        (fun n => { n with parent := n.right })) a
        (fun n => { n with right := some bb })) bb
        (fun n => { n with parent := some a })) rc
        (fun n => { n with left := some a }))) rc).right = (h rc).right := by
      rw [upd_same]
      dsimp only
      rw [upd_other _ bb rc _ hrcbb, upd_other _ a rc _ (fun hc => harc hc.symm),
        upd_other _ a rc _ (fun hc => harc hc.symm), upd_same]
    have hf_rc_parent : (((upd (upd (upd (upd (upd h rc (fun n => { n with parent := (h a).parent })) a
        (fun n => { n with parent := n.right })) a
        (fun n => { n with right := some bb })) bb
        (fun n => { n with parent := some a })) rc
        (fun n => { n with left := some a }))) rc).parent = ctx.holeParent := by
      rw [upd_same]
      dsimp only
      rw [upd_other _ bb rc _ hrcbb, upd_other _ a rc _ (fun hc => harc hc.symm),
        upd_other _ a rc _ (fun hc => harc hc.symm), upd_same]
      dsimp only
      exact hppA
    have hf_a_left : (((upd (upd (upd (upd (upd h rc (fun n => { n with parent := (h a).parent })) a
        (fun n => { n with parent := n.right })) a
        (fun n => { n with right := some bb })) bb
        (fun n => { n with parent := some a })) rc
        (fun n => { n with left := some a }))) a).left = (h a).left := by
      rw [upd_other _ rc a _ harc, upd_other _ bb a _ habb, upd_same]
      dsimp only
      rw [upd_same]
      dsimp only
      rw [upd_other _ rc a _ harc]
    have hf_a_right : (((upd (upd (upd (upd (upd h rc (fun n => { n with parent := (h a).parent })) a
        (fun n => { n with parent := n.right })) a
        (fun n => { n with right := some bb })) bb
        (fun n => { n with parent := some a })) rc
        (fun n => { n with left := some a }))) a).right = (h rc).left := by
      rw [upd_other _ rc a _ harc, upd_other _ bb a _ habb, upd_same, Reach.node_eq hB]
    have hf_a_parent : (((upd (upd (upd (upd (upd h rc (fun n => { n with parent := (h a).parent })) a
        (fun n => { n with parent := n.right })) a
        (fun n => { n with right := some bb })) bb
        (fun n => { n with parent := some a })) rc
        (fun n => { n with left := some a }))) a).parent = some rc := by
      rw [upd_other _ rc a _ harc, upd_other _ bb a _ habb, upd_same]
      dsimp only
      rw [upd_same]
      dsimp only
      rw [upd_other _ rc a _ harc, hrcptr]
    have hagA : ∀ x ∈ sA.addrs, ((upd (upd (upd (upd (upd h rc (fun n => { n with parent := (h a).parent })) a
        (fun n => { n with parent := n.right })) a
        (fun n => { n with right := some bb })) bb
        (fun n => { n with parent := some a })) rc
        (fun n => { n with left := some a }))) x = h x := by
      intro x hx
      exact hf_out x (fun hc => haA (hc ▸ hx)) (fun hc => hrcA (hc ▸ hx))
        (fun hc => (hBAC x hc).1 hx)
    have hagC : ∀ x ∈ sC.addrs, ((upd (upd (upd (upd (upd h rc (fun n => { n with parent := (h a).parent })) a
        (fun n => { n with parent := n.right })) a
        (fun n => { n with right := some bb })) bb
        (fun n => { n with parent := some a })) rc
        (fun n => { n with left := some a }))) x = h x := by
      intro x hx
      exact hf_out x (fun hc => haC (hc ▸ hx)) (fun hc => hrcC (hc ▸ hx))
        (fun hc => (hBAC x hc).2 hx)
    have hagB : ∀ x ∈ (Shape.node bb bL bR).addrs,
        (((upd (upd (upd (upd (upd h rc (fun n => { n with parent := (h a).parent })) a
        (fun n => { n with parent := n.right })) a
        (fun n => { n with right := some bb })) bb
        (fun n => { n with parent := some a })) rc
        (fun n => { n with left := some a }))) x).left = (h x).left ∧ (((upd (upd (upd (upd (upd h rc (fun n => { n with parent := (h a).parent })) a
        (fun n => { n with parent := n.right })) a
        (fun n => { n with right := some bb })) bb
        (fun n => { n with parent := some a })) rc
        (fun n => { n with left := some a }))) x).right = (h x).right := by
      intro x hx
      have hxa : x ≠ a := fun hc => haB (hc ▸ hx)
      have hxrc : x ≠ rc := fun hc => hrcB (hc ▸ hx)
      by_cases hxbb : x = bb
      · subst hxbb
        rw [upd_other _ rc x _ hxrc, upd_same]
        dsimp only
        rw [upd_other _ a x _ hxa, upd_other _ a x _ hxa, upd_other _ rc x _ hxrc]
        exact ⟨rfl, rfl⟩
      · rw [upd_other _ rc x _ hxrc, upd_other _ bb x _ hxbb, upd_other _ a x _ hxa,
          upd_other _ a x _ hxa, upd_other _ rc x _ hxrc]
        exact ⟨rfl, rfl⟩
    have hparB : ParOk ((upd (upd (upd (upd (upd h rc (fun n => { n with parent := (h a).parent })) a
        (fun n => { n with parent := n.right })) a
        (fun n => { n with right := some bb })) bb
        (fun n => { n with parent := some a })) rc
        (fun n => { n with left := some a }))) (some a) (Shape.node bb bL bR) := by
      have hpBLR : ParOk h (some bb) bL ∧ ParOk h (some bb) bR := by
        cases hpB with
        | node _ _ _ _ _ hL hR => exact ⟨hL, hR⟩
      have hsub : ∀ x ∈ bL.addrs ++ bR.addrs, ((upd (upd (upd (upd (upd h rc (fun n => { n with parent := (h a).parent })) a
        (fun n => { n with parent := n.right })) a
        (fun n => { n with right := some bb })) bb
        (fun n => { n with parent := some a })) rc
        (fun n => { n with left := some a }))) x = h x := by
        intro x hx
        have hxB : x ∈ (Shape.node bb bL bR).addrs := by
          simp only [Shape.addrs, List.mem_cons, List.mem_append] at hx ⊢
          tauto
        have hxbb : x ≠ bb := by
          intro hc
          subst hc
          simp only [Shape.addrs, List.nodup_cons, List.mem_append] at hndB
          rw [List.mem_append] at hx
          exact hndB.1 hx
        have hxa : x ≠ a := fun hc => haB (hc ▸ hxB)
        have hxrc : x ≠ rc := fun hc => hrcB (hc ▸ hxB)
        rw [upd_other _ rc x _ hxrc, upd_other _ bb x _ hxbb, upd_other _ a x _ hxa,
          upd_other _ a x _ hxa, upd_other _ rc x _ hxrc]
      refine ParOk.node _ bb _ _ ?_ ?_ ?_
      · rw [upd_other _ rc bb _ (fun hc => hrcbb hc.symm), upd_same]
      · refine ParOk_congr hpBLR.1 ?_
        intro x hx
        rw [hsub x (by rw [List.mem_append]; exact Or.inl hx)]
      · refine ParOk_congr hpBLR.2 ?_
        intro x hx
        rw [hsub x (by rw [List.mem_append]; exact Or.inr hx)]
    cases ctx with
    | top =>
      dsimp only [Ctx.holeParent]
      refine ⟨_, _, rfl, hf_vc, ?_⟩
      have hasm := rotAssembleL hre hpar hreC hparC hndK haK
        ⟨hf_rc_left, hf_rc_right, hf_rc_parent⟩
        ⟨hf_a_left, hf_a_right, hf_a_parent⟩
        hagA hagB hparB hagC
        (by intro x hx; cases hx) (by intro x hx; cases hx)
        (by intro g hg; cases hg)
        (fun _ => hrootif.1 rfl) (fun hne => absurd rfl hne)
      exact ⟨hasm.1, hasm.2.1, hasm.2.2.1, hasm.2.2.2, by
        intro x hxa hxrc hxB _
        exact hf_out x hxa hxrc hxB⟩
    | inL g r k =>
      dsimp only [Ctx.holeParent]
      obtain ⟨hponeq, hk, hsib⟩ := ReachC_inL_inv hreC
      have hg1 : g ≠ a := by
        intro hc
        exact haK (hc ▸ (by simp [Ctx.addrs] : g ∈ (Ctx.inL g r k).addrs))
      have hg2 : g ≠ rc := by
        intro hc
        exact hrcK (hc ▸ (by simp [Ctx.addrs] : g ∈ (Ctx.inL g r k).addrs))
      have hgB : g ∉ (Shape.node bb bL bR).addrs := by
        intro hc
        exact hsBK g hc (by simp [Ctx.addrs])
      rw [hf_out g hg1 hg2 hgB, if_pos hponeq.symm]
      refine ⟨_, _, rfl, ?_, ?_⟩
      · intro x
        have hvc := hf_vc x
        by_cases hxg : x = g
        · subst hxg
          rw [upd_same]
          exact hvc
        · rw [upd_other _ _ _ _ hxg]
          exact hvc
      have hrcF : (((upd ((upd (upd (upd (upd (upd h rc (fun n => { n with parent := (h a).parent })) a
        (fun n => { n with parent := n.right })) a
        (fun n => { n with right := some bb })) bb
        (fun n => { n with parent := some a })) rc
        (fun n => { n with left := some a }))) g (fun n => { n with left := some rc })) rc).left = some a ∧
          ((upd ((upd (upd (upd (upd (upd h rc (fun n => { n with parent := (h a).parent })) a
        (fun n => { n with parent := n.right })) a
        (fun n => { n with right := some bb })) bb
        (fun n => { n with parent := some a })) rc
        (fun n => { n with left := some a }))) g (fun n => { n with left := some rc })) rc).right = (h rc).right ∧
          ((upd ((upd (upd (upd (upd (upd h rc (fun n => { n with parent := (h a).parent })) a
        (fun n => { n with parent := n.right })) a
        (fun n => { n with right := some bb })) bb
        (fun n => { n with parent := some a })) rc
        (fun n => { n with left := some a }))) g (fun n => { n with left := some rc })) rc).parent =
            (Ctx.inL g r k).holeParent) := by
        refine ⟨?_, ?_, ?_⟩
        · rw [upd_other _ g rc _ (Ne.symm hg2)]
          exact hf_rc_left
        · rw [upd_other _ g rc _ (Ne.symm hg2)]
          exact hf_rc_right
        · rw [upd_other _ g rc _ (Ne.symm hg2)]
          exact hf_rc_parent
      have hasm := rotAssembleL hre hpar hreC hparC hndK haK hrcF
        ⟨by rw [upd_other _ g a _ (Ne.symm hg1)]; exact hf_a_left,
         by rw [upd_other _ g a _ (Ne.symm hg1)]; exact hf_a_right,
         by rw [upd_other _ g a _ (Ne.symm hg1)]; exact hf_a_parent⟩
        (by
          intro x hx
          have hxk : x ∉ (Ctx.inL g r k).addrs := hdisj x (by simp [Shape.addrs]; tauto)
          rw [upd_other _ g x _ (by intro hc; exact hxk (hc ▸ (by simp [Ctx.addrs])))]
          exact hagA x hx)
        (by
          intro x hx
          rw [upd_other _ g x _
            (by intro hc; exact hsBK x hx (hc ▸ (by simp [Ctx.addrs])))]
          exact hagB x hx)
        (by
          refine ParOk_congr hparB ?_
          intro x hx
          rw [upd_other _ g x _
            (by intro hc; exact hsBK x hx (hc ▸ (by simp [Ctx.addrs])))])
        (by
          intro x hx
          have hxk : x ∉ (Ctx.inL g r k).addrs := hdisj x (by simp [Shape.addrs]; tauto)
          rw [upd_other _ g x _ (by intro hc; exact hxk (hc ▸ (by simp [Ctx.addrs])))]
          exact hagC x hx)
        (by
          intro x hx
          by_cases hxg : x = g
          · subst hxg
            rw [upd_same]
            dsimp only
            rw [hf_out x hg1 hg2 hgB]
          · rw [upd_other _ g x _ hxg,
              hf_out x (fun hc => haK (hc ▸ hx)) (fun hc => hrcK (hc ▸ hx))
                (fun hc => hsBK x hc hx)])
        (by
          intro x hx hxg'
          have hxg : x ≠ g := hxg' g rfl
          rw [upd_other _ g x _ hxg,
            hf_out x (fun hc => haK (hc ▸ hx)) (fun hc => hrcK (hc ▸ hx))
              (fun hc => hsBK x hc hx)]
          exact ⟨rfl, rfl⟩)
        (by
          intro g' hg'
          dsimp only [Ctx.holeParent] at hg'
          rw [Option.some_inj] at hg'
          subst hg'
          refine ⟨fun _ => ⟨?_, ?_⟩, fun hcon => absurd hponeq.symm hcon⟩
          · rw [upd_same]
          · rw [upd_same]
            dsimp only
            rw [hf_out g hg1 hg2 hgB])
        (by intro hc; cases hc) (fun _ => hrootif.2 (by intro hc; cases hc))
      exact ⟨hasm.1, hasm.2.1, hasm.2.2.1, hasm.2.2.2, by
        intro x hxa hxrc hxB hxg'
        rw [upd_other _ g x _ (hxg' g rfl)]
        exact hf_out x hxa hxrc hxB⟩
    | inR g l k =>
      dsimp only [Ctx.holeParent]
      obtain ⟨hponeq, hk, hsib⟩ := ReachC_inR_inv hreC
      have hg1 : g ≠ a := by
        intro hc
        exact haK (hc ▸ (by simp [Ctx.addrs] : g ∈ (Ctx.inR g l k).addrs))
      have hg2 : g ≠ rc := by
        intro hc
        exact hrcK (hc ▸ (by simp [Ctx.addrs] : g ∈ (Ctx.inR g l k).addrs))
      have hgB : g ∉ (Shape.node bb bL bR).addrs := by
        intro hc
        exact hsBK g hc (by simp [Ctx.addrs])
      have hglne : (h g).left ≠ some a := by
        intro hc
        have : a ∈ l.addrs := by
          have := Reach.rootAddr_eq hsib
          rw [hc] at this
          exact Shape.rootAddr_mem_addrs l a this.symm
        exact haK (by simp [Ctx.addrs]; tauto)
      rw [hf_out g hg1 hg2 hgB, if_neg hglne]
      refine ⟨_, _, rfl, ?_, ?_⟩
      · intro x
        have hvc := hf_vc x
        by_cases hxg : x = g
        · subst hxg
          rw [upd_same]
          exact hvc
        · rw [upd_other _ _ _ _ hxg]
          exact hvc
      have hrcF : (((upd ((upd (upd (upd (upd (upd h rc (fun n => { n with parent := (h a).parent })) a
        (fun n => { n with parent := n.right })) a
        (fun n => { n with right := some bb })) bb
        (fun n => { n with parent := some a })) rc
        (fun n => { n with left := some a }))) g (fun n => { n with right := some rc })) rc).left = some a ∧
          ((upd ((upd (upd (upd (upd (upd h rc (fun n => { n with parent := (h a).parent })) a
        (fun n => { n with parent := n.right })) a
        (fun n => { n with right := some bb })) bb
        (fun n => { n with parent := some a })) rc
        (fun n => { n with left := some a }))) g (fun n => { n with right := some rc })) rc).right = (h rc).right ∧
          ((upd ((upd (upd (upd (upd (upd h rc (fun n => { n with parent := (h a).parent })) a
        (fun n => { n with parent := n.right })) a
        (fun n => { n with right := some bb })) bb
        (fun n => { n with parent := some a })) rc
        (fun n => { n with left := some a }))) g (fun n => { n with right := some rc })) rc).parent =
            (Ctx.inR g l k).holeParent) := by
        refine ⟨?_, ?_, ?_⟩
        · rw [upd_other _ g rc _ (Ne.symm hg2)]
          exact hf_rc_left
        · rw [upd_other _ g rc _ (Ne.symm hg2)]
          exact hf_rc_right
        · rw [upd_other _ g rc _ (Ne.symm hg2)]
          exact hf_rc_parent
      have hasm := rotAssembleL hre hpar hreC hparC hndK haK hrcF
        ⟨by rw [upd_other _ g a _ (Ne.symm hg1)]; exact hf_a_left,
         by rw [upd_other _ g a _ (Ne.symm hg1)]; exact hf_a_right,
         by rw [upd_other _ g a _ (Ne.symm hg1)]; exact hf_a_parent⟩
        (by
          intro x hx
          have hxk : x ∉ (Ctx.inR g l k).addrs := hdisj x (by simp [Shape.addrs]; tauto)
          rw [upd_other _ g x _ (by intro hc; exact hxk (hc ▸ (by simp [Ctx.addrs])))]
          exact hagA x hx)
        (by
          intro x hx
          rw [upd_other _ g x _
            (by intro hc; exact hsBK x hx (hc ▸ (by simp [Ctx.addrs])))]
          exact hagB x hx)
        (by
          refine ParOk_congr hparB ?_
          intro x hx
          rw [upd_other _ g x _
            (by intro hc; exact hsBK x hx (hc ▸ (by simp [Ctx.addrs])))])
        (by
          intro x hx
          have hxk : x ∉ (Ctx.inR g l k).addrs := hdisj x (by simp [Shape.addrs]; tauto)
          rw [upd_other _ g x _ (by intro hc; exact hxk (hc ▸ (by simp [Ctx.addrs])))]
          exact hagC x hx)
        (by
          intro x hx
          by_cases hxg : x = g
          · subst hxg
            rw [upd_same]
            dsimp only
            rw [hf_out x hg1 hg2 hgB]
          · rw [upd_other _ g x _ hxg,
              hf_out x (fun hc => haK (hc ▸ hx)) (fun hc => hrcK (hc ▸ hx))
                (fun hc => hsBK x hc hx)])
        (by
          intro x hx hxg'
          have hxg : x ≠ g := hxg' g rfl
          rw [upd_other _ g x _ hxg,
            hf_out x (fun hc => haK (hc ▸ hx)) (fun hc => hrcK (hc ▸ hx))
              (fun hc => hsBK x hc hx)]
          exact ⟨rfl, rfl⟩)
        (by
          intro g' hg'
          dsimp only [Ctx.holeParent] at hg'
          rw [Option.some_inj] at hg'
          subst hg'
          refine ⟨fun hcon => absurd hcon hglne, fun _ => ⟨?_, ?_⟩⟩
          · rw [upd_same]
          · rw [upd_same]
            dsimp only
            rw [hf_out g hg1 hg2 hgB])
        (by intro hc; cases hc) (fun _ => hrootif.2 (by intro hc; cases hc))
      exact ⟨hasm.1, hasm.2.1, hasm.2.2.1, hasm.2.2.2, by
        intro x hxa hxrc hxB hxg'
        rw [upd_other _ g x _ (hxg' g rfl)]
        exact hf_out x hxa hxrc hxB⟩

end RBGo
namespace RBGo

set_option maxHeartbeats 1000000 in
/-- Mirror of `rotateLeft_ok`: full evaluation of `rotateRight` at the
root of a reached subtree `node a (node lc sL sM) sR` inside a context. -/
theorem rotateRight_ok {α : Type} {h : Heap α} {root : Option Nat} {ctx : Ctx}
    {a lc : Nat} {sL sM sR : Shape}
    (hre : Reach h (some a) (.node a (.node lc sL sM) sR))
    (hpar : ParOk h ctx.holeParent (.node a (.node lc sL sM) sR))
    (hreC : ReachC h root ctx (some a))
    (hparC : ParOkC h ctx)
    (hnd : (ctx.plug (.node a (.node lc sL sM) sR)).addrs.Nodup) :
    ∃ h' root1,
      rotateRight h root a = .ok (h', root1) ∧
      (∀ x, (h' x).Val = (h x).Val ∧ (h' x).isBlack = (h x).isBlack) ∧
      Reach h' (some lc) (.node lc sL (.node a sM sR)) ∧
      ParOk h' ctx.holeParent (.node lc sL (.node a sM sR)) ∧
      ReachC h' root1 ctx (some lc) ∧
      ParOkC h' ctx ∧
      (∀ x, x ≠ a → x ≠ lc → x ∉ sM.addrs →
        (∀ g, ctx.holeParent = some g → x ≠ g) → h' x = h x) := by
  obtain ⟨hndS, hndK, hdisj⟩ := plug_nodup_unpack hnd
  have hlcptr : (h a).left = some lc := by
    cases hre with
    | node _ _ _ hLsub _ => exact Reach.node_eq hLsub
  have hABC : Reach h (h lc).left sL ∧ Reach h (h lc).right sM ∧
      Reach h (h a).right sR := by
    cases hre with
    | node _ _ _ hLsub hRv =>
      rw [hlcptr] at hLsub
      cases hLsub with
      | node _ _ _ hLv hMv => exact ⟨hLv, hMv, hRv⟩
  obtain ⟨hL, hM, hR⟩ := hABC
  have hppA : (h a).parent = ctx.holeParent := by
    cases hpar with
    | node _ _ _ _ hp _ _ => exact hp
  have hpplcLM : (h lc).parent = some a ∧ ParOk h (some lc) sL ∧
      ParOk h (some lc) sM := by
    cases hpar with
    | node _ _ _ _ _ hparL _ =>
      cases hparL with
      | node _ _ _ _ hpp hpLv hpMv => exact ⟨hpp, hpLv, hpMv⟩
  obtain ⟨hpplc, hpL, hpM⟩ := hpplcLM
  have hfacts : a ≠ lc ∧ a ∉ sR.addrs ∧ a ∉ sM.addrs ∧ a ∉ sL.addrs ∧
      lc ∉ sR.addrs ∧ lc ∉ sM.addrs ∧ lc ∉ sL.addrs ∧
      (∀ x ∈ sM.addrs, x ∉ sR.addrs ∧ x ∉ sL.addrs) := by
    simp only [Shape.addrs, List.nodup_cons, List.nodup_append, List.mem_cons,
      List.mem_append, List.disjoint_left, not_or] at hndS
    obtain ⟨⟨⟨h1, h2, h3⟩, h4⟩, ⟨⟨h5, h6⟩, _, _, hLM⟩, _, hRd⟩ := hndS
    refine ⟨h1, h4, h3, h2, hRd (Or.inl rfl), h6, h5, ?_⟩
    intro x hx
    exact ⟨hRd (Or.inr (Or.inr hx)), fun hc => hLM hc hx⟩
  obtain ⟨halc, haRv, haMv, haLv, hlcRv, hlcMv, hlcLv, hMLRv⟩ := hfacts
  have haK : a ∉ ctx.addrs := hdisj a (by simp [Shape.addrs])
  have hlcK : lc ∉ ctx.addrs := hdisj lc (by simp [Shape.addrs])
  have hsMK : ∀ x ∈ sM.addrs, x ∉ ctx.addrs :=
    fun x hx => hdisj x (by simp [Shape.addrs]; tauto)
  have hrootif : (ctx = Ctx.top → (if root = some a then some lc else root) = some lc) ∧
      (ctx ≠ Ctx.top → (if root = some a then some lc else root) = root) := by
    constructor
    · intro h0
      subst h0
      cases hreC
      simp
    · intro hne
      obtain ⟨t, ht, htm⟩ := ReachC_root_mem hreC hne
      rw [ht, if_neg]
      intro hc
      rw [Option.some_inj] at hc
      subst hc
      exact haK htm
  simp only [rotateRight]
  rw [hlcptr]
  simp only [updP, Res.bind_eq, Res.bind_ok]
  rw [show (upd (upd h lc (fun n => { n with parent := (h a).parent })) a
      (fun n => { n with parent := n.left }) a).parent = some lc from by
    rw [upd_same]
    dsimp only
    rw [upd_other _ lc a _ halc, hlcptr]]
  simp only [getP, Res.bind_ok]
  rw [show (upd (upd h lc (fun n => { n with parent := (h a).parent })) a
      (fun n => { n with parent := n.left }) lc).right = (h lc).right from by
    rw [upd_other _ a lc _ (fun hc => halc hc.symm), upd_same]]
  rw [show (upd (upd (upd h lc (fun n => { n with parent := (h a).parent })) a
      (fun n => { n with parent := n.left })) a
      (fun n => { n with left := (h lc).right }) a).left = (h lc).right from by
    rw [upd_same]]
  cases sM with
  | leaf =>
    rw [Reach.leaf_eq hM]
    dsimp only
    simp only [Res.pure_eq, Res.bind_ok]
    rw [show (upd (upd (upd h lc (fun n => { n with parent := (h a).parent })) a
        (fun n => { n with parent := n.left })) a
        (fun n => { n with left := none }) a).parent = some lc from by
      rw [upd_same]
      dsimp only
      rw [upd_same]
      dsimp only
      rw [upd_other _ lc a _ halc, hlcptr]]
    simp only [updP, Res.bind_eq, Res.bind_ok]
    rw [show (upd (upd (upd (upd h lc (fun n => { n with parent := (h a).parent })) a
        (fun n => { n with parent := n.left })) a
        (fun n => { n with left := none })) lc
        (fun n => { n with right := some a }) a).parent = some lc from by
      rw [upd_other _ lc a _ halc, upd_same]
      dsimp only
      rw [upd_same]
      dsimp only
      rw [upd_other _ lc a _ halc, hlcptr]]
    simp only [getP, Res.bind_ok]
    rw [show (upd (upd (upd (upd h lc (fun n => { n with parent := (h a).parent })) a
        (fun n => { n with parent := n.left })) a
        (fun n => { n with left := none })) lc
        (fun n => { n with right := some a }) lc).parent = ctx.holeParent from by
      rw [upd_same]
      dsimp only
      rw [upd_other _ a lc _ (fun hc => halc hc.symm),
        upd_other _ a lc _ (fun hc => halc hc.symm), upd_same]
      dsimp only
      exact hppA]
    have hf_out : ∀ x, x ≠ a → x ≠ lc →
        (upd (upd (upd (upd h lc (fun n => { n with parent := (h a).parent })) a
          (fun n => { n with parent := n.left })) a
          (fun n => { n with left := none })) lc
          (fun n => { n with right := some a })) x = h x := by
      intro x hxa hxrc
      rw [upd_other _ lc x _ hxrc, upd_other _ a x _ hxa, upd_other _ a x _ hxa,
        upd_other _ lc x _ hxrc]
    have hf_vc : ∀ x,
        ((upd (upd (upd (upd h lc (fun n => { n with parent := (h a).parent })) a
          (fun n => { n with parent := n.left })) a
          (fun n => { n with left := none })) lc
          (fun n => { n with right := some a })) x).Val = (h x).Val ∧
        ((upd (upd (upd (upd h lc (fun n => { n with parent := (h a).parent })) a
          (fun n => { n with parent := n.left })) a
          (fun n => { n with left := none })) lc
          (fun n => { n with right := some a })) x).isBlack = (h x).isBlack := by
      intro x
      constructor <;> (simp only [upd]; split_ifs <;> rfl)
    have hf_lc_right : ((upd (upd (upd (upd h lc
        (fun n => { n with parent := (h a).parent })) a
        (fun n => { n with parent := n.left })) a
        (fun n => { n with left := none })) lc
        (fun n => { n with right := some a })) lc).right = some a := by
      rw [upd_same]
    have hf_lc_left : ((upd (upd (upd (upd h lc
        (fun n => { n with parent := (h a).parent })) a
        (fun n => { n with parent := n.left })) a
        (fun n => { n with left := none })) lc
        (fun n => { n with right := some a })) lc).left = (h lc).left := by
      rw [upd_same]
      dsimp only
      rw [upd_other _ a lc _ (fun hc => halc hc.symm),
        upd_other _ a lc _ (fun hc => halc hc.symm), upd_same]
    have hf_rc_parent : ((upd (upd (upd (upd h lc
        (fun n => { n with parent := (h a).parent })) a
        (fun n => { n with parent := n.left })) a
        (fun n => { n with left := none })) lc
        (fun n => { n with right := some a })) lc).parent = ctx.holeParent := by
      rw [upd_same]
      dsimp only
      rw [upd_other _ a lc _ (fun hc => halc hc.symm),
        upd_other _ a lc _ (fun hc => halc hc.symm), upd_same]
      dsimp only
      exact hppA
    have hf_a_right : ((upd (upd (upd (upd h lc
        (fun n => { n with parent := (h a).parent })) a
        (fun n => { n with parent := n.left })) a
        (fun n => { n with left := none })) lc
        (fun n => { n with right := some a })) a).right = (h a).right := by
      rw [upd_other _ lc a _ halc, upd_same]
      dsimp only
      rw [upd_same]
      dsimp only
      rw [upd_other _ lc a _ halc]
    have hf_a_left : ((upd (upd (upd (upd h lc
        (fun n => { n with parent := (h a).parent })) a
        (fun n => { n with parent := n.left })) a
        (fun n => { n with left := none })) lc
        (fun n => { n with right := some a })) a).left = (h lc).right := by
      rw [upd_other _ lc a _ halc, upd_same, Reach.leaf_eq hM]
    have hf_a_parent : ((upd (upd (upd (upd h lc
        (fun n => { n with parent := (h a).parent })) a
        (fun n => { n with parent := n.left })) a
        (fun n => { n with left := none })) lc
        (fun n => { n with right := some a })) a).parent = some lc := by
      rw [upd_other _ lc a _ halc, upd_same]
      dsimp only
      rw [upd_same]
      dsimp only
      rw [upd_other _ lc a _ halc, hlcptr]
    have hagA : ∀ x ∈ sR.addrs,
        (upd (upd (upd (upd h lc (fun n => { n with parent := (h a).parent })) a
          (fun n => { n with parent := n.left })) a
          (fun n => { n with left := none })) lc
          (fun n => { n with right := some a })) x = h x := by
      intro x hx
      exact hf_out x (fun hc => haRv (hc ▸ hx)) (fun hc => hlcRv (hc ▸ hx))
    have hagC : ∀ x ∈ sL.addrs,
        (upd (upd (upd (upd h lc (fun n => { n with parent := (h a).parent })) a
          (fun n => { n with parent := n.left })) a
          (fun n => { n with left := none })) lc
          (fun n => { n with right := some a })) x = h x := by
      intro x hx
      exact hf_out x (fun hc => haLv (hc ▸ hx)) (fun hc => hlcLv (hc ▸ hx))
    cases ctx with
    | top =>
      dsimp only [Ctx.holeParent]
      refine ⟨_, _, rfl, hf_vc, ?_⟩
      have hasm := rotAssembleR hre hpar hreC hparC hndK haK
        ⟨hf_lc_right, hf_lc_left, hf_rc_parent⟩
        ⟨hf_a_right, hf_a_left, hf_a_parent⟩
        hagA (by intro x hx; cases hx) (ParOk.leaf _) hagC
        (by intro x hx; cases hx) (by intro x hx; cases hx)
        (by intro g hg; cases hg)
        (fun _ => hrootif.1 rfl) (fun hne => absurd rfl hne)
      exact ⟨hasm.1, hasm.2.1, hasm.2.2.1, hasm.2.2.2, by
        intro x hxa hxrc _ _
        exact hf_out x hxa hxrc⟩
    | inL g r k =>
      dsimp only [Ctx.holeParent]
      obtain ⟨hponeq, hk, hsib⟩ := ReachC_inL_inv hreC
      have hg1 : g ≠ a := by
        intro hc
        exact haK (hc ▸ (by simp [Ctx.addrs] : g ∈ (Ctx.inL g r k).addrs))
      have hg2 : g ≠ lc := by
        intro hc
        exact hlcK (hc ▸ (by simp [Ctx.addrs] : g ∈ (Ctx.inL g r k).addrs))
      rw [hf_out g hg1 hg2, if_pos hponeq.symm]
      refine ⟨_, _, rfl, ?_, ?_⟩
      · intro x
        have hvc := hf_vc x
        by_cases hxg : x = g
        · subst hxg
          rw [upd_same]
          exact hvc
        · rw [upd_other _ _ _ _ hxg]
          exact hvc
      have hlcF : (((upd (upd (upd (upd (upd h lc (fun n => { n with parent := (h a).parent })) a
          (fun n => { n with parent := n.left })) a
          (fun n => { n with left := none })) lc
          (fun n => { n with right := some a })) g
          (fun n => { n with left := some lc })) lc).right = some a ∧
          ((upd (upd (upd (upd (upd h lc (fun n => { n with parent := (h a).parent })) a
          (fun n => { n with parent := n.left })) a
          (fun n => { n with left := none })) lc
          (fun n => { n with right := some a })) g
          (fun n => { n with left := some lc })) lc).left = (h lc).left ∧
          ((upd (upd (upd (upd (upd h lc (fun n => { n with parent := (h a).parent })) a
          (fun n => { n with parent := n.left })) a
          (fun n => { n with left := none })) lc
          (fun n => { n with right := some a })) g
          (fun n => { n with left := some lc })) lc).parent = (Ctx.inL g r k).holeParent) := by
        refine ⟨?_, ?_, ?_⟩
        · rw [upd_other _ g lc _ (Ne.symm hg2)]
          exact hf_lc_right
        · rw [upd_other _ g lc _ (Ne.symm hg2)]
          exact hf_lc_left
        · rw [upd_other _ g lc _ (Ne.symm hg2)]
          exact hf_rc_parent
      have hasm := rotAssembleR hre hpar hreC hparC hndK haK hlcF
        ⟨by rw [upd_other _ g a _ (Ne.symm hg1)]; exact hf_a_right,
         by rw [upd_other _ g a _ (Ne.symm hg1)]; exact hf_a_left,
         by rw [upd_other _ g a _ (Ne.symm hg1)]; exact hf_a_parent⟩
        (by
          intro x hx
          have hxk : x ∉ (Ctx.inL g r k).addrs := hdisj x (by simp [Shape.addrs]; tauto)
          rw [upd_other _ g x _ (by intro hc; exact hxk (hc ▸ (by simp [Ctx.addrs])))]
          exact hagA x hx)
        (by intro x hx; cases hx) (ParOk.leaf _)
        (by
          intro x hx
          have hxk : x ∉ (Ctx.inL g r k).addrs := hdisj x (by simp [Shape.addrs]; tauto)
          rw [upd_other _ g x _ (by intro hc; exact hxk (hc ▸ (by simp [Ctx.addrs])))]
          exact hagC x hx)
        (by
          intro x hx
          by_cases hxg : x = g
          · subst hxg
            rw [upd_same]
            dsimp only
            rw [hf_out x hg1 hg2]
          · rw [upd_other _ g x _ hxg,
              hf_out x (fun hc => haK (hc ▸ hx)) (fun hc => hlcK (hc ▸ hx))])
        (by
          intro x hx hxg'
          have hxg : x ≠ g := hxg' g rfl
          rw [upd_other _ g x _ hxg,
            hf_out x (fun hc => haK (hc ▸ hx)) (fun hc => hlcK (hc ▸ hx))]
          exact ⟨rfl, rfl⟩)
        (by
          intro g' hg'
          dsimp only [Ctx.holeParent] at hg'
          rw [Option.some_inj] at hg'
          subst hg'
          refine ⟨fun _ => ⟨?_, ?_⟩, fun hcon => absurd hponeq.symm hcon⟩
          · rw [upd_same]
          · rw [upd_same]
            dsimp only
            rw [hf_out g hg1 hg2])
        (by intro hc; cases hc) (fun _ => hrootif.2 (by intro hc; cases hc))
      exact ⟨hasm.1, hasm.2.1, hasm.2.2.1, hasm.2.2.2, by
        intro x hxa hxrc _ hxg'
        rw [upd_other _ g x _ (hxg' g rfl)]
        exact hf_out x hxa hxrc⟩
    | inR g l k =>
      dsimp only [Ctx.holeParent]
      obtain ⟨hponeq, hk, hsib⟩ := ReachC_inR_inv hreC
      have hg1 : g ≠ a := by
        intro hc
        exact haK (hc ▸ (by simp [Ctx.addrs] : g ∈ (Ctx.inR g l k).addrs))
      have hg2 : g ≠ lc := by
        intro hc
        exact hlcK (hc ▸ (by simp [Ctx.addrs] : g ∈ (Ctx.inR g l k).addrs))
      have hglne : (h g).left ≠ some a := by
        intro hc
        have : a ∈ l.addrs := by
          have := Reach.rootAddr_eq hsib
          rw [hc] at this
          exact Shape.rootAddr_mem_addrs l a this.symm
        exact haK (by simp [Ctx.addrs]; tauto)
      rw [hf_out g hg1 hg2, if_neg hglne]
      refine ⟨_, _, rfl, ?_, ?_⟩
      · intro x
        have hvc := hf_vc x
        by_cases hxg : x = g
        · subst hxg
          rw [upd_same]
          exact hvc
        · rw [upd_other _ _ _ _ hxg]
          exact hvc
      have hlcF : (((upd (upd (upd (upd (upd h lc (fun n => { n with parent := (h a).parent })) a
          (fun n => { n with parent := n.left })) a
          (fun n => { n with left := none })) lc
          (fun n => { n with right := some a })) g
          (fun n => { n with right := some lc })) lc).right = some a ∧
          ((upd (upd (upd (upd (upd h lc (fun n => { n with parent := (h a).parent })) a
          (fun n => { n with parent := n.left })) a
          (fun n => { n with left := none })) lc
          (fun n => { n with right := some a })) g
          (fun n => { n with right := some lc })) lc).left = (h lc).left ∧
          ((upd (upd (upd (upd (upd h lc (fun n => { n with parent := (h a).parent })) a
          (fun n => { n with parent := n.left })) a
          (fun n => { n with left := none })) lc
          (fun n => { n with right := some a })) g
          (fun n => { n with right := some lc })) lc).parent = (Ctx.inR g l k).holeParent) := by
        refine ⟨?_, ?_, ?_⟩
        · rw [upd_other _ g lc _ (Ne.symm hg2)]
          exact hf_lc_right
        · rw [upd_other _ g lc _ (Ne.symm hg2)]
          exact hf_lc_left
        · rw [upd_other _ g lc _ (Ne.symm hg2)]
          exact hf_rc_parent
      have hasm := rotAssembleR hre hpar hreC hparC hndK haK hlcF
        ⟨by rw [upd_other _ g a _ (Ne.symm hg1)]; exact hf_a_right,
         by rw [upd_other _ g a _ (Ne.symm hg1)]; exact hf_a_left,
         by rw [upd_other _ g a _ (Ne.symm hg1)]; exact hf_a_parent⟩
        (by
          intro x hx
          have hxk : x ∉ (Ctx.inR g l k).addrs := hdisj x (by simp [Shape.addrs]; tauto)
          rw [upd_other _ g x _ (by intro hc; exact hxk (hc ▸ (by simp [Ctx.addrs])))]
          exact hagA x hx)
        (by intro x hx; cases hx) (ParOk.leaf _)
        (by
          intro x hx
          have hxk : x ∉ (Ctx.inR g l k).addrs := hdisj x (by simp [Shape.addrs]; tauto)
          rw [upd_other _ g x _ (by intro hc; exact hxk (hc ▸ (by simp [Ctx.addrs])))]
          exact hagC x hx)
        (by
          intro x hx
          by_cases hxg : x = g
          · subst hxg
            rw [upd_same]
            dsimp only
            rw [hf_out x hg1 hg2]
          · rw [upd_other _ g x _ hxg,
              hf_out x (fun hc => haK (hc ▸ hx)) (fun hc => hlcK (hc ▸ hx))])
        (by
          intro x hx hxg'
          have hxg : x ≠ g := hxg' g rfl
          rw [upd_other _ g x _ hxg,
            hf_out x (fun hc => haK (hc ▸ hx)) (fun hc => hlcK (hc ▸ hx))]
          exact ⟨rfl, rfl⟩)
        (by
          intro g' hg'
          dsimp only [Ctx.holeParent] at hg'
          rw [Option.some_inj] at hg'
          subst hg'
          refine ⟨fun hcon => absurd hcon hglne, fun _ => ⟨?_, ?_⟩⟩
          · rw [upd_same]
          · rw [upd_same]
            dsimp only
            rw [hf_out g hg1 hg2])
        (by intro hc; cases hc) (fun _ => hrootif.2 (by intro hc; cases hc))
      exact ⟨hasm.1, hasm.2.1, hasm.2.2.1, hasm.2.2.2, by
        intro x hxa hxrc _ hxg'
        rw [upd_other _ g x _ (hxg' g rfl)]
        exact hf_out x hxa hxrc⟩
  | node mm mL mR =>
    have hmmMv : mm ∈ (Shape.node mm mL mR).addrs := by simp [Shape.addrs]
    have hamm : a ≠ mm := fun hc => haMv (hc ▸ hmmMv)
    have hlcmm : lc ≠ mm := fun hc => hlcMv (hc ▸ hmmMv)
    have hndM : (Shape.node mm mL mR).addrs.Nodup := by
      simp only [Shape.addrs, List.nodup_cons, List.nodup_append] at hndS
      simp only [Shape.addrs, List.nodup_cons, List.nodup_append]
      tauto
    rw [Reach.node_eq hM]
    dsimp only
    simp only [Res.pure_eq, Res.bind_ok]
    rw [show (upd (upd (upd (upd h lc (fun n => { n with parent := (h a).parent })) a
        (fun n => { n with parent := n.left })) a
        (fun n => { n with left := some mm })) mm
        (fun n => { n with parent := some a }) a).parent = some lc from by
      rw [upd_other _ mm a _ hamm, upd_same]
      dsimp only
      rw [upd_same]
      dsimp only
      rw [upd_other _ lc a _ halc, hlcptr]]
    simp only [updP, Res.bind_eq, Res.bind_ok]
    rw [show ((upd (upd (upd (upd (upd h lc (fun n => { n with parent := (h a).parent })) a
        (fun n => { n with parent := n.left })) a
        (fun n => { n with left := some mm })) mm
        (fun n => { n with parent := some a })) lc
        (fun n => { n with right := some a })) a).parent = some lc from by
      rw [upd_other _ lc a _ halc, upd_other _ mm a _ hamm, upd_same]
      dsimp only
      rw [upd_same]
      dsimp only
      rw [upd_other _ lc a _ halc, hlcptr]]
    simp only [getP, Res.bind_ok]
    rw [show ((upd (upd (upd (upd (upd h lc (fun n => { n with parent := (h a).parent })) a
        (fun n => { n with parent := n.left })) a
        (fun n => { n with left := some mm })) mm
        (fun n => { n with parent := some a })) lc
        (fun n => { n with right := some a })) lc).parent = ctx.holeParent from by
      rw [upd_same]
      dsimp only
      rw [upd_other _ mm lc _ hlcmm, upd_other _ a lc _ (fun hc => halc hc.symm),
        upd_other _ a lc _ (fun hc => halc hc.symm), upd_same]
      dsimp only
      exact hppA]
    have hf_out : ∀ x, x ≠ a → x ≠ lc → x ∉ (Shape.node mm mL mR).addrs →
        (upd (upd (upd (upd (upd h lc (fun n => { n with parent := (h a).parent })) a
        (fun n => { n with parent := n.left })) a
        (fun n => { n with left := some mm })) mm
        (fun n => { n with parent := some a })) lc
        (fun n => { n with right := some a })) x = h x := by
      intro x hxa hxrc hxB
      have hxbb : x ≠ mm := fun hc => hxB (hc ▸ hmmMv)
      rw [upd_other _ lc x _ hxrc, upd_other _ mm x _ hxbb, upd_other _ a x _ hxa,
        upd_other _ a x _ hxa, upd_other _ lc x _ hxrc]
    have hf_vc : ∀ x, (((upd (upd (upd (upd (upd h lc (fun n => { n with parent := (h a).parent })) a
        (fun n => { n with parent := n.left })) a
        (fun n => { n with left := some mm })) mm
        (fun n => { n with parent := some a })) lc
        (fun n => { n with right := some a }))) x).Val = (h x).Val ∧
        (((upd (upd (upd (upd (upd h lc (fun n => { n with parent := (h a).parent })) a
        (fun n => { n with parent := n.left })) a
        (fun n => { n with left := some mm })) mm
        (fun n => { n with parent := some a })) lc
        (fun n => { n with right := some a }))) x).isBlack = (h x).isBlack := by
      intro x
      constructor <;> (simp only [upd]; split_ifs <;> rfl)
    have hf_lc_right : (((upd (upd (upd (upd (upd h lc (fun n => { n with parent := (h a).parent })) a
        (fun n => { n with parent := n.left })) a
        (fun n => { n with left := some mm })) mm
        (fun n => { n with parent := some a })) lc
        (fun n => { n with right := some a }))) lc).right = some a := by
      rw [upd_same]
    have hf_lc_left : (((upd (upd (upd (upd (upd h lc (fun n => { n with parent := (h a).parent })) a
        (fun n => { n with parent := n.left })) a
        (fun n => { n with left := some mm })) mm
        (fun n => { n with parent := some a })) lc
        (fun n => { n with right := some a }))) lc).left = (h lc).left := by
      rw [upd_same]
      dsimp only
      rw [upd_other _ mm lc _ hlcmm, upd_other _ a lc _ (fun hc => halc hc.symm),
        upd_other _ a lc _ (fun hc => halc hc.symm), upd_same]
    have hf_rc_parent : (((upd (upd (upd (upd (upd h lc (fun n => { n with parent := (h a).parent })) a
        (fun n => { n with parent := n.left })) a
        (fun n => { n with left := some mm })) mm
        (fun n => { n with parent := some a })) lc
        (fun n => { n with right := some a }))) lc).parent = ctx.holeParent := by
      rw [upd_same]
      dsimp only
      rw [upd_other _ mm lc _ hlcmm, upd_other _ a lc _ (fun hc => halc hc.symm),
        upd_other _ a lc _ (fun hc => halc hc.symm), upd_same]
      dsimp only
      exact hppA
    have hf_a_right : (((upd (upd (upd (upd (upd h lc (fun n => { n with parent := (h a).parent })) a
        (fun n => { n with parent := n.left })) a
        (fun n => { n with left := some mm })) mm
        (fun n => { n with parent := some a })) lc
        (fun n => { n with right := some a }))) a).right = (h a).right := by
      rw [upd_other _ lc a _ halc, upd_other _ mm a _ hamm, upd_same]
      dsimp only
      rw [upd_same]
      dsimp only
      rw [upd_other _ lc a _ halc]
    have hf_a_left : (((upd (upd (upd (upd (upd h lc (fun n => { n with parent := (h a).parent })) a
        (fun n => { n with parent := n.left })) a
        (fun n => { n with left := some mm })) mm
        (fun n => { n with parent := some a })) lc
        (fun n => { n with right := some a }))) a).left = (h lc).right := by
      rw [upd_other _ lc a _ halc, upd_other _ mm a _ hamm, upd_same, Reach.node_eq hM]
    have hf_a_parent : (((upd (upd (upd (upd (upd h lc (fun n => { n with parent := (h a).parent })) a
        (fun n => { n with parent := n.left })) a
        (fun n => { n with left := some mm })) mm
        (fun n => { n with parent := some a })) lc
        (fun n => { n with right := some a }))) a).parent = some lc := by
      rw [upd_other _ lc a _ halc, upd_other _ mm a _ hamm, upd_same]
      dsimp only
      rw [upd_same]
      dsimp only
      rw [upd_other _ lc a _ halc, hlcptr]
    have hagA : ∀ x ∈ sR.addrs, ((upd (upd (upd (upd (upd h lc (fun n => { n with parent := (h a).parent })) a
        (fun n => { n with parent := n.left })) a
        (fun n => { n with left := some mm })) mm
        (fun n => { n with parent := some a })) lc
        (fun n => { n with right := some a }))) x = h x := by
      intro x hx
      exact hf_out x (fun hc => haRv (hc ▸ hx)) (fun hc => hlcRv (hc ▸ hx))
        (fun hc => (hMLRv x hc).1 hx)
    have hagC : ∀ x ∈ sL.addrs, ((upd (upd (upd (upd (upd h lc (fun n => { n with parent := (h a).parent })) a
        (fun n => { n with parent := n.left })) a
        (fun n => { n with left := some mm })) mm
        (fun n => { n with parent := some a })) lc
        (fun n => { n with right := some a }))) x = h x := by
      intro x hx
      exact hf_out x (fun hc => haLv (hc ▸ hx)) (fun hc => hlcLv (hc ▸ hx))
        (fun hc => (hMLRv x hc).2 hx)
    have hagB : ∀ x ∈ (Shape.node mm mL mR).addrs,
        (((upd (upd (upd (upd (upd h lc (fun n => { n with parent := (h a).parent })) a
        (fun n => { n with parent := n.left })) a
        (fun n => { n with left := some mm })) mm
        (fun n => { n with parent := some a })) lc
        (fun n => { n with right := some a }))) x).left = (h x).left ∧ (((upd (upd (upd (upd (upd h lc (fun n => { n with parent := (h a).parent })) a
        (fun n => { n with parent := n.left })) a
        (fun n => { n with left := some mm })) mm
        (fun n => { n with parent := some a })) lc
        (fun n => { n with right := some a }))) x).right = (h x).right := by
      intro x hx
      have hxa : x ≠ a := fun hc => haMv (hc ▸ hx)
      have hxrc : x ≠ lc := fun hc => hlcMv (hc ▸ hx)
      by_cases hxbb : x = mm
      · subst hxbb
        rw [upd_other _ lc x _ hxrc, upd_same]
        dsimp only
        rw [upd_other _ a x _ hxa, upd_other _ a x _ hxa, upd_other _ lc x _ hxrc]
        exact ⟨rfl, rfl⟩
      · rw [upd_other _ lc x _ hxrc, upd_other _ mm x _ hxbb, upd_other _ a x _ hxa,
          upd_other _ a x _ hxa, upd_other _ lc x _ hxrc]
        exact ⟨rfl, rfl⟩
    have hparB : ParOk ((upd (upd (upd (upd (upd h lc (fun n => { n with parent := (h a).parent })) a
        (fun n => { n with parent := n.left })) a
        (fun n => { n with left := some mm })) mm
        (fun n => { n with parent := some a })) lc
        (fun n => { n with right := some a }))) (some a) (Shape.node mm mL mR) := by
      have hpMLR : ParOk h (some mm) mL ∧ ParOk h (some mm) mR := by
        cases hpM with
        | node _ _ _ _ _ hL hR => exact ⟨hL, hR⟩
      have hsub : ∀ x ∈ mL.addrs ++ mR.addrs, ((upd (upd (upd (upd (upd h lc (fun n => { n with parent := (h a).parent })) a
        (fun n => { n with parent := n.left })) a
        (fun n => { n with left := some mm })) mm
        (fun n => { n with parent := some a })) lc
        (fun n => { n with right := some a }))) x = h x := by
        intro x hx
        have hxB : x ∈ (Shape.node mm mL mR).addrs := by
          simp only [Shape.addrs, List.mem_cons, List.mem_append] at hx ⊢
          tauto
        have hxbb : x ≠ mm := by
          intro hc
          subst hc
          simp only [Shape.addrs, List.nodup_cons, List.mem_append] at hndM
          rw [List.mem_append] at hx
          exact hndM.1 hx
        have hxa : x ≠ a := fun hc => haMv (hc ▸ hxB)
        have hxrc : x ≠ lc := fun hc => hlcMv (hc ▸ hxB)
        rw [upd_other _ lc x _ hxrc, upd_other _ mm x _ hxbb, upd_other _ a x _ hxa,
          upd_other _ a x _ hxa, upd_other _ lc x _ hxrc]
      refine ParOk.node _ mm _ _ ?_ ?_ ?_
      · rw [upd_other _ lc mm _ (fun hc => hlcmm hc.symm), upd_same]
      · refine ParOk_congr hpMLR.1 ?_
        intro x hx
        rw [hsub x (by rw [List.mem_append]; exact Or.inl hx)]
      · refine ParOk_congr hpMLR.2 ?_
        intro x hx
        rw [hsub x (by rw [List.mem_append]; exact Or.inr hx)]
    cases ctx with
    | top =>
      dsimp only [Ctx.holeParent]
      refine ⟨_, _, rfl, hf_vc, ?_⟩
      have hasm := rotAssembleR hre hpar hreC hparC hndK haK
        ⟨hf_lc_right, hf_lc_left, hf_rc_parent⟩
        ⟨hf_a_right, hf_a_left, hf_a_parent⟩
        hagA hagB hparB hagC
        (by intro x hx; cases hx) (by intro x hx; cases hx)
        (by intro g hg; cases hg)
        (fun _ => hrootif.1 rfl) (fun hne => absurd rfl hne)
      exact ⟨hasm.1, hasm.2.1, hasm.2.2.1, hasm.2.2.2, by
        intro x hxa hxrc hxB _
        exact hf_out x hxa hxrc hxB⟩
    | inL g r k =>
      dsimp only [Ctx.holeParent]
      obtain ⟨hponeq, hk, hsib⟩ := ReachC_inL_inv hreC
      have hg1 : g ≠ a := by
        intro hc
        exact haK (hc ▸ (by simp [Ctx.addrs] : g ∈ (Ctx.inL g r k).addrs))
      have hg2 : g ≠ lc := by
        intro hc
        exact hlcK (hc ▸ (by simp [Ctx.addrs] : g ∈ (Ctx.inL g r k).addrs))
      have hgB : g ∉ (Shape.node mm mL mR).addrs := by
        intro hc
        exact hsMK g hc (by simp [Ctx.addrs])
      rw [hf_out g hg1 hg2 hgB, if_pos hponeq.symm]
      refine ⟨_, _, rfl, ?_, ?_⟩
      · intro x
        have hvc := hf_vc x
        by_cases hxg : x = g
        · subst hxg
          rw [upd_same]
          exact hvc
        · rw [upd_other _ _ _ _ hxg]
          exact hvc
      have hlcF : (((upd ((upd (upd (upd (upd (upd h lc (fun n => { n with parent := (h a).parent })) a
        (fun n => { n with parent := n.left })) a
        (fun n => { n with left := some mm })) mm
        (fun n => { n with parent := some a })) lc
        (fun n => { n with right := some a }))) g (fun n => { n with left := some lc })) lc).right = some a ∧
          ((upd ((upd (upd (upd (upd (upd h lc (fun n => { n with parent := (h a).parent })) a
        (fun n => { n with parent := n.left })) a
        (fun n => { n with left := some mm })) mm
        (fun n => { n with parent := some a })) lc
        (fun n => { n with right := some a }))) g (fun n => { n with left := some lc })) lc).left = (h lc).left ∧
          ((upd ((upd (upd (upd (upd (upd h lc (fun n => { n with parent := (h a).parent })) a
        (fun n => { n with parent := n.left })) a
        (fun n => { n with left := some mm })) mm
        (fun n => { n with parent := some a })) lc
        (fun n => { n with right := some a }))) g (fun n => { n with left := some lc })) lc).parent =
            (Ctx.inL g r k).holeParent) := by
        refine ⟨?_, ?_, ?_⟩
        · rw [upd_other _ g lc _ (Ne.symm hg2)]
          exact hf_lc_right
        · rw [upd_other _ g lc _ (Ne.symm hg2)]
          exact hf_lc_left
        · rw [upd_other _ g lc _ (Ne.symm hg2)]
          exact hf_rc_parent
      have hasm := rotAssembleR hre hpar hreC hparC hndK haK hlcF
        ⟨by rw [upd_other _ g a _ (Ne.symm hg1)]; exact hf_a_right,
         by rw [upd_other _ g a _ (Ne.symm hg1)]; exact hf_a_left,
         by rw [upd_other _ g a _ (Ne.symm hg1)]; exact hf_a_parent⟩
        (by
          intro x hx
          have hxk : x ∉ (Ctx.inL g r k).addrs := hdisj x (by simp [Shape.addrs]; tauto)
          rw [upd_other _ g x _ (by intro hc; exact hxk (hc ▸ (by simp [Ctx.addrs])))]
          exact hagA x hx)
        (by
          intro x hx
          rw [upd_other _ g x _
            (by intro hc; exact hsMK x hx (hc ▸ (by simp [Ctx.addrs])))]
          exact hagB x hx)
        (by
          refine ParOk_congr hparB ?_
          intro x hx
          rw [upd_other _ g x _
            (by intro hc; exact hsMK x hx (hc ▸ (by simp [Ctx.addrs])))])
        (by
          intro x hx
          have hxk : x ∉ (Ctx.inL g r k).addrs := hdisj x (by simp [Shape.addrs]; tauto)
          rw [upd_other _ g x _ (by intro hc; exact hxk (hc ▸ (by simp [Ctx.addrs])))]
          exact hagC x hx)
        (by
          intro x hx
          by_cases hxg : x = g
          · subst hxg
            rw [upd_same]
            dsimp only
            rw [hf_out x hg1 hg2 hgB]
          · rw [upd_other _ g x _ hxg,
              hf_out x (fun hc => haK (hc ▸ hx)) (fun hc => hlcK (hc ▸ hx))
                (fun hc => hsMK x hc hx)])
        (by
          intro x hx hxg'
          have hxg : x ≠ g := hxg' g rfl
          rw [upd_other _ g x _ hxg,
            hf_out x (fun hc => haK (hc ▸ hx)) (fun hc => hlcK (hc ▸ hx))
              (fun hc => hsMK x hc hx)]
          exact ⟨rfl, rfl⟩)
        (by
          intro g' hg'
          dsimp only [Ctx.holeParent] at hg'
          rw [Option.some_inj] at hg'
          subst hg'
          refine ⟨fun _ => ⟨?_, ?_⟩, fun hcon => absurd hponeq.symm hcon⟩
          · rw [upd_same]
          · rw [upd_same]
            dsimp only
            rw [hf_out g hg1 hg2 hgB])
        (by intro hc; cases hc) (fun _ => hrootif.2 (by intro hc; cases hc))
      exact ⟨hasm.1, hasm.2.1, hasm.2.2.1, hasm.2.2.2, by
        intro x hxa hxrc hxB hxg'
        rw [upd_other _ g x _ (hxg' g rfl)]
        exact hf_out x hxa hxrc hxB⟩
    | inR g l k =>
      dsimp only [Ctx.holeParent]
      obtain ⟨hponeq, hk, hsib⟩ := ReachC_inR_inv hreC
      have hg1 : g ≠ a := by
        intro hc
        exact haK (hc ▸ (by simp [Ctx.addrs] : g ∈ (Ctx.inR g l k).addrs))
      have hg2 : g ≠ lc := by
        intro hc
        exact hlcK (hc ▸ (by simp [Ctx.addrs] : g ∈ (Ctx.inR g l k).addrs))
      have hgB : g ∉ (Shape.node mm mL mR).addrs := by
        intro hc
        exact hsMK g hc (by simp [Ctx.addrs])
      have hglne : (h g).left ≠ some a := by
        intro hc
        have : a ∈ l.addrs := by
          have := Reach.rootAddr_eq hsib
          rw [hc] at this
          exact Shape.rootAddr_mem_addrs l a this.symm
        exact haK (by simp [Ctx.addrs]; tauto)
      rw [hf_out g hg1 hg2 hgB, if_neg hglne]
      refine ⟨_, _, rfl, ?_, ?_⟩
      · intro x
        have hvc := hf_vc x
        by_cases hxg : x = g
        · subst hxg
          rw [upd_same]
          exact hvc
        · rw [upd_other _ _ _ _ hxg]
          exact hvc
      have hlcF : (((upd ((upd (upd (upd (upd (upd h lc (fun n => { n with parent := (h a).parent })) a
        (fun n => { n with parent := n.left })) a
        (fun n => { n with left := some mm })) mm
        (fun n => { n with parent := some a })) lc
        (fun n => { n with right := some a }))) g (fun n => { n with right := some lc })) lc).right = some a ∧
          ((upd ((upd (upd (upd (upd (upd h lc (fun n => { n with parent := (h a).parent })) a
        (fun n => { n with parent := n.left })) a
        (fun n => { n with left := some mm })) mm
        (fun n => { n with parent := some a })) lc
        (fun n => { n with right := some a }))) g (fun n => { n with right := some lc })) lc).left = (h lc).left ∧
          ((upd ((upd (upd (upd (upd (upd h lc (fun n => { n with parent := (h a).parent })) a
        (fun n => { n with parent := n.left })) a
        (fun n => { n with left := some mm })) mm
        (fun n => { n with parent := some a })) lc
        (fun n => { n with right := some a }))) g (fun n => { n with right := some lc })) lc).parent =
            (Ctx.inR g l k).holeParent) := by
        refine ⟨?_, ?_, ?_⟩
        · rw [upd_other _ g lc _ (Ne.symm hg2)]
          exact hf_lc_right
        · rw [upd_other _ g lc _ (Ne.symm hg2)]
          exact hf_lc_left
        · rw [upd_other _ g lc _ (Ne.symm hg2)]
          exact hf_rc_parent
      have hasm := rotAssembleR hre hpar hreC hparC hndK haK hlcF
        ⟨by rw [upd_other _ g a _ (Ne.symm hg1)]; exact hf_a_right,
         by rw [upd_other _ g a _ (Ne.symm hg1)]; exact hf_a_left,
         by rw [upd_other _ g a _ (Ne.symm hg1)]; exact hf_a_parent⟩
        (by
          intro x hx
          have hxk : x ∉ (Ctx.inR g l k).addrs := hdisj x (by simp [Shape.addrs]; tauto)
          rw [upd_other _ g x _ (by intro hc; exact hxk (hc ▸ (by simp [Ctx.addrs])))]
          exact hagA x hx)
        (by
          intro x hx
          rw [upd_other _ g x _
            (by intro hc; exact hsMK x hx (hc ▸ (by simp [Ctx.addrs])))]
          exact hagB x hx)
        (by
          refine ParOk_congr hparB ?_
          intro x hx
          rw [upd_other _ g x _
            (by intro hc; exact hsMK x hx (hc ▸ (by simp [Ctx.addrs])))])
        (by
          intro x hx
          have hxk : x ∉ (Ctx.inR g l k).addrs := hdisj x (by simp [Shape.addrs]; tauto)
          rw [upd_other _ g x _ (by intro hc; exact hxk (hc ▸ (by simp [Ctx.addrs])))]
          exact hagC x hx)
        (by
          intro x hx
          by_cases hxg : x = g
          · subst hxg
            rw [upd_same]
            dsimp only
            rw [hf_out x hg1 hg2 hgB]
          · rw [upd_other _ g x _ hxg,
              hf_out x (fun hc => haK (hc ▸ hx)) (fun hc => hlcK (hc ▸ hx))
                (fun hc => hsMK x hc hx)])
        (by
          intro x hx hxg'
          have hxg : x ≠ g := hxg' g rfl
          rw [upd_other _ g x _ hxg,
            hf_out x (fun hc => haK (hc ▸ hx)) (fun hc => hlcK (hc ▸ hx))
              (fun hc => hsMK x hc hx)]
          exact ⟨rfl, rfl⟩)
        (by
          intro g' hg'
          dsimp only [Ctx.holeParent] at hg'
          rw [Option.some_inj] at hg'
          subst hg'
          refine ⟨fun hcon => absurd hcon hglne, fun _ => ⟨?_, ?_⟩⟩
          · rw [upd_same]
          · rw [upd_same]
            dsimp only
            rw [hf_out g hg1 hg2 hgB])
        (by intro hc; cases hc) (fun _ => hrootif.2 (by intro hc; cases hc))
      exact ⟨hasm.1, hasm.2.1, hasm.2.2.1, hasm.2.2.2, by
        intro x hxa hxrc hxB hxg'
        rw [upd_other _ g x _ (hxg' g rfl)]
        exact hf_out x hxa hxrc hxB⟩

end RBGo

namespace RBGo

theorem Bnd_lo_none {α : Type} {c : α → α → Int} {h : Heap α} :
    ∀ {s : Shape} {lo hi : Option α}, Bnd c h lo hi s → Bnd c h none hi s := by
  intro s
  induction s with
  | leaf => intro lo hi _; exact Bnd.leaf _ _
  | node a l r ihl ihr =>
    intro lo hi hb
    cases hb with
    | node _ _ _ _ _ hlo hhi hbl hbr =>
      exact Bnd.node _ _ _ _ _ trivial hhi (ihl hbl) hbr

theorem Bnd_hi_none {α : Type} {c : α → α → Int} {h : Heap α} :
    ∀ {s : Shape} {lo hi : Option α}, Bnd c h lo hi s → Bnd c h lo none s := by
  intro s
  induction s with
  | leaf => intro lo hi _; exact Bnd.leaf _ _
  | node a l r ihl ihr =>
    intro lo hi hb
    cases hb with
    | node _ _ _ _ _ hlo hhi hbl hbr =>
      exact Bnd.node _ _ _ _ _ hlo trivial hbl (ihr hbr)

theorem Bnd_lo_lt {α : Type} {c : α → α → Int} {h : Heap α} (sto : STO c) :
    ∀ {s : Shape} {v w : α} {hi : Option α}, Bnd c h (some v) hi s → c w v < 0 →
      Bnd c h (some w) hi s := by
  intro s
  induction s with
  | leaf => intro v w hi _ _; exact Bnd.leaf _ _
  | node a l r ihl ihr =>
    intro v w hi hb hwv
    cases hb with
    | node _ _ _ _ _ hlo hhi hbl hbr =>
      exact Bnd.node _ _ _ _ _ (sto.trans_lt _ _ _ hwv hlo) hhi (ihl hbl hwv) hbr

theorem Bnd_hi_lt {α : Type} {c : α → α → Int} {h : Heap α} (sto : STO c) :
    ∀ {s : Shape} {v w : α} {lo : Option α}, Bnd c h lo (some v) s → c v w < 0 →
      Bnd c h lo (some w) s := by
  intro s
  induction s with
  | leaf => intro v w lo _ _; exact Bnd.leaf _ _
  | node a l r ihl ihr =>
    intro v w lo hb hvw
    cases hb with
    | node _ _ _ _ _ hlo hhi hbl hbr =>
      exact Bnd.node _ _ _ _ _ hlo (sto.trans_lt _ _ _ hhi hvw) hbl (ihr hbr hvw)

theorem ParOkC_inL_inv {α : Type} {h : Heap α} {g : Nat} {r : Shape} {k : Ctx}
    (hc : ParOkC h (.inL g r k)) :
    ParOkC h k ∧ (h g).parent = k.holeParent ∧ ParOk h (some g) r := by
  cases hc with
  | inL _ _ _ hk hpar hsib => exact ⟨hk, hpar, hsib⟩

theorem ParOkC_inR_inv {α : Type} {h : Heap α} {g : Nat} {l : Shape} {k : Ctx}
    (hc : ParOkC h (.inR g l k)) :
    ParOkC h k ∧ (h g).parent = k.holeParent ∧ ParOk h (some g) l := by
  cases hc with
  | inR _ _ _ hk hpar hsib => exact ⟨hk, hpar, hsib⟩

theorem BndC_inL_inv {α : Type} {c : α → α → Int} {h : Heap α} {g : Nat} {r : Shape}
    {k : Ctx} {lo hi : Option α} (hc : BndC c h (.inL g r k) lo hi) :
    ∃ hi2, hi = some ((h g).Val) ∧ BndC c h k lo hi2 ∧ loLt c lo (h g).Val ∧
      ltHi c (h g).Val hi2 ∧ Bnd c h (some ((h g).Val)) hi2 r := by
  cases hc with
  | inL _ _ _ _ hi2 hk hlo hhi hsib => exact ⟨hi2, rfl, hk, hlo, hhi, hsib⟩

theorem BndC_inR_inv {α : Type} {c : α → α → Int} {h : Heap α} {g : Nat} {l : Shape}
    {k : Ctx} {lo hi : Option α} (hc : BndC c h (.inR g l k) lo hi) :
    ∃ lo2, lo = some ((h g).Val) ∧ BndC c h k lo2 hi ∧ loLt c lo2 (h g).Val ∧
      ltHi c (h g).Val hi ∧ Bnd c h lo2 (some ((h g).Val)) l := by
  cases hc with
  | inR _ _ _ lo2 _ hk hlo hhi hsib => exact ⟨lo2, rfl, hk, hlo, hhi, hsib⟩

theorem BHC_inL_inv {α : Type} {h : Heap α} {g : Nat} {r : Shape} {k : Ctx}
    {n N : Nat} (hc : BHC h (.inL g r k) n N) :
    BHC h k (n + (if (h g).isBlack then 1 else 0)) N ∧ BH h r n := by
  cases hc with
  | inL _ _ _ _ _ hk hsib => exact ⟨hk, hsib⟩

theorem BHC_inR_inv {α : Type} {h : Heap α} {g : Nat} {l : Shape} {k : Ctx}
    {n N : Nat} (hc : BHC h (.inR g l k) n N) :
    BHC h k (n + (if (h g).isBlack then 1 else 0)) N ∧ BH h l n := by
  cases hc with
  | inR _ _ _ _ _ hk hsib => exact ⟨hk, hsib⟩

theorem NoRRC_inL_inv {α : Type} {h : Heap α} {g : Nat} {r : Shape} {k : Ctx}
    (hc : NoRRC h (.inL g r k)) :
    NoRRC h k ∧ NoRR h r ∧
      ((h g).isBlack = false → ∀ x, r.rootAddr = some x → (h x).isBlack = true) ∧
      (k.needBlack h = true → (h g).isBlack = true) := by
  cases hc with
  | inL _ _ _ hk hsib hred hblk => exact ⟨hk, hsib, hred, hblk⟩

theorem NoRRC_inR_inv {α : Type} {h : Heap α} {g : Nat} {l : Shape} {k : Ctx}
    (hc : NoRRC h (.inR g l k)) :
    NoRRC h k ∧ NoRR h l ∧
      ((h g).isBlack = false → ∀ x, l.rootAddr = some x → (h x).isBlack = true) ∧
      (k.needBlack h = true → (h g).isBlack = true) := by
  cases hc with
  | inR _ _ _ hk hsib hred hblk => exact ⟨hk, hsib, hred, hblk⟩

theorem ParOk_node_inv {α : Type} {h : Heap α} {pp : Option Nat} {a : Nat}
    {l r : Shape} (hp : ParOk h pp (.node a l r)) :
    (h a).parent = pp ∧ ParOk h (some a) l ∧ ParOk h (some a) r := by
  cases hp with
  | node _ _ _ _ hpp hl hr => exact ⟨hpp, hl, hr⟩

theorem Reach_node_inv {α : Type} {h : Heap α} {p : Option Nat} {a : Nat}
    {l r : Shape} (hre : Reach h p (.node a l r)) :
    p = some a ∧ Reach h (h a).left l ∧ Reach h (h a).right r := by
  cases hre with
  | node _ _ _ hl hr => exact ⟨rfl, hl, hr⟩

theorem Bnd_node_inv {α : Type} {c : α → α → Int} {h : Heap α} {lo hi : Option α}
    {a : Nat} {l r : Shape} (hb : Bnd c h lo hi (.node a l r)) :
    loLt c lo (h a).Val ∧ ltHi c (h a).Val hi ∧
      Bnd c h lo (some ((h a).Val)) l ∧ Bnd c h (some ((h a).Val)) hi r := by
  cases hb with
  | node _ _ _ _ _ hlo hhi hbl hbr => exact ⟨hlo, hhi, hbl, hbr⟩

theorem NoRR_node_inv {α : Type} {h : Heap α} {a : Nat} {l r : Shape}
    (hn : NoRR h (.node a l r)) :
    ((h a).isBlack = false →
      (∀ x, l.rootAddr = some x → (h x).isBlack = true) ∧
      (∀ x, r.rootAddr = some x → (h x).isBlack = true)) ∧
    NoRR h l ∧ NoRR h r := by
  cases hn with
  | node _ _ _ hrr hl hr => exact ⟨hrr, hl, hr⟩

theorem BH_node_inv {α : Type} {h : Heap α} {a : Nat} {l r : Shape} {n : Nat}
    (hb : BH h (.node a l r) n) :
    ∃ m, BH h l m ∧ BH h r m ∧ n = m + (if (h a).isBlack then 1 else 0) := by
  cases hb with
  | node _ _ _ m hl hr => exact ⟨m, hl, hr, rfl⟩

theorem isBlack_false_some {α : Type} {h : Heap α} {p : Option Nat}
    (hb : isBlack h p = false) : ∃ x, p = some x ∧ (h x).isBlack = false := by
  cases p with
  | none => simp [isBlack] at hb
  | some x => exact ⟨x, rfl, by simpa [isBlack] using hb⟩

theorem isBlack_some {α : Type} (h : Heap α) (x : Nat) :
    isBlack h (some x) = (h x).isBlack := rfl

theorem isBlack_none {α : Type} (h : Heap α) : isBlack h none = true := rfl

end RBGo
